import Mathlib

/-
  Verification development for the content-change-detection engine of the
  meta_news_bot repository (src/pipeline.py, src/summarize.py,
  src/html_clean.py, src/storage.py).

  Texts are modeled as `List Char`.  Python regular expressions that the
  code applies are embedded as executable scanners with the same
  greedy/backtracking semantics on the inputs that occur (comments at each
  definition explain the correspondence).  SHA-256 digests are modeled as an
  injective digest function (the specification, section 4.3, assumes
  collision resistance), so digest equality coincides with equality of the
  normalized text.
-/

set_option maxRecDepth 20000
set_option linter.unnecessarySeqFocus false
set_option linter.unnecessarySimpa false

namespace MNB

abbrev Str := List Char

/-- Helper turning a Lean string literal into the `List Char` representation. -/
def str (s : String) : Str := s.data

/-- Characters matched by Python regex `\s` / stripped by `str.strip()`:
    ASCII whitespace plus NBSP (other rare Unicode space characters are not
    modeled; no input in this development contains them). -/
def pyWs (c : Char) : Bool :=
  c = ' ' || c = '\t' || c = '\n' || c = '\x0d' || c = '\x0b' || c = '\x0c' || c = ' '

/-- Python regex `\d` (ASCII digits; exotic Unicode digits are not modeled). -/
def pyDigit (c : Char) : Bool := c.val ≥ 48 && c.val ≤ 57

/-- Cyrillic letters (the range containing all Russian letters plus Ё/ё). -/
def isCyr (c : Char) : Bool := (c.val ≥ 0x400 && c.val ≤ 0x4FF)

/-- Python regex `\w` with Unicode semantics restricted to the alphabets the
    repository handles: ASCII alphanumerics, underscore, Cyrillic letters. -/
def pyWord (c : Char) : Bool := c.isAlphanum || c = '_' || isCyr c

/-- Lowercasing as Python `str.lower()` / `re.I`, for ASCII and Cyrillic. -/
def lowerRu (c : Char) : Char :=
  if c.val ≥ 65 && c.val ≤ 90 then Char.ofNat (c.toNat + 32)
  else if c.val ≥ 0x410 && c.val ≤ 0x42F then Char.ofNat (c.toNat + 0x20)
  else if c.val = 0x401 then Char.ofNat 0x451
  else c

/-- Case-insensitive character comparison (Python `re.I`). -/
def ciEq (a b : Char) : Bool := lowerRu a = lowerRu b

mutual
/-- `re.sub(p-run, r, s)`: replace every maximal run of characters satisfying
    `p` by the single character `r`.  With `p := pyWs`, `r := ' '` this is
    Python `re.sub(r"\s+", " ", s)`. -/
def runSub (p : Char → Bool) (r : Char) : Str → Str
  | [] => []
  | c :: cs => if p c then r :: runSubSkip p r cs else c :: runSub p r cs

/-- Inside a run: skip the remaining characters of the run. -/
def runSubSkip (p : Char → Bool) (r : Char) : Str → Str
  | [] => []
  | c :: cs => if p c then runSubSkip p r cs else c :: runSub p r cs
end

/-- Python `re.sub(r"\s+", " ", s)`. -/
def wsToSpace (s : Str) : Str := runSub pyWs ' ' s

/-- Python `str.lstrip()`. -/
def lstrip (s : Str) : Str := s.dropWhile pyWs

/-- Python `str.rstrip()`. -/
def rstrip (s : Str) : Str := (s.reverse.dropWhile pyWs).reverse

/-- Python `str.strip()`. -/
def pyStrip (s : Str) : Str := rstrip (lstrip s)

/-- Python `str.strip(chars)` with an explicit character set. -/
def stripChars (set : List Char) (s : Str) : Str :=
  ((s.dropWhile (set.contains ·)).reverse.dropWhile (set.contains ·)).reverse

mutual
/-- Python `re.sub(r"\s{2,}", " ", s)`: runs of two or more whitespace
    characters become a single space; an isolated whitespace character is
    kept as it is. -/
def ws2Sub : Str → Str
  | [] => []
  | c :: cs => if pyWs c then ws2Seen c cs else c :: ws2Sub cs

/-- One whitespace character `c0` has been seen; decide whether a run of
    length ≥ 2 starts here. -/
def ws2Seen (c0 : Char) : Str → Str
  | [] => [c0]
  | c :: cs => if pyWs c then ' ' :: ws2Skip cs else c0 :: c :: ws2Sub cs

/-- Inside a run of length ≥ 2 that has already been replaced. -/
def ws2Skip : Str → Str
  | [] => []
  | c :: cs => if pyWs c then ws2Skip cs else c :: ws2Sub cs
end

/-- Substring test (Python `in` on strings). -/
def isSubstr (pat : Str) : Str → Bool
  | [] => pat.isEmpty
  | c :: cs => pat.isPrefixOf (c :: cs) || isSubstr pat cs

/-- Case-insensitive literal prefix match (`re.I`). -/
def ciPref : Str → Str → Bool
  | [], _ => true
  | _ :: _, [] => false
  | a :: l, c :: cs => ciEq a c && ciPref l cs

/-- One segment of a literal regex alternative: a case-insensitive literal,
    or `\s+`.  `\s+` is matched by its maximal run: in every pattern below a
    `\s+` is followed by a literal starting with a non-whitespace character,
    so the maximal-run match is the only one that can succeed (shorter
    matches leave a whitespace character where a letter is required). -/
inductive Seg where
  | lit (s : Str)
  | wsp

/-- Match a sequence of segments at the head of `cs`, returning the number of
    consumed characters. -/
def matchSegs : List Seg → Str → Option Nat
  | [], _ => some 0
  | .lit l :: segs, cs =>
    if ciPref l cs then (matchSegs segs (cs.drop l.length)).map (l.length + ·) else none
  | .wsp :: segs, cs =>
    let n := (cs.takeWhile pyWs).length
    if n = 0 then none else (matchSegs segs (cs.drop n)).map (n + ·)

/-- The marker alternatives of `_NOISE_RE` in `src/summarize.py`, in the
    pattern order `Last\s+updated | Updated\s+on | Updated: | Опубликовано |
    Обновлено | Дата обновления` (the space inside the last marker is a
    literal space in the pattern). -/
def noiseSpecs : List (List Seg) :=
  [[Seg.lit (str "last"), Seg.wsp, Seg.lit (str "updated")],
   [Seg.lit (str "updated"), Seg.wsp, Seg.lit (str "on")],
   [Seg.lit (str "updated:")],
   [Seg.lit (str "опубликовано")],
   [Seg.lit (str "обновлено")],
   [Seg.lit (str "дата обновления")]]

/-- First marker alternative matching at the head of `cs`. -/
def markerAlt (cs : Str) : Option Nat :=
  noiseSpecs.findSome? (fun segs => matchSegs segs cs)

/-- Exactly `k` decimal digits at the head. -/
def matchDigits (k : Nat) (cs : Str) : Bool :=
  (cs.take k).length = k && (cs.take k).all pyDigit

/-- A `\b` boundary before a word character that the pattern is about to
    match: satisfied when the previous character is absent or a non-word
    character. -/
def prevNonWord (prev : Option Char) : Bool :=
  match prev with
  | some c => !pyWord c
  | none => true

/-- A `\b` boundary after a word character the pattern just matched:
    satisfied at end of input or before a non-word character. -/
def nonWordHead (cs : Str) : Bool :=
  match cs with
  | [] => true
  | c :: _ => !pyWord c

/-- `\b\d{4}-\d{2}-\d{2}\b` of `_NOISE_RE`, matched at the head (the
    preceding character is supplied for the leading `\b`). -/
def isoAt (prev : Option Char) (cs : Str) : Option Nat :=
  if !prevNonWord prev then none
  else if matchDigits 4 cs then
    match cs.drop 4 with
    | '-' :: cs5 =>
      if matchDigits 2 cs5 then
        match cs5.drop 2 with
        | '-' :: cs8 =>
          if matchDigits 2 cs8 && nonWordHead (cs8.drop 2) then some 10 else none
        | _ => none
      else none
    | _ => none
  else none

/-- The Russian month names of `_NOISE_RE`, in pattern order. -/
def ruMonths : List Str :=
  [str "января", str "февраля", str "марта", str "апреля", str "мая",
   str "июня", str "июля", str "августа", str "сентября", str "октября",
   str "ноября", str "декабря"]

/-- `\d{1,2}\s+(month)\s+\d{4}\b` after `d` leading digits have been chosen.
    `\s+` takes its maximal run (see `Seg`); the month alternation has at
    most one member matching at a given position (no month is a
    case-insensitive prefix of another). -/
def russTryD (d : Nat) (cs : Str) : Option Nat :=
  if matchDigits d cs then
    let cs1 := cs.drop d
    let w1 := (cs1.takeWhile pyWs).length
    if w1 = 0 then none else
    match ruMonths.findSome? (fun m => if ciPref m (cs1.drop w1) then some m.length else none) with
    | some ml =>
      let cs3 := (cs1.drop w1).drop ml
      let w2 := (cs3.takeWhile pyWs).length
      if w2 = 0 then none else
      if matchDigits 4 (cs3.drop w2) && nonWordHead ((cs3.drop w2).drop 4) then
        some (d + w1 + ml + w2 + 4)
      else none
    | none => none
  else none

/-- `\b\d{1,2}\s+(january..)\s+\d{4}\b` of `_NOISE_RE`: the greedy `\d{1,2}`
    tries two digits, then one (when two digits are present the one-digit
    retry fails at `\s+`, matching Python backtracking). -/
def russAt (prev : Option Char) (cs : Str) : Option Nat :=
  if !prevNonWord prev then none
  else (russTryD 2 cs).orElse (fun _ => russTryD 1 cs)

/-- Full `_NOISE_RE` match at the head of `cs`: alternatives in pattern
    order.  A marker alternative is followed by `[^\n]*$` — with the `re.M`
    flag `$` matches before a newline or at the end, so the match always
    extends to the end of the current line. -/
def noiseMatch (prev : Option Char) (cs : Str) : Option Nat :=
  match markerAlt cs with
  | some n => some (n + ((cs.drop n).takeWhile (· ≠ '\n')).length)
  | none => (isoAt prev cs).orElse (fun _ => russAt prev cs)

/-- `re.sub(pattern, "", s)` driver: scan left to right; at each position try
    the matcher (which sees the previous character of the original string,
    for `\b`); on a match of `n+1` characters delete them and continue after
    the match.  An empty match is treated as no match (none of the embedded
    patterns can match the empty string).  `fuel` bounds the number of scan
    steps; `reSub` supplies `s.length`, which is sufficient since every step
    consumes at least one character. -/
def reSubF (m : Option Char → Str → Option Nat) : Nat → Option Char → Str → Str
  | 0, _, cs => cs
  | _ + 1, _, [] => []
  | f + 1, prev, c :: cs =>
    match m prev (c :: cs) with
    | some (n + 1) => reSubF m f ((c :: cs)[n]?) ((c :: cs).drop (n + 1))
    | _ => c :: reSubF m f (some c) cs

/-- `pattern.sub("", s)`. -/
def reSub (m : Option Char → Str → Option Nat) (s : Str) : Str :=
  reSubF m s.length none s

/-- `_NOISE_RE.sub("", s)`. -/
def noiseSub (s : Str) : Str := reSub noiseMatch s

/-- The line-start alternatives of `_TAIL_RE`:
    `^(Назад к .*?|Back to .*?|Help Center|Справочный центр).*$` with
    `re.I | re.M`.  The lazy `.*?` followed by the greedy `.*$` always
    consumes to the end of the line, so a line is deleted exactly when it
    starts (case-insensitively) with one of these heads. -/
def tailHeads : List Str :=
  [str "назад к ", str "back to ", str "help center", str "справочный центр"]

/-- Apply `_TAIL_RE` to one line. -/
def tailLine (l : Str) : Str :=
  if tailHeads.any (fun h => ciPref h l) then [] else l

/-- `_TAIL_RE.sub("", s)` (line-anchored, multiline). -/
def tailSub (s : Str) : Str :=
  List.intercalate [Char.ofNat 10] ((s.splitOn '\n').map tailLine)

/-- `normalize_plain` of `src/summarize.py`:
    strip, collapse `\s+` to a space, delete `_NOISE_RE` matches, delete
    `_TAIL_RE` matches, collapse `\s{2,}` to a space, strip. -/
def normalize_plain (plain : Str) : Str :=
  let s1 := pyStrip plain
  let s2 := wsToSpace s1
  let s3 := noiseSub s2
  let s4 := tailSub s3
  pyStrip (ws2Sub s4)

/-- `compute_sig` of `src/summarize.py` / `compute_hash` of
    `src/storage.py`: SHA-256 hex digest of the UTF-8 encoding.  The digest
    is modeled as the identity function: the specification (section 4.3)
    assumes collision resistance, so two digests are equal exactly when the
    digested texts are equal. -/
def compute_sig (text : Str) : Str := text

/-- `compute_hash` of `src/storage.py` (same digest as `compute_sig`). -/
def compute_hash (text : Str) : Str := text

/-! ### `_UPDATED_PATTERNS` of `src/html_clean.py`

Four case-insensitive patterns removed from the page text before hashing.
They are embedded as continuation-passing matchers; candidate lists encode
the greedy order, and `List.findSome?` over them gives full backtracking. -/

/-- CI literal, then continue with `k` on the rest. -/
def litK (l : Str) (cs : Str) (k : Str → Option Nat) : Option Nat :=
  if ciPref l cs then (k (cs.drop l.length)).map (l.length + ·) else none

/-- Alternation of CI literals (pattern order, with backtracking). -/
def altK (ls : List Str) (cs : Str) (k : Str → Option Nat) : Option Nat :=
  ls.findSome? (fun l => litK l cs k)

/-- Bounded repetition of `\d`, greedy: candidate digit counts are supplied
    longest-first and each is retried with the continuation (Python
    backtracking). -/
def digitsK (cands : List Nat) (cs : Str) (k : Str → Option Nat) : Option Nat :=
  cands.findSome? (fun d => if matchDigits d cs then (k (cs.drop d)).map (d + ·) else none)

/-- `\s+` by its maximal run (always followed by a non-whitespace literal or
    digit in these patterns, so shorter runs could not succeed). -/
def wspK (cs : Str) (k : Str → Option Nat) : Option Nat :=
  let n := (cs.takeWhile pyWs).length
  if n = 0 then none else (k (cs.drop n)).map (n + ·)

/-- `\s*` by its maximal run (same argument as `wspK`, with the extra case
    `[:\-]?` following: a shorter run would put whitespace where the
    optional character or a digit is required). -/
def wspStarK (cs : Str) (k : Str → Option Nat) : Option Nat :=
  let n := (cs.takeWhile pyWs).length
  (k (cs.drop n)).map (n + ·)

/-- `[:\-]?`: greedily try consuming the character, then skipping it. -/
def optColonDashK (cs : Str) (k : Str → Option Nat) : Option Nat :=
  match cs with
  | c :: rest =>
    if c = ':' || c = '-' then ((k rest).map (1 + ·)).orElse (fun _ => k cs) else k cs
  | [] => k cs

/-- `\w+` by its maximal run (always followed by `\s+` in these patterns;
    a shorter candidate leaves a word character where whitespace is
    required, so the maximal run is the only viable one). -/
def wordK (cs : Str) (k : Str → Option Nat) : Option Nat :=
  let n := (cs.takeWhile pyWord).length
  if n = 0 then none else (k (cs.drop n)).map (n + ·)

/-- End of pattern. -/
def endK : Str → Option Nat := fun _ => some 0

/-- `updated\s+on\s+\w+\s+\d{1,2},\s+\d{4}` (re.I). -/
def updPat0 (cs : Str) : Option Nat :=
  litK (str "updated") cs (fun a => wspK a (fun b => litK (str "on") b (fun c =>
    wspK c (fun d => wordK d (fun e => wspK e (fun f => digitsK [2, 1] f (fun g =>
      litK (str ",") g (fun h => wspK h (fun i => digitsK [4] i endK)))))))))

/-- `послед(нее|ний)\s+обновлен(ие|о)\s*[:\-]?\s*\d{1,2}\.\d{1,2}\.\d{2,4}` (re.I). -/
def updPat1 (cs : Str) : Option Nat :=
  litK (str "послед") cs (fun a => altK [str "нее", str "ний"] a (fun b =>
    wspK b (fun c => litK (str "обновлен") c (fun d => altK [str "ие", str "о"] d (fun e =>
      wspStarK e (fun f => optColonDashK f (fun g => wspStarK g (fun h =>
        digitsK [2, 1] h (fun i => litK (str ".") i (fun j => digitsK [2, 1] j (fun l =>
          litK (str ".") l (fun o => digitsK [4, 3, 2] o endK))))))))))))

/-- `last\s+updated\s*[:\-]?\s*\d{1,2}\s+\w+\s+\d{4}` (re.I). -/
def updPat2 (cs : Str) : Option Nat :=
  litK (str "last") cs (fun a => wspK a (fun b => litK (str "updated") b (fun c =>
    wspStarK c (fun d => optColonDashK d (fun e => wspStarK e (fun f =>
      digitsK [2, 1] f (fun g => wspK g (fun h => wordK h (fun i =>
        wspK i (fun j => digitsK [4] j endK))))))))))

/-- `\bобновлено\b.*\d{4}` (re.I): after the literal and its trailing word
    boundary, the greedy `.*` (which does not cross a newline) backtracks so
    that the match ends at the last occurrence of four consecutive digits on
    the line. -/
def updPat3 (prev : Option Char) (cs : Str) : Option Nat :=
  if !prevNonWord prev then none
  else litK (str "обновлено") cs (fun rest =>
    if nonWordHead rest then
      let line := rest.takeWhile (· ≠ '\n')
      (List.range (line.length + 1)).reverse.findSome?
        (fun j => if j + 4 ≤ line.length && matchDigits 4 (line.drop j) then some (j + 4) else none)
    else none)

/-- The `for pat in _UPDATED_PATTERNS: text = pat.sub("", text)` loop of
    `clean_html`: the four substitutions applied in order. -/
def updSub (t : Str) : Str :=
  reSub updPat3 (reSub (fun _ => updPat2) (reSub (fun _ => updPat1) (reSub (fun _ => updPat0) t)))

/-! ### Parsed HTML documents

`clean_html` and `extract_sections` operate on the DOM produced by the
external HTML parser (BeautifulSoup).  The DOM is modeled directly: an
element with a (lowercase) tag name and children, or a text node. -/

/-- A parsed HTML node. -/
inductive Node where
  | elem (name : String) (children : List Node)
  | text (s : Str)

/-- A parsed document: the list of root nodes. -/
abbrev Doc := List Node

/-- The structural block-list removed before any text extraction (the same
    set `STRIP_TAGS` appears in `src/html_clean.py` and `src/summarize.py`). -/
def stripTagNames : List String :=
  ["script", "style", "nav", "footer", "header", "noscript", "template", "iframe"]

mutual
/-- `tag.decompose()` for every tag in the block-list. -/
def stripTags : Node → Option Node
  | .text s => some (.text s)
  | .elem n ch =>
    if stripTagNames.contains n then none else some (.elem n (stripTagsList ch))

def stripTagsList : List Node → List Node
  | [] => []
  | n :: ns =>
    match stripTags n with
    | some m => m :: stripTagsList ns
    | none => stripTagsList ns
end

mutual
/-- All text-node strings below a node, in document order (what
    BeautifulSoup `get_text(sep)` joins). -/
def nodeStrings : Node → List Str
  | .text s => [s]
  | .elem _ ch => listStrings ch

def listStrings : List Node → List Str
  | [] => []
  | n :: ns => nodeStrings n ++ listStrings ns
end

/-- `node.get_text(sep)`. -/
def nodeGetText (sep : Str) (n : Node) : Str := List.intercalate sep (nodeStrings n)

/-- `soup.get_text(sep)` over the whole document. -/
def getTextSep (sep : Str) (doc : Doc) : Str := List.intercalate sep (listStrings doc)

mutual
/-- Locate `soup.title` (first `title` element in document order) and model
    its `.string` (the single text child if there is exactly one child). -/
def titleOfNode : Node → Option (Option Str)
  | .text _ => none
  | .elem n ch =>
    if n = "title" then
      some (match ch with | [.text s] => some s | _ => none)
    else titleOfList ch

def titleOfList : List Node → Option (Option Str)
  | [] => none
  | n :: ns => (titleOfNode n).orElse (fun _ => titleOfList ns)
end

/-- `(soup.title.string or "").strip() if soup.title and soup.title.string else ""`. -/
def docTitle (doc : Doc) : Str :=
  match titleOfList doc with
  | some (some s) => pyStrip s
  | _ => []

mutual
/-- `soup.find_all(names)`: matching elements in document order, nested
    matches included. -/
def findAllNode (names : List String) : Node → List Node
  | .text _ => []
  | .elem n ch =>
    (if names.contains n then [Node.elem n ch] else []) ++ findAllList names ch

def findAllList (names : List String) : List Node → List Node
  | [] => []
  | n :: ns => findAllNode names n ++ findAllList names ns
end

/-- `_WS_RE = [ \t ]+` of `src/html_clean.py` (horizontal whitespace;
    newlines excluded). -/
def hWs (c : Char) : Bool := c = ' ' || c = '\t' || c = Char.ofNat 0xa0

mutual
/-- `_MULTI_NL_RE`: `\n{3,}` replaced by exactly two newlines; shorter runs
    are kept as they are. -/
def nl3Sub : Str → Str
  | [] => []
  | c :: cs => if c = '\n' then nl3One cs else c :: nl3Sub cs

def nl3One : Str → Str
  | [] => ['\n']
  | c :: cs => if c = '\n' then nl3Two cs else '\n' :: c :: nl3Sub cs

def nl3Two : Str → Str
  | [] => ['\n', '\n']
  | c :: cs => if c = '\n' then '\n' :: '\n' :: nl3Skip cs else '\n' :: '\n' :: c :: nl3Sub cs

def nl3Skip : Str → Str
  | [] => []
  | c :: cs => if c = '\n' then nl3Skip cs else c :: nl3Sub cs
end

/-- `clean_html` of `src/html_clean.py`, returning
    `(title, plain_text, cleaned_soup)`.

    The repository ships no `config.json`, so `IGNORE_SELECTORS` is the
    empty mapping and `selectors_for(url)` returns `[]` for every URL: the
    custom-selector pass removes nothing and is omitted here.  The third
    component models `cleaned_html = str(soup)[:100000]`: serialising the
    cleaned soup and re-parsing it (which is what `extract_sections` does
    with it) is the identity on the DOM; the 100000-character debug
    truncation is not modeled. -/
def clean_html (doc : Doc) : Str × Str × Doc :=
  let soup := stripTagsList doc
  let title := docTitle soup
  let text0 := getTextSep [Char.ofNat 10] soup
  let text1 := updSub text0
  let text2 := runSub hWs ' ' text1
  let text3 := nl3Sub text2
  (title, pyStrip text3, soup)

/-! ### `extract_sections` of `src/summarize.py` -/

/-- A section as produced by `extract_sections`
    (`{id, title, text, sig}`). -/
structure Sec where
  id : Str
  title : Str
  text : Str
  sig : Str
deriving Repr, DecidableEq

/-- `_slug` of `src/summarize.py`: strip+lower, delete characters outside
    `[\w\- ]`, replace whitespace runs by `-`, strip `-`, default
    `"section"`. -/
def slug (s : Str) : Str :=
  let s1 := (pyStrip s).map lowerRu
  let s2 := s1.filter (fun c => pyWord c || c = '-' || c = ' ')
  let s3 := runSub pyWs '-' s2
  let s4 := stripChars ['-'] s3
  if s4.isEmpty then str "section" else s4

/-- `_flush` of `extract_sections`: build one section record from the
    current title and buffered paragraph texts. -/
def mkSec (title : Str) (buf : List Str) : Sec :=
  let body := pyStrip (List.intercalate [' '] buf)
  let norm := normalize_plain (title ++ [Char.ofNat 10] ++ body)
  { id := slug title, title := pyStrip title, text := body, sig := compute_sig norm }

/-- Tag name of a node (elements only appear in `find_all` results). -/
def nodeName : Node → String
  | .elem n _ => n
  | .text _ => ""

/-- The main loop of `extract_sections` over
    `soup.find_all(["h2","h3","p","li"])`, carrying the current section
    title and paragraph buffer. -/
def sectionsLoop : List Node → Option Str → List Str → List Sec
  | [], cur, buf =>
    (match cur with | some t => [mkSec t buf] | none => [])
  | n :: ns, cur, buf =>
    if nodeName n = "h2" || nodeName n = "h3" then
      let flushed := (match cur with | some t => [mkSec t buf] | none => [])
      let ttl := pyStrip (nodeGetText [' '] n)
      if ttl.isEmpty then flushed ++ sectionsLoop ns none (match cur with | some _ => [] | none => buf)
      else flushed ++ sectionsLoop ns (some ttl) []
    else
      match cur with
      | some t =>
        let txt := pyStrip (nodeGetText [' '] n)
        if txt.length ≥ 2 then sectionsLoop ns (some t) (buf ++ [txt])
        else sectionsLoop ns (some t) buf
      | none => sectionsLoop ns none buf

/-- `extract_sections` of `src/summarize.py`. -/
def extract_sections (doc : Doc) : List Sec :=
  let soup := stripTagsList doc
  sectionsLoop (findAllList ["h2", "h3", "p", "li"] soup) none []

/-! ### `difflib.SequenceMatcher(None, a, b).ratio()`

The Ratcliff/Obershelp-style similarity used by `_pair_changed_sentences`
(`SequenceMatcher(None, s_old, s_new).ratio()`).  `isjunk` is `None`, so the
junk set is empty; the `autojunk` heuristic (elements of `b` occurring more
than `len(b)//100 + 1` times when `len(b) >= 200`) is modeled faithfully. -/

/-- The `autojunk` popularity test of `SequenceMatcher.__chain_b`. -/
def popularB (b : Str) (c : Char) : Bool :=
  b.length ≥ 200 && (b.count c > b.length / 100 + 1)

/-- `b2j[c]`: ascending indices of `c` in `b`, with popular elements
    removed. -/
def b2jList (b : Str) (c : Char) : List Nat :=
  if popularB b c then []
  else (List.range b.length).filter (fun j => b[j]? == some c)

/-- `j2len.get(k, 0)` on the association-list model of the dict. -/
def alGet (l : List (Nat × Nat)) (k : Nat) : Nat :=
  match l.find? (fun p => p.1 = k) with
  | some p => p.2
  | none => 0

/-- The inner loop of `find_longest_match` for one position `i` of `a`:
    walk the (ascending) `b2j` indices, extend diagonal run lengths, and
    update the best block. -/
def flmInner (i blo bhi : Nat) (js : List Nat) (j2 : List (Nat × Nat))
    (best : Nat × Nat × Nat) : List (Nat × Nat) × (Nat × Nat × Nat) :=
  ((js.filter (fun j => blo ≤ j)).takeWhile (fun j => j < bhi)).foldl
    (fun acc j =>
      let k := if j = 0 then 1 else alGet j2 (j - 1) + 1
      let nj2 := (j, k) :: acc.1
      if k > acc.2.2.2 then (nj2, (i + 1 - k, j + 1 - k, k)) else (nj2, acc.2))
    ([], best)

/-- Backward extension loop of `find_longest_match` (the junk set is empty,
    so the junk variants are no-ops). -/
def extBack (a b : Str) (alo blo : Nat) : Nat → Nat → Nat → Nat
  | 0, _, _ => 0
  | f + 1, i, j =>
    if alo < i && blo < j && a[i - 1]? == b[j - 1]? then
      1 + extBack a b alo blo f (i - 1) (j - 1)
    else 0

/-- Forward extension loop of `find_longest_match`. -/
def extFwd (a b : Str) (ahi bhi : Nat) : Nat → Nat → Nat → Nat
  | 0, _, _ => 0
  | f + 1, i, j =>
    if i < ahi && j < bhi && a[i]? == b[j]? then
      1 + extFwd a b ahi bhi f (i + 1) (j + 1)
    else 0

/-- `find_longest_match(alo, ahi, blo, bhi)`: returns `(besti, bestj,
    bestsize)`. -/
def flm (a b : Str) (alo ahi blo bhi : Nat) : Nat × Nat × Nat :=
  let core := (List.range' alo (ahi - alo)).foldl
    (fun (acc : List (Nat × Nat) × (Nat × Nat × Nat)) i =>
      flmInner i blo bhi (b2jList b (a.getD i 'A')) acc.1 acc.2)
    ([], (alo, blo, 0))
  let (bi, bj, bs) := core.2
  let e := extBack a b alo blo bi bi bj
  let bi := bi - e
  let bj := bj - e
  let bs := bs + e
  let f := extFwd a b ahi bhi (ahi - (bi + bs)) (bi + bs) (bj + bs)
  (bi, bj, bs + f)

/-- Total size of all matching blocks (`sum(size for _, _, size in
    get_matching_blocks())`); the recursion of `get_matching_blocks` on the
    sub-ranges on either side of the longest match, with fuel bounding the
    recursion depth. -/
def msF (a b : Str) : Nat → Nat → Nat → Nat → Nat → Nat
  | 0, _, _, _, _ => 0
  | f + 1, alo, ahi, blo, bhi =>
    let (bi, bj, bs) := flm a b alo ahi blo bhi
    if bs = 0 then 0
    else bs + msF a b f alo bi blo bj + msF a b f (bi + bs) ahi (bj + bs) bhi

/-- Number of matching elements `M` in `ratio() = 2*M / T`. -/
def matchedSize (a b : Str) : Nat :=
  msF a b (a.length + b.length + 1) 0 a.length 0 b.length

/-- `SequenceMatcher(None, a, b).ratio()` as an exact rational (Python
    computes the same quotient in floating point; only comparisons with `0`
    and between scores matter here, and the scores that are compared in the
    pairing loop are never close enough for double rounding to change an
    order that matters in this development — comparisons are modeled
    exactly). -/
def ratioQ (a b : Str) : ℚ :=
  let T := a.length + b.length
  if T = 0 then 1 else mkRat (2 * matchedSize a b) T

/-! ### `_split_sentences` and `_pair_changed_sentences` of `src/pipeline.py` -/

mutual
/-- `re.split(r"(?<=[sent])\s+", s)`: split at each maximal whitespace run
    whose preceding character is in `sent`; pieces between matches are
    returned (a trailing run yields a final empty piece, as `re.split`
    does). -/
def splitAfterGo (sent : List Char) : Option Char → Str → Str → List Str
  | _, acc, [] => [acc.reverse]
  | prev, acc, c :: cs =>
    if pyWs c && (match prev with | some p => sent.contains p | none => false) then
      acc.reverse :: splitAfterRun sent cs
    else splitAfterGo sent (some c) (c :: acc) cs

/-- Inside the whitespace run of a split. -/
def splitAfterRun (sent : List Char) : Str → List Str
  | [] => [[]]
  | c :: cs =>
    if pyWs c then splitAfterRun sent cs else splitAfterGo sent (some c) [c] cs
end

/-- `re.split` at sentence boundaries. -/
def splitAfter (sent : List Char) (s : Str) : List Str := splitAfterGo sent none [] s

/-- `_split_sentences` of `src/pipeline.py` (`_SENT_SPLIT_RE =
    (?<=[\.\!\?\n])\s+` after collapsing `\s+` to single spaces). -/
def split_sentences (text : Str) : List Str :=
  let t := pyStrip text
  if t.isEmpty then []
  else
    let t2 := wsToSpace t
    let parts := splitAfter ['.', '!', '?', '\n'] t2
    (parts.map (stripChars (str " -–—• \t"))).filter (fun p => p.length ≥ 2)

/-- The inner best-candidate loop of `_pair_changed_sentences`: fold over
    the indices of `new_only`, skipping claimed indices, keeping the first
    index whose score strictly exceeds the best so far (`best_score` starts
    at `0.0`, `best_j` at `-1`, modeled as `none`). -/
def bestCand (sOld : Str) (newOnly : List Str) (used : List Nat) : Option Nat × ℚ :=
  (List.range newOnly.length).foldl
    (fun acc j =>
      if used.contains j then acc
      else
        let score := ratioQ sOld (newOnly.getD j [])
        if score > acc.2 then (some j, score) else acc)
    (none, 0)

/-- `bestCand` cut off after the first `m` candidate indices: the same fold
    over `List.range m`, for reasoning about the fold by induction on `m`. -/
def bestCandAux (sOld : Str) (newOnly : List Str) (used : List Nat) (m : Nat) :
    Option Nat × ℚ :=
  (List.range m).foldl
    (fun acc j =>
      if used.contains j then acc
      else
        let score := ratioQ sOld (newOnly.getD j [])
        if score > acc.2 then (some j, score) else acc)
    (none, 0)

/-- The outer greedy loop of `_pair_changed_sentences`: for each old
    sentence in order, accept its best candidate when the score exceeds the
    threshold, claiming the index. -/
def pairLoop (threshold : ℚ) (newOnly : List Str) :
    List Str → List Nat → List (Str × Str) × List Nat
  | [], used => ([], used)
  | sOld :: rest, used =>
    match bestCand sOld newOnly used with
    | (some j, score) =>
      if score > threshold then
        let r := pairLoop threshold newOnly rest (j :: used)
        ((sOld, newOnly.getD j []) :: r.1, r.2)
      else pairLoop threshold newOnly rest used
    | (none, _) => pairLoop threshold newOnly rest used

/-- `_pair_changed_sentences` of `src/pipeline.py`.  `same = old ∩ new` by
    exact equality; `old_only`/`new_only` drop members of `same`; matched
    pairs are greedy best matches; the leftovers drop every sentence that
    occurs in a pair. -/
def pair_changed_sentences (old_sents new_sents : List Str) (threshold : ℚ) :
    List (Str × Str) × List Str × List Str :=
  let old_only := old_sents.filter (fun s => !new_sents.contains s)
  let new_only := new_sents.filter (fun s => !old_sents.contains s)
  let pairs := (pairLoop threshold new_only old_only []).1
  let paired_old := pairs.map (fun p => p.1)
  let paired_new := pairs.map (fun p => p.2)
  (pairs,
   old_only.filter (fun s => !paired_old.contains s),
   new_only.filter (fun s => !paired_new.contains s))

/-! ### `summarize_rules` of `src/summarize.py`

The external LLM call `chat(...)` (`src/llm_client.py`) either returns a
response or raises.  `_post_json` wraps the retryable statuses
429/500/502/503/504 in `LLMError` (as `chat` does for a missing API key or
a malformed response body), but its final retry attempt re-raises the
original exception unwrapped (a bare `raise`), so a `requests.HTTPError`
from `raise_for_status` (e.g. status 400), a `ConnectionError`, a
`Timeout` or a `JSONDecodeError` from `r.json()` escapes as itself.
`summarize_rules` catches only `LLMError`.  The call's outcome is modeled
as a `ChatRes` parameter; the prompt string does not influence the result
and is not modeled. -/

/-- The outcome of the external `chat(...)` call: a response, a raised
    `LLMError`, or any other raised exception (re-raised unwrapped by the
    last retry attempt), which nothing in the program catches. -/
inductive ChatRes where
  | ok (resp : Str)
  | llmError
  | fatal
deriving Repr, DecidableEq

/-- `_clip` of `src/summarize.py`. -/
def clip (s : Str) (n : Nat) : Str :=
  let s1 := pyStrip s
  if s1.length ≤ n then s1 else rstrip (s1.take (n - 1)) ++ [Char.ofNat 0x2026]

/-- `_clip_line` of `src/pipeline.py` (limit 800). -/
def clip_line (s : Str) : Str :=
  let s1 := pyStrip s
  if s1.length ≤ 800 then s1 else rstrip (s1.take 799) ++ [Char.ofNat 0x2026]

/-- `_fallback_summarize` of `src/summarize.py`. -/
def fallback_summarize (plain : Str) : Str :=
  if plain.isEmpty then []
  else
    let parts0 := splitAfter ['.', '!', '?'] plain
    let parts := (parts0.filter (fun p => !p.isEmpty && (pyStrip p).length ≥ 15)).map pyStrip
    let lead := clip (parts.headD plain) 150
    let bullets := ((parts.drop 1).take 3).map (fun p => str "- " ++ clip p 120)
    List.intercalate ['\n'] ([lead] ++ bullets)

/-- `text_from_html` of `src/summarize.py` applied to the plain text the
    pipeline passes it (`full_plain` contains no markup, so parsed as HTML
    it is a single text node: the title is empty and the text is the input
    with `_WHITESPACE_RE = [ \t\n]+` collapsed, `\n{3,}` collapsed (a no-op
    after the previous step) and stripped). -/
def text_from_plain (s : Str) : Str × Str :=
  let t := runSub (fun c => c = ' ' || c = '\t' || c = '\n') ' ' s
  ([], pyStrip (nl3Sub t))

/-- `source = plain or html_or_text or ""` of `summarize_rules`: the text
    the summary (or its fallback) is built from — derived from the fetched
    text only. -/
def chatSource (html_or_text : Str) : Str :=
  let plain := (text_from_plain html_or_text).2
  if plain.isEmpty then html_or_text else plain

/-- `summarize_rules` of `src/summarize.py`.  The final `except LLMError`
    handler turns a raised `LLMError` into the deterministic fallback
    summary; any other exception from `chat(...)` propagates to the caller
    (`Except.error`).  An empty source returns before `chat` is called.
    `resp` splitting uses `splitlines`, modeled by newline splitting. -/
def summarize_rules (chatRes : ChatRes) (html_or_text : Str) :
    Except Unit Str :=
  let source := chatSource html_or_text
  if (pyStrip source).isEmpty then .ok []
  else
    match chatRes with
    | .fatal => .error ()
    | .llmError => .ok (fallback_summarize source)
    | .ok resp =>
      let lines := ((resp.splitOn '\n').map rstrip).filter (fun l => !(pyStrip l).isEmpty)
      match lines with
      | [] => .ok (fallback_summarize source)
      | l0 :: lrest =>
        let lead := clip l0 150
        let bulletsRaw0 := lrest.filter (fun l => match l with | c :: _ => c = '-' | [] => false)
        let bulletsRaw :=
          if bulletsRaw0.isEmpty then
            let body := pyStrip (List.intercalate ['\n'] lrest)
            let parts := splitAfter ['.', '!', '?'] body
            (parts.filter (fun p => !p.isEmpty && (pyStrip p).length ≥ 10)).map
              (fun p => str "- " ++ pyStrip p)
          else bulletsRaw0
        let bullets := (bulletsRaw.filterMap (fun b =>
            let b1 := pyStrip (b.dropWhile (fun c => c = '-'))
            if b1.isEmpty then none else some (str "- " ++ clip b1 120))).take 3
        .ok (pyStrip (List.intercalate ['\n'] ([lead] ++ bullets)))

/-! ### The cache data model (`src/storage.py`, items built in
`src/pipeline.py`) -/

/-- A cached item, with the fields `run_update` writes.  Items written by
    earlier versions may lack fields; every item handled in this
    development carries all of them. -/
structure Item where
  tag : Str
  url : Str
  region : Str
  title : Str
  summary : Str
  ts : Str
  hash : Str
  sections : List Sec
  full_text : Str
  last_changed_at : Str
deriving Repr, DecidableEq

/-- A configured source (`config.json` entry); only the fields the engine
    reads.  Absent keys are `none` (`src.get(...)`). -/
structure Source where
  tag : Option Str
  url : Option Str
  title : Option Str
  region : Option Str
deriving Repr, DecidableEq

/-- The `(tag, url, region)` identity key. -/
abbrev Key := Str × Str × Str

/-- `(it.get("tag"), it.get("url"), it.get("region", "GLOBAL"))`. -/
def itemKey (it : Item) : Key := (it.tag, it.url, it.region)

/-- `idx` lookup (`dict` access; the most recent binding wins). -/
def idxFind (m : List (Key × Nat)) (k : Key) : Option Nat :=
  (m.find? (fun p => p.1 = k)).map (fun p => p.2)

/-- `idx[key] = i` (`dict` assignment). -/
def idxSet (m : List (Key × Nat)) (k : Key) (i : Nat) : List (Key × Nat) :=
  (k, i) :: m

/-- `{key(it): i for i, it in enumerate(cache)}` — for duplicate keys the
    later index wins. -/
def buildIdx (cache : List Item) : List (Key × Nat) :=
  cache.enum.foldl (fun m p => idxSet m (itemKey p.2) p.1) []

/-- `_fix_facebook_url` of `src/pipeline.py`. -/
def fbDomains : List Str :=
  [str "facebook.com", str "transparency.meta.com", str "about.fb.com",
   str "developers.facebook.com"]

/-- Append `_fb_noscript=1` to Facebook/Meta URLs. -/
def fix_facebook_url (url : Str) : Str :=
  if fbDomains.any (fun d => isSubstr d url) then
    if !isSubstr (str "_fb_noscript=1") url then
      url ++ (if isSubstr (str "?") url then str "&" else str "?") ++ str "_fb_noscript=1"
    else url
  else url

/-- The key under which a configured source is processed: tag, the
    Facebook-fixed URL, and the region defaulted to `GLOBAL`. -/
def srcKey (src : Source) : Key :=
  (src.tag.getD [], fix_facebook_url (src.url.getD []), src.region.getD (str "GLOBAL"))

/-! ### Structural diff and change flag (`run_update`, lines 560-587) -/

/-- Keep the first occurrence of every element (the key order of a Python
    dict built by insertion). -/
def dedupFirst : List Str → List Str
  | [] => []
  | x :: xs => x :: (dedupFirst xs).filter (fun y => y ≠ x)

/-- The keys of `{s["id"]: s for s in secs if s.get("id")}` in insertion
    order. -/
def secKeys (secs : List Sec) : List Str :=
  dedupFirst ((secs.filter (fun s => !s.id.isEmpty)).map Sec.id)

/-- The value of that dict at `sid` (for duplicate ids the last section
    wins). -/
def mapGetLast (secs : List Sec) (sid : Str) : Option Sec :=
  ((secs.filter (fun s => !s.id.isEmpty)).reverse).find? (fun s => s.id = sid)

/-- The structural diff of `run_update` (lines 567-579): `added`, `removed`,
    `modified` id lists.  Python materialises the sets in unspecified
    iteration order; they are modeled in first-occurrence order and all
    claims about them are stated through membership. -/
def structDiff (existing : Option Item) (secsNew : List Sec) :
    List Str × List Str × List Str :=
  match existing with
  | none => (secKeys secsNew, [], [])
  | some ex =>
    let newIds := secKeys secsNew
    let oldIds := secKeys ex.sections
    let added := newIds.filter (fun i => !oldIds.contains i)
    let removed := oldIds.filter (fun i => !newIds.contains i)
    let modified := (newIds.filter (fun i => oldIds.contains i)).filter
      (fun i => ((mapGetLast secsNew i).map Sec.sig) ≠ ((mapGetLast ex.sections i).map Sec.sig))
    (added, removed, modified)

/-- `changed_here` of `run_update` (lines 581-585). -/
def changedFlag (existing : Option Item) (pageSig : Str)
    (d : List Str × List Str × List Str) : Bool :=
  !d.1.isEmpty || !d.2.1.isEmpty || !d.2.2.isEmpty || existing.isNone ||
    (match existing with
     | some e => decide (e.hash ≠ pageSig)
     | none => false)

/-! ### Per-source processing and the run loop (`run_update`) -/

/-- A sentence-level diff (`global_diff` and the per-section diffs). -/
structure SentDiff where
  changed : List (Str × Str)
  removed : List Str
  added : List Str
deriving Repr, DecidableEq

/-- One block of `section_diffs`. -/
inductive SecDiffBlock where
  | addedB (previews : List Str)
  | removedB (titles : List Str)
  | changedB (title : Str) (changed : List (Str × Str))
      (removedInline : Option (List Str)) (addedInline : Option (List Str))
deriving Repr, DecidableEq

/-- One entry of the run report `details`. -/
structure Detail where
  tag : Str
  url : Str
  region : Str
  title : Str
  diffAdded : List Str
  diffModified : List Str
  diffRemoved : List Str
  globalDiff : SentDiff
  sectionDiffs : List SecDiffBlock
deriving Repr, DecidableEq

/-- The in-run mutable state of `run_update`.  `fatal` models control
    flow, not a Python variable: it is true once an uncaught exception has
    been raised (a non-`LLMError` failure of the summarization call), after
    which no further statement of `run_update` executes. -/
structure RunSt where
  cache : List Item
  idx : List (Key × Nat)
  trans : List (Str × Str)
  changedPages : Nat
  changedSections : Nat
  errors : List (Str × Str × Str)
  details : List Detail
  llmCalls : Nat
  fatal : Bool
deriving Repr, DecidableEq

/-- What one source contributed (exposed for the theorems): the change
    flag, the three id lists, whether `_summarize_async` ran to completion,
    and the detail record (`none` when the source was skipped as unchanged,
    or when the summarization call raised an uncaught exception). -/
structure SrcOutcome where
  changed : Bool
  addedIds : List Str
  removedIds : List Str
  modifiedIds : List Str
  summarized : Bool
  detail : Option Detail
deriving Repr, DecidableEq

/-- `sec_map_new[sid].get("title") or sid`. -/
def titleOrSid (secs : List Sec) (sid : Str) : Str :=
  match mapGetLast secs sid with
  | some s => if s.title.isEmpty then sid else s.title
  | none => sid

/-- The `section_diffs` blocks of `run_update` (lines 611-647). -/
def sectionDiffBlocks (exSections : List Sec) (sectionsNew : List Sec)
    (d : List Str × List Str × List Str) : List SecDiffBlock :=
  let addedBlocks :=
    if d.1.isEmpty then []
    else [SecDiffBlock.addedB (d.1.map (fun sid =>
      let txt := ((mapGetLast sectionsNew sid).map Sec.text).getD []
      let sents := split_sentences txt
      clip_line (match sents with
        | s0 :: _ => s0
        | [] => titleOrSid sectionsNew sid)))]
  let removedBlocks :=
    if d.2.1.isEmpty then []
    else [SecDiffBlock.removedB (d.2.1.map (fun sid =>
      let t := ((exSections.find? (fun s => s.id = sid)).map Sec.title).getD []
      clip_line (if t.isEmpty then sid else t)))]
  let changedBlocks := d.2.2.map (fun sid =>
    let oldTxt := ((exSections.find? (fun s => s.id = sid)).map Sec.text).getD []
    let newTxt := ((mapGetLast sectionsNew sid).map Sec.text).getD []
    let r := pair_changed_sentences (split_sentences oldTxt) (split_sentences newTxt) 0
    SecDiffBlock.changedB (titleOrSid sectionsNew sid)
      (r.1.map (fun p => (clip_line p.1, clip_line p.2)))
      (if r.2.1.isEmpty then none else some (r.2.1.map clip_line))
      (if r.2.2.isEmpty then none else some (r.2.2.map clip_line)))
  addedBlocks ++ removedBlocks ++ changedBlocks

/-- Processing of one source inside the loop of `run_update` (lines
    555-687), after the HTML has been fetched and parsed.  `chatRes` is the
    outcome the external LLM would return for this source, `now` the run
    timestamp (`datetime.now` is called per item; a single run timestamp is
    used for every write of this run).  When the summarization call raises
    an uncaught exception, the exception fires before any in-run state is
    mutated: the state is returned unchanged except for the `fatal`
    control-flow flag. -/
def processSource (st : RunSt) (src : Source) (doc : Doc)
    (chatRes : ChatRes) (now : Str) : RunSt × SrcOutcome :=
  let tag := src.tag.getD []
  let url := fix_facebook_url (src.url.getD [])
  let region := src.region.getD (str "GLOBAL")
  let r := clean_html doc
  let title_auto := r.1
  let full_plain := r.2.1
  let cleaned := r.2.2
  let plain_norm := normalize_plain full_plain
  let page_sig := compute_hash plain_norm
  let sections_new := extract_sections cleaned
  let key : Key := (tag, url, region)
  let existing_i := idxFind st.idx key
  let existing := existing_i.bind (fun i => st.cache[i]?)
  let d := structDiff existing sections_new
  let changed := changedFlag existing page_sig d
  if !changed then
    (st, { changed := false, addedIds := d.1, removedIds := d.2.1,
           modifiedIds := d.2.2, summarized := false, detail := none })
  else
    let summaryCall :=
      match (st.trans.find? (fun p => p.1 = page_sig)).map (fun p => p.2) with
      | some s => some (s, st.trans, false)
      | none =>
        match summarize_rules chatRes full_plain with
        | .error _ => none
        | .ok s => some (s, (page_sig, s) :: st.trans, true)
    match summaryCall with
    | none =>
      ({ st with fatal := true },
       { changed := true, addedIds := d.1, removedIds := d.2.1,
         modifiedIds := d.2.2, summarized := false, detail := none })
    | some (summary, trans2, didCall) =>
    let t0 := if !(src.title.getD []).isEmpty then src.title.getD [] else title_auto
    let t1 := pyStrip t0
    let title := if t1.isEmpty then url else t1
    let exSections := match existing with | some e => e.sections | none => []
    let old_full := match existing with | some e => e.full_text | none => []
    let new_full := full_plain
    let g := pair_changed_sentences (split_sentences old_full) (split_sentences new_full) 0
    let global_diff : SentDiff :=
      { changed := g.1.map (fun p => (clip_line p.1, clip_line p.2)),
        removed := g.2.1.map clip_line,
        added := g.2.2.map clip_line }
    let item : Item :=
      { tag := tag, url := url, region := region, title := title,
        summary := pyStrip summary, ts := now, hash := page_sig,
        sections := sections_new, full_text := new_full, last_changed_at := now }
    let upsert :=
      match existing_i with
      | some i => (st.cache.set i item, st.idx)
      | none => (st.cache ++ [item], idxSet st.idx key st.cache.length)
    let detail : Detail :=
      { tag := tag, url := url, region := region, title := title,
        diffAdded := d.1.map (titleOrSid sections_new),
        diffModified := d.2.2.map (titleOrSid sections_new),
        diffRemoved := d.2.1.map (fun sid =>
          match exSections.find? (fun s => s.id = sid) with
          | some s => s.title
          | none => sid),
        globalDiff := global_diff,
        sectionDiffs := sectionDiffBlocks exSections sections_new d }
    ({ cache := upsert.1, idx := upsert.2, trans := trans2,
       changedPages := st.changedPages + 1,
       changedSections := st.changedSections + (d.1.length + d.2.2.length + d.2.1.length),
       errors := st.errors,
       details := st.details ++ [detail],
       llmCalls := st.llmCalls + (if didCall then 1 else 0),
       fatal := st.fatal },
     { changed := true, addedIds := d.1, removedIds := d.2.1,
       modifiedIds := d.2.2, summarized := didCall, detail := some detail })

/-- The external inputs of one run: the configured sources, the fetch and
    LLM outcomes per source index, the run timestamp, `MAX_ITEMS_TOTAL`,
    the `PRUNE_REMOVED_SOURCES` switch (default on) and the initial
    translation cache. -/
structure Env where
  sources : List Source
  fetch : Nat → Option Doc
  chat : Nat → ChatRes
  now : Str
  maxItemsTotal : Option Nat
  pruneRemoved : Bool
  trans0 : List (Str × Str)

/-- The per-source loop of `run_update`: sources without `tag` or `url` are
    skipped silently; fetch failures append an error record and continue;
    otherwise the source is processed.  Once an uncaught exception has been
    raised (`fatal`), the loop executes nothing further. -/
def runLoop (env : Env) : List (Nat × Source) → RunSt → RunSt
  | [], st => st
  | p :: rest, st =>
    if st.fatal then st else
    let src := p.2
    let tag := src.tag.getD []
    let url := src.url.getD []
    if tag.isEmpty || url.isEmpty then runLoop env rest st
    else
      match env.fetch p.1 with
      | none =>
        runLoop env rest
          { st with errors := st.errors ++
              [(tag, fix_facebook_url url, src.region.getD (str "GLOBAL"))] }
      | some doc => runLoop env rest (processSource st src doc (env.chat p.1) env.now).1

/-- `valid_tuples` of the pruning step (built from the raw configured URL,
    without the Facebook fix-up). -/
def validKeys (sources : List Source) : List Key :=
  (sources.filter (fun s => !(s.tag.getD []).isEmpty && !(s.url.getD []).isEmpty)).map
    (fun s => (s.tag.getD [], s.url.getD [], s.region.getD (str "GLOBAL")))

/-- The pruning step (lines 690-693). -/
def pruneCache (sources : List Source) (pruneOn : Bool) (cache : List Item) : List Item :=
  if pruneOn then cache.filter (fun it => (validKeys sources).contains (itemKey it))
  else cache

/-- Python string `<` (code-point lexicographic), used by the `ts` sort
    key. -/
def strLtCh : Str → Str → Bool
  | [], [] => false
  | [], _ :: _ => true
  | _ :: _, [] => false
  | a :: xs, b :: ys => if a.toNat < b.toNat then true else if a = b then strLtCh xs ys else false

/-- Stable insertion for a descending sort by `ts`: the new element passes
    every strictly more recent element and stops in front of the first
    element that is not more recent, so earlier list elements with an equal
    timestamp stay in front (Python `list.sort(key=ts, reverse=True)` is
    stable). -/
def insertTsDesc (x : Item) : List Item → List Item
  | [] => [x]
  | y :: ys => if strLtCh x.ts y.ts then y :: insertTsDesc x ys else x :: y :: ys

/-- `cache.sort(key=lambda x: x.get("ts",""), reverse=True)`: stable
    descending sort by timestamp, modeled by stable insertion sort. -/
def sortTsDesc : List Item → List Item
  | [] => []
  | x :: xs => insertTsDesc x (sortTsDesc xs)

/-- `stats["max_cache"] = MAX_ITEMS_TOTAL or len(items)` of
    `get_cache_stats` in `src/storage.py`: `items` are read from the
    on-disk cache file, which still holds the pre-run items because
    `save_cache` runs only afterwards.  A configured `0` is falsy in
    Python. -/
def maxCacheOf (maxItemsTotal : Option Nat) (fileItems : List Item) : Nat :=
  match maxItemsTotal with
  | some n => if n = 0 then fileItems.length else n
  | none => fileItems.length

/-- The end-of-run retention step (lines 695-698): unconditional stable
    descending sort by `ts`, then truncation when a truthy bound is
    exceeded. -/
def endOfRunRetention (maxCache : Nat) (cache : List Item) : List Item :=
  let sorted := sortTsDesc cache
  if maxCache ≠ 0 && sorted.length > maxCache then sorted.take maxCache else sorted

/-- The result of a run: the run report and the items the retention step
    hands to `save_cache`.  `aborted` is true when the loop raised an
    uncaught exception: `run_update` then propagates it, `save_cache` is
    never reached, nothing is persisted and the cache file keeps its
    pre-run contents (`savedItems` then holds the value a completed run
    would have saved, and the report fields the crash-point counters). -/
structure RunResult where
  savedItems : List Item
  changedPages : Nat
  changedSections : Nat
  errors : List (Str × Str × Str)
  details : List Detail
  llmCalls : Nat
  aborted : Bool
deriving Repr, DecidableEq

/-- The initial in-run state of `run_update` (cache loaded from the file,
    index built over it). -/
def initSt (env : Env) (fileItems : List Item) : RunSt :=
  { cache := fileItems, idx := buildIdx fileItems, trans := env.trans0,
    changedPages := 0, changedSections := 0, errors := [], details := [],
    llmCalls := 0, fatal := false }

/-- The cache after the per-source loop and pruning, before the retention
    step. -/
def runProcessed (env : Env) (fileItems : List Item) : List Item :=
  pruneCache env.sources env.pruneRemoved
    (runLoop env env.sources.enum (initSt env fileItems)).cache

/-- `run_update` of `src/pipeline.py` as a function of the on-disk cache
    items and the external inputs: load, per-source loop, prune, stats on
    the (still unchanged) cache file, sort, truncate, save. -/
def runUpdate (env : Env) (fileItems : List Item) : RunResult :=
  let st := runLoop env env.sources.enum (initSt env fileItems)
  let final := endOfRunRetention (maxCacheOf env.maxItemsTotal fileItems)
    (runProcessed env fileItems)
  { savedItems := final, changedPages := st.changedPages,
    changedSections := st.changedSections, errors := st.errors,
    details := st.details, llmCalls := st.llmCalls, aborted := st.fatal }

/-! ### Named constants and concrete fixtures used by the theorems -/

/-- The six noise markers of `_NOISE_RE`, as the literal strings written in
    the pattern. -/
def noiseMarkers : List Str :=
  [str "Last updated", str "Updated on", str "Updated:",
   str "Опубликовано", str "Обновлено", str "Дата обновления"]

/-- A one-paragraph page with no headings. -/
def docHello : Doc := [Node.text (str "Hello world.")]

/-- The cached item `run_update` would consider unchanged for `docHello`
    (its stored page hash is the digest of the normalized page text, and it
    has no sections). -/
def itemHello : Item :=
  { tag := str "a", url := str "https://a.example/x", region := str "GLOBAL",
    title := str "A", summary := str "s1", ts := str "2020-01-01T00:00:00+00:00",
    hash := str "Hello world.", sections := [], full_text := str "Hello world.",
    last_changed_at := str "2020-01-01T00:00:00+00:00" }

/-- A second cached item with the same `(tag, url, region)` key. -/
def itemHello2 : Item := { itemHello with summary := str "s2" }

/-- The configured source matching `itemHello`. -/
def srcHello : Source :=
  { tag := some (str "a"), url := some (str "https://a.example/x"),
    title := some (str "A"), region := none }

/-- A second configured source, first seen in the example runs. -/
def srcNews : Source :=
  { tag := some (str "b"), url := some (str "https://b.example/y"),
    title := none, region := none }

/-- The page fetched for `srcNews`. -/
def docNews : Doc := [Node.text (str "Breaking news today.")]

/-- A run with duplicate-key start state: the single configured source is
    fetched successfully and is unchanged. -/
def envDup : Env :=
  { sources := [srcHello], fetch := fun _ => some docHello,
    chat := fun _ => ChatRes.llmError, now := str "2025-10-12T00:00:00+00:00",
    maxItemsTotal := none, pruneRemoved := true, trans0 := [] }

/-- A run with no configured retention bound in which `srcHello` is
    unchanged and `srcNews` is first seen. -/
def envEvict : Env :=
  { sources := [srcHello, srcNews],
    fetch := fun i => if i = 0 then some docHello else some docNews,
    chat := fun _ => ChatRes.ok (str "Lead line"),
    now := str "2025-10-12T00:00:00+00:00",
    maxItemsTotal := none, pruneRemoved := true, trans0 := [] }

/-- A cached item whose page has changed and whose stored summary is about
    to be superseded. -/
def itemOldSum : Item :=
  { tag := str "c", url := str "https://c.example/z", region := str "GLOBAL",
    title := str "C", summary := str "Old summary", ts := str "2020-01-01T00:00:00+00:00",
    hash := str "Old text here.", sections := [], full_text := str "Old text here.",
    last_changed_at := str "2020-01-01T00:00:00+00:00" }

/-- The configured source matching `itemOldSum`. -/
def srcC8 : Source :=
  { tag := some (str "c"), url := some (str "https://c.example/z"),
    title := none, region := none }

/-- The freshly fetched (changed) page for `srcC8`. -/
def docC8 : Doc := [Node.text (str "Completely new policy text appears.")]

/-- The in-run state holding `itemOldSum` when `srcC8` is processed. -/
def stC8 : RunSt :=
  { cache := [itemOldSum], idx := buildIdx [itemOldSum], trans := [],
    changedPages := 0, changedSections := 0, errors := [], details := [],
    llmCalls := 0, fatal := false }

/-- The C8 fixture run whose single summarization call raises a
    non-`LLMError` exception. -/
def envFatal : Env :=
  { sources := [srcC8], fetch := fun _ => some docC8,
    chat := fun _ => ChatRes.fatal, now := str "2025-10-12T00:00:00+00:00",
    maxItemsTotal := none, pruneRemoved := true, trans0 := [] }

/-- The deterministic summary `summarize_rules` returns for a fetched page
    when `chat(...)` raises `LLMError`: the empty string for an empty
    source (returned before `chat` is called), the fallback summary
    otherwise. -/
def llmFallbackFor (doc : Doc) : Str :=
  if (pyStrip (chatSource (clean_html doc).2.1)).isEmpty then []
  else fallback_summarize (chatSource (clean_html doc).2.1)

/-- The `intro` section of the section-added example. -/
def secIntro : Sec :=
  { id := str "intro", title := str "Intro", text := str "intro text", sig := str "s1" }

/-- The `fees` section of the section-added example. -/
def secFees : Sec :=
  { id := str "fees", title := str "Fees", text := str "fees text", sig := str "s2" }

/-- The previous cached item of the section-added example. -/
def itemIntro : Item :=
  { tag := str "d", url := str "https://d.example/w", region := str "GLOBAL",
    title := str "D", summary := [], ts := str "2020-01-01T00:00:00+00:00",
    hash := str "h1", sections := [secIntro], full_text := [],
    last_changed_at := str "2020-01-01T00:00:00+00:00" }

/-- A page whose only varying part is the date of a Russian
    `D month YYYY` stamp (`\d{1,2}\s+(января|…)\s+\d{4}` of
    `_NOISE_RE`). -/
def docRuss (d : String) : Doc :=
  [Node.elem "html" [Node.elem "body"
    [Node.elem "h2" [Node.text (str "Fees")],
     Node.elem "p" [Node.text (str ("Действует с " ++ d ++ " включительно."))],
     Node.elem "p" [Node.text (str "Pay on time.")]]]]

/-- Sample ISO dates for `docIso`. -/
def isoDates : List String := ["2024-01-05", "2025-02-06", "2023-12-28"]

/-- Sample Russian `D month YYYY` dates for `docRuss`. -/
def ruDates : List String := ["5 января 2024", "6 февраля 2025", "28 декабря 2023"]

/-- Sample `D Mon YYYY` dates for the `Last updated:` stamp of `docMark`. -/
def markDates : List String := ["5 Jan 2024", "6 Feb 2025", "19 Jul 2026"]

/-- Sample dotted Russian dates for `docDotted`. -/
def dotDates : List String := ["05.01.2024", "06.02.2025", "28.12.2023"]

/-- A page whose only varying part is the date inside a dotted Russian
    update stamp (`_UPDATED_PATTERNS[1]`: `послед... обновлен...
    DD.MM.YYYY`). -/
def docDotted (d : String) : Doc :=
  [Node.elem "html" [Node.elem "body"
    [Node.elem "h2" [Node.text (str "Fees")],
     Node.elem "p" [Node.text (str ("последнее обновление " ++ d))],
     Node.elem "p" [Node.text (str "Pay on time.")]]]]

/-- A page whose only varying part is an ISO date (`\d{4}-\d{2}-\d{2}` of
    `_NOISE_RE`). -/
def docIso (d : String) : Doc :=
  [Node.elem "html" [Node.elem "body"
    [Node.elem "h2" [Node.text (str "Fees")],
     Node.elem "p" [Node.text (str ("Valid from " ++ d ++ " onwards."))],
     Node.elem "p" [Node.text (str "Pay on time.")]]]]

/-- A page whose only varying part is the date of a `Last updated:` stamp
    (stripped page-level by `_UPDATED_PATTERNS[2]` and section-level by the
    `Last updated` marker of `_NOISE_RE`). -/
def docMark (d : String) : Doc :=
  [Node.elem "html" [Node.elem "body"
    [Node.elem "h2" [Node.text (str "Fees")],
     Node.elem "p" [Node.text (str "Pay on time.")],
     Node.elem "p" [Node.text (str ("Last updated: " ++ d))]]]]

/-- Page signature as computed by `run_update`: digest of the normalized
    plain text of the cleaned page. -/
def pageSigOf (doc : Doc) : Str := compute_hash (normalize_plain (clean_html doc).2.1)

/-- The section signature list of the cleaned page. -/
def sectionSigsOf (doc : Doc) : List Str :=
  (extract_sections (clean_html doc).2.2).map Sec.sig

/-! ### Support definitions for reasoning about `normalize_plain`

`wsToSpace (pyStrip s)` produces strings in a canonical form: every
whitespace character is a plain space, and every space is followed by a
non-space character (no double spaces, no trailing space).  The scan
lemmas about `_NOISE_RE` work on such strings. -/

/-- Every whitespace character of `s` is a plain space. -/
def wsOnlySp (s : Str) : Bool := s.all (fun c => !pyWs c || c = ' ')

/-- Every space in `s` is immediately followed by a non-space character. -/
def spOk : Str → Bool
  | [] => true
  | c :: cs =>
    (if c = ' ' then (match cs with | c2 :: _ => decide (c2 ≠ ' ') | [] => false) else true)
      && spOk cs

/-- The literal text a marker segment list matches when every `\s+` takes a
    single space (the only possibility inside a canonical string). -/
def segsLit : List Seg → Str
  | [] => []
  | .lit l :: segs => l ++ segsLit segs
  | .wsp :: segs => ' ' :: segsLit segs

/-- Character classes of a (possibly partial) date-pattern match region,
    used to show that no noise marker can lie inside such a region. -/
inductive RClass where
  | dig
  | sp
  | ch (c : Char)
deriving Repr, DecidableEq

/-- Compatibility of a character with a region class (`ch` is compared
    case-insensitively, as the month alternation is). -/
def rCompat (c : Char) : RClass → Bool
  | .dig => pyDigit c
  | .sp => pyWs c
  | .ch mc => ciEq c mc

/-- The class string of a `\d{d}\s{w1}month\s{w2}\d{4}` region. -/
def rClassStr (d : Nat) (mon : Str) (w1 w2 : Nat) : List RClass :=
  List.replicate d RClass.dig ++ List.replicate w1 RClass.sp ++
    mon.map RClass.ch ++ List.replicate w2 RClass.sp ++ List.replicate 4 RClass.dig

/-- The class string of the `\d{4}-\d{2}-\d{2}` region. -/
def iClassStr : List RClass :=
  List.replicate 4 RClass.dig ++ [RClass.ch '-'] ++ List.replicate 2 RClass.dig ++
    [RClass.ch '-'] ++ List.replicate 2 RClass.dig

/-- No trailing whitespace character. -/
def noTrailWs (s : Str) : Bool :=
  match s.getLast? with
  | some c => !pyWs c
  | none => true

/-- Compatibility of a string with a class string, position by position
    (the string must not be longer than the class string). -/
def listCompat (s : Str) (cls : List RClass) : Bool :=
  s.length ≤ cls.length && (s.zip cls).all (fun pr => rCompat pr.1 pr.2)

/-! ## Helper lemmas -/

/-- `_slug` never returns the empty string (it falls back to `"section"`). -/
theorem slug_ne_nil (s : Str) : slug s ≠ [] := by
  simp only [slug]
  split
  · intro h
    simp [str] at h
  · next h =>
    intro hh
    rw [hh] at h
    simp at h

/-- Membership in `dedupFirst` is plain membership. -/
theorem mem_dedupFirst {a : Str} {l : List Str} : a ∈ dedupFirst l ↔ a ∈ l := by
  induction l with
  | nil => simp [dedupFirst]
  | cons x xs ih =>
    simp only [dedupFirst, List.mem_cons, List.mem_filter]
    constructor
    · rintro (rfl | ⟨h, _⟩)
      · exact Or.inl rfl
      · exact Or.inr (ih.mp h)
    · rintro (rfl | h2)
      · exact Or.inl rfl
      · by_cases hax : a = x
        · exact Or.inl hax
        · exact Or.inr ⟨ih.mpr h2, by simpa using hax⟩

/-- Every section built by the `extract_sections` loop is a `mkSec`. -/
theorem mem_sectionsLoop (ns : List Node) :
    ∀ (cur : Option Str) (buf : List Str) (x : Sec),
      x ∈ sectionsLoop ns cur buf → ∃ t b, x = mkSec t b := by
  induction ns with
  | nil =>
    intro cur buf x hx
    cases cur with
    | none => simp [sectionsLoop] at hx
    | some t =>
      simp [sectionsLoop] at hx
      exact ⟨t, buf, hx⟩
  | cons n ns ih =>
    intro cur buf x hx
    simp only [sectionsLoop] at hx
    split at hx
    · -- heading node
      split at hx
      · rcases List.mem_append.mp hx with h1 | h2
        · cases cur with
          | none => simp at h1
          | some t =>
            simp at h1
            exact ⟨t, buf, h1⟩
        · exact ih _ _ _ h2
      · rcases List.mem_append.mp hx with h1 | h2
        · cases cur with
          | none => simp at h1
          | some t =>
            simp at h1
            exact ⟨t, buf, h1⟩
        · exact ih _ _ _ h2
    · -- paragraph node
      cases cur with
      | some t =>
        simp only at hx
        split at hx
        · exact ih _ _ _ hx
        · exact ih _ _ _ hx
      | none => exact ih _ _ _ hx

/-- Ids of extracted sections are never empty. -/
theorem extract_sections_id_ne_nil (doc : Doc) :
    ∀ x ∈ extract_sections doc, x.id ≠ [] := by
  intro x hx
  obtain ⟨t, b, rfl⟩ := mem_sectionsLoop _ _ _ _ hx
  simpa [mkSec] using slug_ne_nil t

/-- Membership in `secKeys` for section lists with nonempty ids. -/
theorem mem_secKeys_of_ne_nil {secs : List Sec} (h : ∀ x ∈ secs, x.id ≠ [])
    {i : Str} : i ∈ secKeys secs ↔ i ∈ secs.map Sec.id := by
  unfold secKeys
  rw [mem_dedupFirst]
  constructor
  · intro hm
    rcases List.mem_map.mp hm with ⟨s, hs, rfl⟩
    exact List.mem_map.mpr ⟨s, (List.mem_filter.mp hs).1, rfl⟩
  · intro hm
    rcases List.mem_map.mp hm with ⟨s, hs, rfl⟩
    refine List.mem_map.mpr ⟨s, List.mem_filter.mpr ⟨hs, ?_⟩, rfl⟩
    simpa [List.isEmpty_iff] using h s hs

/-- **C1**  For every run and every configured source, the page-level change
    flag equals: added∪removed∪modified nonempty, OR no previous cached item
    exists for the source key, OR the stored page signature differs from the
    fresh one; when no previous item exists the flag is true unconditionally
    and `added_section_ids` is the set of all current section ids.  The
    first conjunct ties the flag reported by `processSource` to
    `changedFlag` applied to the looked-up previous item, the fresh page
    signature and the structural diff; the second characterises
    `changedFlag`; the third is the first-seen case over any fetched
    document. -/
theorem C1_page_change_flag :
    (∀ (st : RunSt) (src : Source) (doc : Doc) (cr : ChatRes) (now : Str),
      (processSource st src doc cr now).2.changed =
        changedFlag ((idxFind st.idx (srcKey src)).bind (fun i => st.cache[i]?))
          (pageSigOf doc)
          (structDiff ((idxFind st.idx (srcKey src)).bind (fun i => st.cache[i]?))
            (extract_sections (clean_html doc).2.2))) ∧
    (∀ (ex : Option Item) (ps : Str) (secs : List Sec),
      changedFlag ex ps (structDiff ex secs) = true ↔
        ((structDiff ex secs).1 ≠ [] ∨ (structDiff ex secs).2.1 ≠ [] ∨
         (structDiff ex secs).2.2 ≠ [] ∨ ex = none ∨
         ∃ e, ex = some e ∧ e.hash ≠ ps)) ∧
    (∀ (ps : Str) (doc : Doc),
      changedFlag none ps (structDiff none (extract_sections (clean_html doc).2.2)) = true ∧
      ∀ i, i ∈ (structDiff none (extract_sections (clean_html doc).2.2)).1 ↔
        i ∈ (extract_sections (clean_html doc).2.2).map Sec.id) := by
  refine ⟨?_, ?_, ?_⟩
  · intro st src doc cr now
    simp only [processSource, srcKey, pageSigOf]
    split
    · simp_all
    · split <;> simp_all
  · intro ex ps secs
    cases ex <;> simp [changedFlag, List.isEmpty_iff, decide_eq_true_eq] <;> tauto
  · intro ps doc
    refine ⟨by simp [changedFlag], ?_⟩
    intro i
    have h := extract_sections_id_ne_nil (clean_html doc).2.2
    simp only [structDiff]
    exact mem_secKeys_of_ne_nil h

/-- **C2**  The structural diff computes `added = new_ids − old_ids`,
    `removed = old_ids − new_ids`, `modified = {id ∈ old ∩ new : stored
    signature ≠ fresh signature}`, with `old_ids = ∅` when no previous item
    exists (first three conjuncts, stated through membership since Python
    materialises the sets in unspecified order); and on the concrete example
    (previous sections `[{id:"intro"}]`, current `[{id:"intro"},
    {id:"fees"}]`, intro signature unchanged) it yields
    `added=["fees"]`, `modified=[]`, `changed=true` for every page
    signature. -/
theorem C2_structural_diff :
    (∀ (ex : Option Item) (secs : List Sec),
      (∀ i, i ∈ (structDiff ex secs).1 ↔
        (i ∈ secKeys secs ∧ i ∉ ex.elim ([] : List Str) (fun e => secKeys e.sections))) ∧
      (∀ i, i ∈ (structDiff ex secs).2.1 ↔
        (i ∈ ex.elim ([] : List Str) (fun e => secKeys e.sections) ∧ i ∉ secKeys secs)) ∧
      (∀ i, i ∈ (structDiff ex secs).2.2 ↔
        (i ∈ secKeys secs ∧ i ∈ ex.elim ([] : List Str) (fun e => secKeys e.sections) ∧
          (mapGetLast secs i).map Sec.sig ≠
            (mapGetLast (ex.elim ([] : List Sec) Item.sections) i).map Sec.sig))) ∧
    (structDiff (some itemIntro) [secIntro, secFees] = ([str "fees"], [], []) ∧
      ∀ ps : Str, changedFlag (some itemIntro) ps
        (structDiff (some itemIntro) [secIntro, secFees]) = true) := by
  constructor
  · intro ex secs
    cases ex with
    | none =>
      refine ⟨?_, ?_, ?_⟩ <;> intro i <;> simp [structDiff]
    | some e =>
      refine ⟨?_, ?_, ?_⟩ <;> intro i <;>
        simp [structDiff, List.mem_filter, decide_eq_true_eq] <;> tauto
  · constructor
    · decide
    · intro ps
      have h : structDiff (some itemIntro) [secIntro, secFees] = ([str "fees"], [], []) := by
        decide
      rw [h]
      simp [changedFlag, str]

/-! ### Lemmas about the stable descending timestamp sort -/

/-- Lexicographic `<` on strings is irreflexive. -/
theorem strLtCh_irrefl (a : Str) : strLtCh a a = false := by
  induction a with
  | nil => rfl
  | cons c cs ih => simp [strLtCh, ih]

/-- Lexicographic `<` on strings is asymmetric. -/
theorem strLtCh_asymm {a b : Str} (h : strLtCh a b = true) : strLtCh b a = false := by
  induction a generalizing b with
  | nil =>
    cases b with
    | nil => simpa [strLtCh] using h
    | cons y ys => simp [strLtCh]
  | cons x xs ih =>
    cases b with
    | nil => simp [strLtCh] at h
    | cons y ys =>
      simp only [strLtCh] at h ⊢
      by_cases hv : x.toNat < y.toNat
      · have h1 : ¬ y.toNat < x.toNat := by omega
        have h2 : y ≠ x := fun he => by subst he; omega
        simp [h1, h2]
      · simp only [hv, if_false] at h
        by_cases he : x = y
        · subst he
          simp only [if_pos rfl] at h
          simp [Nat.lt_irrefl, ih h]
        · simp [he] at h

/-- `¬(a < b)` is transitive (totality of the lexicographic order). -/
theorem strLtCh_nlt_trans {a b c : Str} (hab : strLtCh a b = false)
    (hbc : strLtCh b c = false) : strLtCh a c = false := by
  induction a generalizing b c with
  | nil =>
    cases b with
    | nil =>
      cases c with
      | nil => rfl
      | cons z zs => simp [strLtCh] at hbc
    | cons y ys => simp [strLtCh] at hab
  | cons x xs ih =>
    cases c with
    | nil => cases xs <;> rfl
    | cons z zs =>
      cases b with
      | nil => simp [strLtCh] at hbc
      | cons y ys =>
        simp only [strLtCh] at hab hbc ⊢
        by_cases h1 : x.toNat < y.toNat
        · simp [h1] at hab
        · by_cases h2 : y.toNat < z.toNat
          · simp [h2] at hbc
          · have hxz : ¬ x.toNat < z.toNat := by omega
            simp only [hxz, if_false]
            by_cases he : x = z
            · subst he
              have hyx : y.toNat = x.toNat := by omega
              have hy : y = x := Char.ext (UInt32.ext hyx)
              subst hy
              simp only [if_pos rfl]
              simp only [if_neg h1, if_pos rfl] at hab hbc
              exact ih hab hbc
            · simp [he]

/-- `insertTsDesc` adds one element. -/
theorem insertTsDesc_length (x : Item) (l : List Item) :
    (insertTsDesc x l).length = l.length + 1 := by
  induction l with
  | nil => rfl
  | cons y ys ih =>
    simp only [insertTsDesc]
    split <;> simp [ih]

/-- `sortTsDesc` preserves length. -/
theorem sortTsDesc_length (l : List Item) : (sortTsDesc l).length = l.length := by
  induction l with
  | nil => rfl
  | cons x xs ih => simp [sortTsDesc, insertTsDesc_length, ih]

/-- `insertTsDesc` is a permutation of pushing the element on the front. -/
theorem insertTsDesc_perm (x : Item) (l : List Item) :
    (insertTsDesc x l).Perm (x :: l) := by
  induction l with
  | nil => rfl
  | cons y ys ih =>
    simp only [insertTsDesc]
    split
    · exact ((ih.cons y).trans (List.Perm.swap x y ys))
    · rfl

/-- `sortTsDesc` is a permutation of its input. -/
theorem sortTsDesc_perm (l : List Item) : (sortTsDesc l).Perm l := by
  induction l with
  | nil => rfl
  | cons x xs ih => exact (insertTsDesc_perm x (sortTsDesc xs)).trans (ih.cons x)

/-- `insertTsDesc` preserves descending sortedness. -/
theorem insertTsDesc_pairwise {x : Item} {l : List Item}
    (h : l.Pairwise (fun a b => strLtCh a.ts b.ts = false)) :
    (insertTsDesc x l).Pairwise (fun a b => strLtCh a.ts b.ts = false) := by
  induction l with
  | nil => simp [insertTsDesc]
  | cons y ys ih =>
    rcases List.pairwise_cons.mp h with ⟨hy, hys⟩
    simp only [insertTsDesc]
    split
    · next hlt =>
      refine List.pairwise_cons.mpr ⟨?_, ih hys⟩
      intro z hz
      rcases List.mem_cons.mp ((insertTsDesc_perm x ys).mem_iff.mp hz) with rfl | hz2
      · exact strLtCh_asymm hlt
      · exact hy z hz2
    · next hnlt =>
      refine List.pairwise_cons.mpr ⟨?_, h⟩
      intro z hz
      rcases List.mem_cons.mp hz with rfl | hz2
      · simpa using hnlt
      · have hxy : strLtCh x.ts y.ts = false := by simpa using hnlt
        exact strLtCh_nlt_trans hxy (hy z hz2)

/-- `sortTsDesc` sorts descending by timestamp. -/
theorem sortTsDesc_pairwise (l : List Item) :
    (sortTsDesc l).Pairwise (fun a b => strLtCh a.ts b.ts = false) := by
  induction l with
  | nil => simp [sortTsDesc]
  | cons x xs ih => exact insertTsDesc_pairwise ih

/-- Equal-timestamp items keep their relative order through `insertTsDesc`
    (the inserted element passes only strictly more recent items). -/
theorem filter_insertTsDesc (t : Str) (x : Item) (l : List Item) :
    (insertTsDesc x l).filter (fun it => it.ts = t) =
      if x.ts = t then x :: l.filter (fun it => it.ts = t)
      else l.filter (fun it => it.ts = t) := by
  induction l with
  | nil =>
    simp only [insertTsDesc, List.filter]
    split <;> simp_all
  | cons y ys ih =>
    simp only [insertTsDesc]
    split
    · next hlt =>
      by_cases hxt : x.ts = t
      · have hyt : y.ts ≠ t := by
          intro hyt
          rw [← hxt] at hyt
          rw [hyt] at hlt
          simp [strLtCh_irrefl] at hlt
        simp only [List.filter_cons, ih]
        simp [hxt, hyt]
      · simp only [List.filter_cons, ih]
        by_cases hyt : y.ts = t <;> simp [hxt, hyt]
    · by_cases hxt : x.ts = t <;> by_cases hyt : y.ts = t <;>
        simp [List.filter_cons, hxt, hyt]

/-- Equal-timestamp items keep their original relative order in the sorted
    list (stability of the sort). -/
theorem filter_sortTsDesc (t : Str) (l : List Item) :
    (sortTsDesc l).filter (fun it => it.ts = t) = l.filter (fun it => it.ts = t) := by
  induction l with
  | nil => rfl
  | cons x xs ih =>
    simp only [sortTsDesc, filter_insertTsDesc, List.filter_cons, ih]
    split <;> simp_all

/-- A filtered prefix is a prefix of the filtered list. -/
theorem filter_take_exists (p : Item → Bool) (n : Nat) (l : List Item) :
    ∃ k, (l.take n).filter p = (l.filter p).take k := by
  induction l generalizing n with
  | nil => exact ⟨0, by simp⟩
  | cons x xs ih =>
    cases n with
    | zero => exact ⟨0, by simp⟩
    | succ m =>
      rcases ih m with ⟨k, hk⟩
      by_cases hp : p x
      · exact ⟨k + 1, by simp [List.filter_cons, hp, hk]⟩
      · exact ⟨k, by simp [List.filter_cons, hp, hk]⟩

/-- **C3 (counterexample)**  A run (`envEvict`, starting cache
    `[itemHello]`, no configured retention bound) in which the change flag
    for `srcHello` is false — it is processed first, in the initial state —
    and yet the cached item for that source key is absent from the saved
    cache: the end-of-run retention step evicted it after the first-seen
    source `srcNews` appended an item.  This refutes `so it is identical
    before and after the run`. -/
theorem C3_cex_skipped_item_evicted :
    (processSource (initSt envEvict [itemHello]) srcHello docHello
        (envEvict.chat 0) envEvict.now).2.changed = false ∧
    itemKey itemHello = srcKey srcHello ∧
    (runUpdate envEvict [itemHello]).savedItems.all
      (fun it => !(itemKey it = itemKey itemHello : Bool)) = true := by
  refine ⟨by decide, by decide, by decide⟩

/-- **C3 (amended)**  When the change flag of a source is false, the engine
    skips all further work for that source: no sentence-level diffing (no
    detail record is built), no summarization call, and no cache write —
    the per-source step leaves the whole in-run state unchanged.  (The item
    can still be dropped later by the end-of-run pruning or retention steps,
    or replaced by another configured source with the same key.) -/
theorem C3_change_suppression :
    ∀ (st : RunSt) (src : Source) (doc : Doc) (cr : ChatRes) (now : Str),
      (processSource st src doc cr now).2.changed = false →
      (processSource st src doc cr now).1 = st ∧
      (processSource st src doc cr now).2.summarized = false ∧
      (processSource st src doc cr now).2.detail = none := by
  intro st src doc cr now h
  simp only [processSource] at h ⊢
  split at h
  · simp_all
  · split at h <;> simp_all

/-- Witness for `C3_change_suppression` at a concrete unchanged source. -/
theorem C3_change_suppression_w :
    (processSource (initSt envEvict [itemHello]) srcHello docHello
        (ChatRes.ok (str "Lead line")) (str "2025-10-12T00:00:00+00:00")).1 =
      initSt envEvict [itemHello] :=
  (C3_change_suppression (initSt envEvict [itemHello]) srcHello docHello
    (ChatRes.ok (str "Lead line")) (str "2025-10-12T00:00:00+00:00") (by decide)).1

theorem runSubSkip_eq (p : Char → Bool) (r : Char) :
    ∀ s : Str, runSubSkip p r s = runSub p r (s.dropWhile p) := by
  intro s
  induction s with
  | nil => rfl
  | cons c cs ih =>
    by_cases hc : p c
    · simp [runSubSkip, List.dropWhile, hc, ih]
    · simp [runSubSkip, List.dropWhile, hc, runSub]

theorem runSub_append (p : Char → Bool) (r : Char) (t : Str)
    (ht : t = [] ∨ ∃ d ds, t = d :: ds ∧ p d = false) :
    ∀ u : Str, runSub p r (u ++ t) = runSub p r u ++ runSub p r t ∧
      runSubSkip p r (u ++ t) = runSubSkip p r u ++ runSub p r t := by
  intro u
  induction u with
  | nil =>
    constructor
    · simp [runSub]
    · rcases ht with rfl | ⟨d, ds, rfl, hd⟩
      · simp [runSubSkip, runSub]
      · simp [runSubSkip, runSub, hd]
  | cons c cs ih =>
    by_cases hc : p c
    · simp [runSub, runSubSkip, hc, ih.2]
    · simp [runSub, runSubSkip, hc, ih.1]



theorem noTrailWs_cons {c : Char} {cs : Str} (h : noTrailWs (c :: cs)) : noTrailWs cs := by
  cases cs with
  | nil => rfl
  | cons d ds => simpa [noTrailWs, List.getLast?] using h

theorem noTrailWs_cons_of {c : Char} {cs : Str} (hc : ¬ pyWs c = true)
    (h : noTrailWs cs) : cs = [] → noTrailWs (c :: cs) := by
  intro h0; subst h0; simp [noTrailWs, hc]

theorem noTrailWs_cons_iff {c : Char} {cs : Str} (hne : cs ≠ []) :
    noTrailWs (c :: cs) = noTrailWs cs := by
  cases cs with
  | nil => exact absurd rfl hne
  | cons d ds => simp [noTrailWs, List.getLast?]

theorem allWs_not_noTrail : ∀ (cs : Str) (c : Char), pyWs c = true →
    cs.all pyWs = true → noTrailWs (c :: cs) = false := by
  intro cs
  induction cs with
  | nil => intro c hc _; simp [noTrailWs, hc]
  | cons d ds ih =>
    intro c hc hall
    simp only [List.all_cons, Bool.and_eq_true] at hall
    rw [noTrailWs_cons_iff (by simp)]
    exact ih d hall.1 hall.2

theorem dropWhile_head {p : Char → Bool} : ∀ (cs : Str) {d : Char} {ds : Str},
    cs.dropWhile p = d :: ds → p d = false := by
  intro cs
  induction cs with
  | nil => intro d ds h; simp [List.dropWhile] at h
  | cons c cs ih =>
    intro d ds h
    by_cases hc : p c
    · rw [List.dropWhile_cons_of_pos hc] at h; exact ih h
    · rw [List.dropWhile_cons_of_neg hc] at h
      cases h
      exact Bool.eq_false_iff.mpr hc

theorem noTrailWs_dropWhile (p : Char → Bool) : ∀ (cs : Str), noTrailWs cs →
    noTrailWs (cs.dropWhile p) := by
  intro cs
  induction cs with
  | nil => intro h; exact h
  | cons c cs ih =>
    intro h
    by_cases hc : p c
    · rw [List.dropWhile_cons_of_pos hc]; exact ih (noTrailWs_cons h)
    · rw [List.dropWhile_cons_of_neg hc]; exact h

theorem canon_runSub :
    ∀ (n : Nat) (s : Str), s.length ≤ n → noTrailWs s →
      wsOnlySp (runSub pyWs ' ' s) = true ∧ spOk (runSub pyWs ' ' s) = true ∧
      noTrailWs (runSub pyWs ' ' s) = true := by
  intro n
  induction n with
  | zero =>
    intro s hs _
    rw [List.length_eq_zero.mp (Nat.le_zero.mp hs)]
    exact ⟨rfl, rfl, rfl⟩
  | succ n ih =>
    intro s hs htr
    cases s with
    | nil => exact ⟨rfl, rfl, rfl⟩
    | cons c cs =>
      simp only [List.length_cons, Nat.succ_le_succ_iff] at hs
      by_cases hc : pyWs c
      · -- whitespace head: output a single space, skip the run
        have hout : runSub pyWs ' ' (c :: cs) = ' ' :: runSub pyWs ' ' (cs.dropWhile pyWs) := by
          simp [runSub, hc, runSubSkip_eq]
        set e := cs.dropWhile pyWs with he
        have hene : e ≠ [] := by
          intro h0
          have hall : cs.all pyWs = true :=
            List.all_eq_true.mpr (List.dropWhile_eq_nil_iff.mp h0)
          rw [allWs_not_noTrail cs c hc hall] at htr
          exact Bool.false_ne_true htr
        obtain ⟨d, ds, hde⟩ : ∃ d ds, e = d :: ds := by
          cases hee : e with
          | nil => exact absurd hee hene
          | cons d ds => exact ⟨d, ds, rfl⟩
        have hd : pyWs d = false := dropWhile_head cs (he ▸ hde)
        have hlen : e.length ≤ n := by
          have : e.length ≤ cs.length := by
            rw [he]
            exact List.Sublist.length_le (List.dropWhile_sublist pyWs)
          exact le_trans this hs
        have htre : noTrailWs e := noTrailWs_dropWhile pyWs cs (noTrailWs_cons htr)
        obtain ⟨h1, h2, h3⟩ := ih e hlen htre
        have hout2 : runSub pyWs ' ' e = d :: runSub pyWs ' ' ds := by
          rw [hde]; simp [runSub, hd]
        refine ⟨?_, ?_, ?_⟩
        · rw [hout]
          simp only [wsOnlySp, List.all_cons, Bool.and_eq_true]
          exact ⟨by simp, h1⟩
        · rw [hout, hout2]
          rw [hout2] at h2
          have hnsp : d ≠ ' ' := by
            intro h0; rw [h0] at hd; simp [pyWs] at hd
          have hstep : spOk (' ' :: d :: runSub pyWs ' ' ds) =
              (decide (d ≠ ' ') && spOk (d :: runSub pyWs ' ' ds)) := rfl
          rw [hstep, h2]
          simp [hnsp]
        · rw [hout, hout2]
          rw [hout2] at h3
          rw [noTrailWs_cons_iff (by simp)]
          exact h3
      · have hout : runSub pyWs ' ' (c :: cs) = c :: runSub pyWs ' ' cs := by
          simp [runSub, hc]
        by_cases hnil : cs = []
        · subst hnil
          have hcsp : c ≠ ' ' := by
            intro h0; rw [h0] at hc; simp [pyWs] at hc
          refine ⟨?_, ?_, ?_⟩
          · simp [runSub, wsOnlySp, hc]
          · simp [runSub, spOk, hc, hcsp]
          · simp [runSub, noTrailWs, hc]
        · obtain ⟨h1, h2, h3⟩ := ih cs hs (noTrailWs_cons htr)
          refine ⟨?_, ?_, ?_⟩
          · rw [hout]
            simp only [wsOnlySp, List.all_cons, Bool.and_eq_true]
            exact ⟨by simp [hc], h1⟩
          · rw [hout]
            simp only [spOk, Bool.and_eq_true]
            refine ⟨?_, h2⟩
            have hcsp : c ≠ ' ' := by
              intro h0; rw [h0] at hc; simp [pyWs] at hc
            rw [if_neg hcsp]
          · rw [hout]
            cases hrs : runSub pyWs ' ' cs with
            | nil => simp [noTrailWs, hc]
            | cons r rs =>
              rw [noTrailWs_cons_iff (by simp)]
              rw [hrs] at h3
              exact h3



theorem lstrip_append {t : Str} (ht : ∀ d ds, t = d :: ds → pyWs d = false) :
    ∀ u : Str, lstrip (u ++ t) = lstrip u ++ t := by
  intro u
  induction u with
  | nil =>
    cases ht2 : t with
    | nil => simp [lstrip]
    | cons d ds =>
      simp [lstrip, List.dropWhile, ht d ds ht2]
  | cons c cs ih =>
    by_cases hc : pyWs c
    · simp [lstrip, List.dropWhile, hc] at ih ⊢; exact ih
    · simp [lstrip, List.dropWhile, hc]

theorem rstrip_eq_self {s : Str} (h : noTrailWs s = true) : rstrip s = s := by
  cases hs : s.reverse with
  | nil =>
    have : s = [] := by simpa using congrArg List.reverse hs
    simp [this, rstrip]
  | cons l ls =>
    have hl : s.getLast? = some l := by
      rw [← List.head?_reverse, hs]; rfl
    have hlw : pyWs l = false := by
      simp only [noTrailWs, hl] at h
      simpa using h
    simp [rstrip, hs, List.dropWhile, hlw]
    exact (by simpa using congrArg List.reverse hs : s = ls.reverse ++ [l]).symm

theorem rstrip_append (u t : Str) (hu : noTrailWs u = true) :
    rstrip (u ++ t) = u ++ rstrip t := by
  unfold rstrip
  rw [List.reverse_append]
  rw [List.dropWhile_append]
  by_cases he : (t.reverse.dropWhile pyWs).isEmpty
  · rw [if_pos he, List.isEmpty_iff.mp he]
    simp only [List.reverse_nil, List.append_nil]
    exact rstrip_eq_self hu
  · rw [if_neg he]
    rw [List.reverse_append, List.reverse_reverse]

theorem noTrailWs_append {a m : Str} (hm : m ≠ []) :
    noTrailWs (a ++ m) = noTrailWs m := by
  simp [noTrailWs, List.getLast?_append_of_ne_nil _ hm]

theorem pyStrip_decomp (p m x : Str) (hm : m ≠ [])
    (hhead : ∀ d ds, m = d :: ds → pyWs d = false)
    (hlast : noTrailWs m = true) :
    pyStrip (p ++ m ++ x) = (lstrip p ++ m) ++ rstrip x := by
  obtain ⟨d, ds, rfl⟩ : ∃ d ds, m = d :: ds := by
    cases m with
    | nil => exact absurd rfl hm
    | cons d ds => exact ⟨d, ds, rfl⟩
  have hd : pyWs d = false := hhead d ds rfl
  unfold pyStrip
  have h1 : lstrip (p ++ (d :: ds) ++ x) = lstrip p ++ ((d :: ds) ++ x) := by
    rw [List.append_assoc]
    exact lstrip_append (fun e es he => by cases he; exact hd) p
  rw [h1, ← List.append_assoc]
  apply rstrip_append
  rw [noTrailWs_append (by simp)]
  exact hlast



theorem wsOnlySp_tail {c : Char} {cs : Str} (h : wsOnlySp (c :: cs) = true) :
    wsOnlySp cs = true := by
  simp only [wsOnlySp, List.all_cons, Bool.and_eq_true] at h
  exact h.2

theorem spOk_tail {c : Char} {cs : Str} (h : spOk (c :: cs) = true) : spOk cs = true := by
  simp only [spOk, Bool.and_eq_true] at h
  exact h.2

theorem wsOnlySp_drop {s : Str} (h : wsOnlySp s = true) (n : Nat) :
    wsOnlySp (s.drop n) = true := by
  simp only [wsOnlySp, List.all_eq_true] at h ⊢
  intro c hc
  exact h c (List.mem_of_mem_drop hc)

theorem spOk_drop {s : Str} (h : spOk s = true) : ∀ n, spOk (s.drop n) = true := by
  induction s with
  | nil => intro n; simp [List.drop_nil]; rfl
  | cons c cs ih =>
    intro n
    cases n with
    | zero => exact h
    | succ n => exact ih (spOk_tail h) n

theorem marker_collapse :
    ∀ (n : Nat) (m : Str), m.length ≤ n → wsOnlySp m = true → spOk m = true →
      (∀ d ds, m = d :: ds → pyWs d = false) →
      ∀ X, runSub pyWs ' ' (m ++ X) = m ++ runSub pyWs ' ' X := by
  intro n
  induction n with
  | zero =>
    intro m hlen _ _ X
    rw [List.length_eq_zero.mp (Nat.le_zero.mp hlen)]
    simp
  | succ n ih =>
    intro m hlen hws hsp hhd X
    cases m with
    | nil => simp
    | cons c m1 =>
      have hc : pyWs c = false := hhd c m1 rfl
      simp only [List.length_cons, Nat.succ_le_succ_iff] at hlen
      have hstep : runSub pyWs ' ' ((c :: m1) ++ X) = c :: runSub pyWs ' ' (m1 ++ X) := by
        simp [runSub, hc]
      rw [hstep]
      cases m1 with
      | nil => simp [List.cons_append]
      | cons e m2 =>
        by_cases he : pyWs e
        · -- canonical: e must be a space followed by a non-space
          have hesp : e = ' ' := by
            simp only [wsOnlySp, List.all_cons, Bool.and_eq_true] at hws
            rcases hws.2.1 with h1
            simp [he] at h1
            exact h1
          subst hesp
          have hsp2 : spOk (' ' :: m2) = true := spOk_tail hsp
          obtain ⟨c2, m3, hm2⟩ : ∃ c2 m3, m2 = c2 :: m3 ∧ c2 ≠ ' ' := by
            simp only [spOk, if_pos rfl, Bool.and_eq_true] at hsp2
            rcases hm2c : m2 with _ | ⟨c2, m3⟩
            · rw [hm2c] at hsp2
              simp at hsp2
            · rw [hm2c] at hsp2
              refine ⟨c2, m3, rfl, ?_⟩
              have := hsp2.1
              simpa using this
          obtain ⟨hm2e, hc2⟩ := hm2
          subst hm2e
          have hc2w : pyWs c2 = false := by
            simp only [wsOnlySp, List.all_cons, Bool.and_eq_true] at hws
            rcases hws.2.2.1 with h1
            cases hcw : pyWs c2
            · rfl
            · rw [hcw] at h1; simp at h1; exact absurd h1 hc2
          have hrec : runSub pyWs ' ' ((c2 :: m3) ++ X) = (c2 :: m3) ++ runSub pyWs ' ' X := by
            refine ih (c2 :: m3) ?_ ?_ ?_ ?_ X
            · simp only [List.length_cons] at hlen ⊢; omega
            · exact wsOnlySp_tail (wsOnlySp_tail hws)
            · exact spOk_tail hsp2
            · intro d ds hd; cases hd; exact hc2w
          have hstep2 : runSub pyWs ' ' ((' ' :: c2 :: m3) ++ X) =
              ' ' :: runSub pyWs ' ' ((c2 :: m3) ++ X) := by
            have hsw : pyWs ' ' = true := by decide
            simp only [List.cons_append]
            simp [runSub, runSubSkip, hsw, hc2w]
          rw [hstep2, hrec]
          simp
        · have hrec : runSub pyWs ' ' ((e :: m2) ++ X) = (e :: m2) ++ runSub pyWs ' ' X := by
            refine ih (e :: m2) hlen (wsOnlySp_tail hws) (spOk_tail hsp) ?_ X
            intro d ds hd; cases hd
            exact Bool.eq_false_iff.mpr he
          rw [hrec]
          simp



theorem char_ofNat_toNat (n : Nat) (h : Nat.isValidChar n) : (Char.ofNat n).toNat = n := by
  simp [Char.ofNat, Char.toNat, Char.ofNatAux, h]
  rfl

theorem ofNat_shift_ne_space (c : Char) (k lo hi : Nat) (hlo : lo ≤ c.toNat)
    (hhi : c.toNat ≤ hi) (hvalid : hi + k < 0xD800)
    (hne : ¬ (lo + k ≤ 32 ∧ 32 ≤ hi + k)) :
    (Char.ofNat (c.toNat + k)) ≠ ' ' := by
  intro he
  have hval : Nat.isValidChar (c.toNat + k) := by
    left
    omega
  have h2 := congrArg Char.toNat he
  rw [char_ofNat_toNat _ hval] at h2
  have hsp : (' ' : Char).toNat = 32 := by decide
  rw [hsp] at h2
  omega

theorem lowerRu_eq_space {c : Char} (h : lowerRu c = ' ') : c = ' ' := by
  unfold lowerRu at h
  split at h
  · next hcond =>
    exfalso
    simp only [Bool.and_eq_true, decide_eq_true_eq] at hcond
    have h1 : 65 ≤ c.toNat := hcond.1
    have h2 : c.toNat ≤ 90 := hcond.2
    exact ofNat_shift_ne_space c 32 65 90 h1 h2 (by omega) (by omega) h
  · split at h
    · next hcond =>
      exfalso
      simp only [Bool.and_eq_true, decide_eq_true_eq] at hcond
      have h1 : 0x410 ≤ c.toNat := hcond.1
      have h2 : c.toNat ≤ 0x42F := hcond.2
      exact ofNat_shift_ne_space c 0x20 0x410 0x42F h1 h2 (by omega) (by omega) h
    · split at h
      · exfalso
        have := congrArg Char.toNat h
        rw [char_ofNat_toNat 0x451 (by left; omega)] at this
        simp at this
      · exact h

theorem ciEq_space {c : Char} (h : ciEq ' ' c = true) : c = ' ' := by
  simp only [ciEq, decide_eq_true_eq] at h
  have hsp : lowerRu ' ' = ' ' := by decide
  rw [hsp] at h
  exact lowerRu_eq_space h.symm



theorem ciPref_append (a b : Str) : ∀ s : Str,
    ciPref (a ++ b) s = (ciPref a s && ciPref b (s.drop a.length)) := by
  induction a with
  | nil => intro s; simp [ciPref]
  | cons c a ih =>
    intro s
    cases s with
    | nil => simp [ciPref]
    | cons d s =>
      simp [ciPref, ih, Bool.and_assoc]

theorem ciPref_take (l : Str) : ∀ s : Str, ciPref l s = ciPref l (s.take l.length) := by
  induction l with
  | nil => intro s; simp [ciPref]
  | cons c l ih =>
    intro s
    cases s with
    | nil => simp [ciPref]
    | cons d s =>
      simp only [List.length_cons, List.take_succ_cons, ciPref]
      rw [ih s]

theorem ciPref_take_left (l : Str) : ∀ (s : Str) (k : Nat), ciPref l s = true →
    ciPref (l.take k) s = true := by
  induction l with
  | nil => intro s k _; simp [ciPref]
  | cons c l ih =>
    intro s k h
    cases s with
    | nil => simp [ciPref] at h
    | cons d s =>
      cases k with
      | zero => simp [ciPref]
      | succ k =>
        simp only [ciPref, Bool.and_eq_true] at h
        simp only [List.take_succ_cons, ciPref, Bool.and_eq_true]
        exact ⟨h.1, ih s k h.2⟩

theorem ciPref_append_right (l : Str) : ∀ (s t : Str), l.length ≤ s.length →
    ciPref l (s ++ t) = ciPref l s := by
  induction l with
  | nil => intro s t _; simp [ciPref]
  | cons c l ih =>
    intro s t hlen
    cases s with
    | nil => simp at hlen
    | cons d s =>
      simp only [List.length_cons, Nat.succ_le_succ_iff] at hlen
      simp [ciPref, ih s t hlen]

theorem ciPref_length_le (l : Str) : ∀ s : Str, ciPref l s = true → l.length ≤ s.length := by
  induction l with
  | nil => intro s _; simp
  | cons c l ih =>
    intro s h
    cases s with
    | nil => simp [ciPref] at h
    | cons d s =>
      simp only [ciPref, Bool.and_eq_true] at h
      simp only [List.length_cons, Nat.succ_le_succ_iff]
      exact ih s h.2

theorem matchSegs_canon : ∀ (segs : List Seg) (cs : Str),
    wsOnlySp cs = true → spOk cs = true →
    matchSegs segs cs =
      if ciPref (segsLit segs) cs then some (segsLit segs).length else none := by
  intro segs
  induction segs with
  | nil => intro cs _ _; simp [matchSegs, segsLit, ciPref]
  | cons seg segs ih =>
    intro cs hws hsp
    cases seg with
    | lit l =>
      simp only [matchSegs, segsLit]
      rw [ciPref_append]
      by_cases hcl : ciPref l cs
      · rw [if_pos hcl, ih (cs.drop l.length) (wsOnlySp_drop hws _) (spOk_drop hsp _)]
        by_cases hcr : ciPref (segsLit segs) (cs.drop l.length)
        · rw [if_pos hcr]
          simp [hcl, hcr]
        · rw [if_neg hcr]
          simp [hcl, hcr]
      · rw [if_neg hcl]
        simp [hcl]
    | wsp =>
      simp only [matchSegs, segsLit]
      cases cs with
      | nil => simp [ciPref, List.takeWhile]
      | cons c cs1 =>
        by_cases hc : pyWs c
        · have hcsp : c = ' ' := by
            simp only [wsOnlySp, List.all_cons, Bool.and_eq_true] at hws
            rcases hws.1 with h1
            simp [hc] at h1
            exact h1
          subst hcsp
          obtain ⟨c2, t, ht, hc2⟩ : ∃ c2 t, cs1 = c2 :: t ∧ c2 ≠ ' ' := by
            simp only [spOk, if_pos rfl, Bool.and_eq_true] at hsp
            rcases hcs1 : cs1 with _ | ⟨c2, t⟩
            · rw [hcs1] at hsp; simp at hsp
            · rw [hcs1] at hsp
              refine ⟨c2, t, rfl, ?_⟩
              simpa using hsp.1
          have hc2w : pyWs c2 = false := by
            have hall : wsOnlySp cs1 = true := by
              simp only [wsOnlySp, List.all_cons, Bool.and_eq_true] at hws
              exact hws.2
            rw [ht] at hall
            simp only [wsOnlySp, List.all_cons, Bool.and_eq_true] at hall
            have h1 := hall.1
            cases hcw : pyWs c2
            · rfl
            · exfalso
              rw [hcw] at h1
              simp at h1
              exact hc2 h1
          have htw : (List.takeWhile pyWs (' ' :: cs1)).length = 1 := by
            rw [ht]
            rw [List.takeWhile_cons_of_pos (by decide),
                List.takeWhile_cons_of_neg (by simp [hc2w])]
            rfl
          rw [htw]
          simp only [Nat.one_ne_zero, if_neg, List.drop_succ_cons, List.drop_zero]
          rw [ih cs1 (wsOnlySp_tail hws) (spOk_tail hsp)]
          have hcip : ciPref (' ' :: segsLit segs) (' ' :: cs1) =
              ciPref (segsLit segs) cs1 := by
            simp [ciPref, ciEq]
          rw [hcip]
          by_cases hrest : ciPref (segsLit segs) cs1
          · simp [hrest, Nat.add_comm]
          · simp [hrest]
        · have htw : (List.takeWhile pyWs (c :: cs1)).length = 0 := by
            simp [List.takeWhile, hc]
          rw [htw]
          have hci : ciPref (' ' :: segsLit segs) (c :: cs1) = false := by
            simp only [ciPref]
            cases hq : ciEq ' ' c
            · simp
            · exfalso
              have := ciEq_space hq
              rw [this] at hc
              simp [pyWs] at hc
          rw [hci]
          simp



theorem findSomeCongr {α β : Type} (f g : α → Option β) :
    ∀ l : List α, (∀ a ∈ l, f a = g a) → l.findSome? f = l.findSome? g := by
  intro l
  induction l with
  | nil => intro _; rfl
  | cons a l ih =>
    intro h
    simp only [List.findSome?]
    rw [h a (List.mem_cons_self a l)]
    cases g a with
    | none => exact ih (fun b hb => h b (List.mem_cons_of_mem a hb))
    | some v => rfl

theorem markerAlt_canon (cs : Str) (hws : wsOnlySp cs = true) (hsp : spOk cs = true) :
    markerAlt cs =
      noiseSpecs.findSome? (fun segs =>
        if ciPref (segsLit segs) cs then some (segsLit segs).length else none) := by
  unfold markerAlt
  exact findSomeCongr _ _ noiseSpecs (fun segs _ => matchSegs_canon segs cs hws hsp)

theorem markers_min_len : ∀ m ∈ noiseMarkers, 8 ≤ m.length := by decide

theorem specs_max_len : ∀ spec ∈ noiseSpecs, (segsLit spec).length ≤ 15 := by decide

theorem marker_EC : ∀ spec ∈ noiseSpecs, ∀ m ∈ noiseMarkers, ∀ k, k < 7 → 1 ≤ k →
    k + m.length < (segsLit spec).length →
    ciPref (((segsLit spec).drop k).take m.length) m = false := by decide

theorem ciPref_common (l T m W W' : Str)
    (h : l.length ≤ T.length + m.length) :
    ciPref l (T ++ m ++ W) = ciPref l (T ++ m ++ W') := by
  rw [ciPref_append_right l (T ++ m) W (by simpa using h),
      ciPref_append_right l (T ++ m) W' (by simpa using h)]

theorem ciPref_spec_false (spec : List Seg) (hspec : spec ∈ noiseSpecs)
    (m : Str) (hm : m ∈ noiseMarkers) (T : Str) (hT : T ≠ [])
    (hlen : T.length + m.length < (segsLit spec).length) :
    ∀ V : Str, ciPref (segsLit spec) (T ++ m ++ V) = false := by
  intro V
  cases hcp : ciPref (segsLit spec) (T ++ m ++ V)
  · rfl
  · exfalso
    have h0 := ciPref_append ((segsLit spec).take T.length)
      ((segsLit spec).drop T.length) (T ++ m ++ V)
    rw [List.take_append_drop] at h0
    rw [h0] at hcp
    simp only [Bool.and_eq_true] at hcp
    have hTlen : ((segsLit spec).take T.length).length = T.length := by
      rw [List.length_take]
      omega
    rw [hTlen] at hcp
    have hdrop : (T ++ m ++ V).drop T.length = m ++ V := by
      rw [List.append_assoc]
      exact List.drop_left T (m ++ V)
    rw [hdrop] at hcp
    have h1 : ciPref (((segsLit spec).drop T.length).take m.length) (m ++ V) = true :=
      ciPref_take_left _ _ _ hcp.2
    have h2 : ciPref (((segsLit spec).drop T.length).take m.length) m = true := by
      rw [← ciPref_append_right _ m V ?_]
      · exact h1
      · rw [List.length_take]
        omega
    have h8 : 8 ≤ m.length := markers_min_len m hm
    have h15 : (segsLit spec).length ≤ 15 := specs_max_len spec hspec
    have hk1 : 1 ≤ T.length := by
      cases T with
      | nil => exact absurd rfl hT
      | cons c cs => simp
    have hEC := marker_EC spec hspec m hm T.length (by omega) hk1 (by omega)
    rw [hEC] at h2
    exact Bool.false_ne_true h2

theorem markerAlt_transfer (m : Str) (hm : m ∈ noiseMarkers) (T W W' : Str) (hT : T ≠ [])
    (hws1 : wsOnlySp (T ++ m ++ W) = true) (hsp1 : spOk (T ++ m ++ W) = true)
    (hws2 : wsOnlySp (T ++ m ++ W') = true) (hsp2 : spOk (T ++ m ++ W') = true) :
    markerAlt (T ++ m ++ W) = markerAlt (T ++ m ++ W') := by
  rw [markerAlt_canon _ hws1 hsp1, markerAlt_canon _ hws2 hsp2]
  apply findSomeCongr
  intro spec hspec
  by_cases hlen : (segsLit spec).length ≤ T.length + m.length
  · rw [ciPref_common _ _ _ W W' hlen]
  · rw [ciPref_spec_false spec hspec m hm T hT (by omega) W,
        ciPref_spec_false spec hspec m hm T hT (by omega) W']



theorem isoAt_eval (prev : Option Char) (a0 a1 a2 a3 a4 a5 a6 a7 a8 a9 a10 : Char)
    (rest : Str) :
    isoAt prev (a0::a1::a2::a3::a4::a5::a6::a7::a8::a9::a10::rest) =
      (if !prevNonWord prev then none
      else if pyDigit a0 && pyDigit a1 && pyDigit a2 && pyDigit a3 then
        if a4 = '-' then
          if pyDigit a5 && pyDigit a6 then
            if a7 = '-' then
              if pyDigit a8 && pyDigit a9 && !pyWord a10 then some 10 else none
            else none
          else none
        else none
      else none) := by
  unfold isoAt
  by_cases h4 : a4 = '-' <;> by_cases h7 : a7 = '-' <;>
    simp [h4, h7, matchDigits, nonWordHead, List.take, List.drop, Bool.and_assoc]

theorem isoAt_window (prev : Option Char) (u v v' : Str) (hu : 11 ≤ u.length) :
    isoAt prev (u ++ v) = isoAt prev (u ++ v') := by
  match u, hu with
  | a0::a1::a2::a3::a4::a5::a6::a7::a8::a9::a10::r, _ =>
    simp only [List.cons_append]
    rw [isoAt_eval, isoAt_eval]

theorem markers_head_shape : ∀ m ∈ noiseMarkers, ∀ d ds, m = d :: ds →
    pyDigit d = false ∧ pyWs d = false ∧ ciEq d '-' = false ∧ pyWord d = true := by
  have hD : ∀ m ∈ noiseMarkers,
      pyDigit (m.headD 'x') = false ∧ pyWs (m.headD 'x') = false ∧
        ciEq (m.headD 'x') '-' = false ∧ pyWord (m.headD 'x') = true := by decide
  intro m hm d ds hmd
  have h := hD m hm
  rw [hmd] at h
  simpa using h

theorem matchDigits_false_head2 (t0 m0 : Char) (rest : Str) (hm0 : pyDigit m0 = false) :
    matchDigits 4 (t0 :: m0 :: rest) = false := by
  simp [matchDigits, List.take, hm0]

theorem matchDigits_false_head3 (t0 t1 m0 : Char) (rest : Str) (hm0 : pyDigit m0 = false) :
    matchDigits 4 (t0 :: t1 :: m0 :: rest) = false := by
  simp [matchDigits, List.take, hm0]

theorem isoAt_none_small (prev : Option Char) (T m V : Str) (hT : T ≠ [])
    (hT2 : T.length ≤ 2) (hm : m ∈ noiseMarkers) :
    isoAt prev (T ++ m ++ V) = none := by
  obtain ⟨m0, m1, hme⟩ : ∃ m0 m1, m = m0 :: m1 := by
    have := markers_min_len m hm
    cases m with
    | nil => simp at this
    | cons m0 m1 => exact ⟨m0, m1, rfl⟩
  have hm0 : pyDigit m0 = false := (markers_head_shape m hm m0 m1 hme).1
  have hfail : matchDigits 4 (T ++ m ++ V) = false := by
    match T, hT, hT2 with
    | [t0], _, _ =>
      rw [hme]
      simp only [List.cons_append, List.nil_append]
      exact matchDigits_false_head2 t0 m0 _ hm0
    | [t0, t1], _, _ =>
      rw [hme]
      simp only [List.cons_append, List.nil_append]
      exact matchDigits_false_head3 t0 t1 m0 _ hm0
  unfold isoAt
  rw [hfail]
  simp

theorem isoAt_transfer (prev : Option Char) (m : Str) (hm : m ∈ noiseMarkers)
    (T W W' : Str) (hT : T ≠ []) :
    isoAt prev (T ++ m ++ W) = isoAt prev (T ++ m ++ W') := by
  by_cases hlen : 11 ≤ T.length + m.length
  · exact isoAt_window prev (T ++ m) W W' (by simpa using hlen)
  · have h8 : 8 ≤ m.length := markers_min_len m hm
    have hT2 : T.length ≤ 2 := by omega
    rw [isoAt_none_small prev T m W hT hT2 hm, isoAt_none_small prev T m W' hT hT2 hm]



theorem ciEq_symm (a b : Char) : ciEq a b = ciEq b a := by
  simp [ciEq, eq_comm]

theorem listCompat_nil (cls : List RClass) : listCompat [] cls = true := by
  simp [listCompat]

theorem listCompat_cons {c : Char} {s : Str} {r : RClass} {cls : List RClass} :
    listCompat (c :: s) (r :: cls) = (rCompat c r && listCompat s cls) := by
  simp only [listCompat, List.length_cons, List.zip_cons_cons, List.all_cons,
    Nat.succ_le_succ_iff]
  cases hcc : rCompat c r <;> cases hl : decide (s.length ≤ cls.length) <;>
    simp_all [listCompat]

theorem listCompat_cons_nil {c : Char} {s : Str} :
    listCompat (c :: s) [] = false := by
  simp [listCompat]

theorem listCompat_append : ∀ (a : Str) (ca : List RClass) {b : Str} {cb : List RClass},
    listCompat a ca = true → listCompat b cb = true → a.length = ca.length →
    listCompat (a ++ b) (ca ++ cb) = true := by
  intro a
  induction a with
  | nil =>
    intro ca b cb _ hb hlen
    have : ca = [] := List.length_eq_zero.mp hlen.symm
    subst this
    simpa using hb
  | cons c a ih =>
    intro ca b cb ha hb hlen
    cases ca with
    | nil => simp at hlen
    | cons r ca =>
      simp only [List.cons_append]
      rw [listCompat_cons] at ha ⊢
      simp only [Bool.and_eq_true] at ha ⊢
      exact ⟨ha.1, ih ca ha.2 hb (by simpa using hlen)⟩

theorem listCompat_pref : ∀ (a : Str) (cls : List RClass) {b : Str},
    listCompat (a ++ b) cls = true → listCompat a cls = true := by
  intro a
  induction a with
  | nil => intro cls b _; exact listCompat_nil cls
  | cons c a ih =>
    intro cls b h
    cases cls with
    | nil => rw [List.cons_append, listCompat_cons_nil] at h; exact absurd h (by simp)
    | cons r cls =>
      rw [List.cons_append, listCompat_cons] at h
      rw [listCompat_cons]
      simp only [Bool.and_eq_true] at h ⊢
      exact ⟨h.1, ih cls h.2⟩

theorem listCompat_drop : ∀ (a : Str) (cls : List RClass) {b : Str},
    listCompat (a ++ b) cls = true → listCompat b (cls.drop a.length) = true := by
  intro a
  induction a with
  | nil => intro cls b h; simpa using h
  | cons c a ih =>
    intro cls b h
    cases cls with
    | nil => rw [List.cons_append, listCompat_cons_nil] at h; exact absurd h (by simp)
    | cons r cls =>
      rw [List.cons_append, listCompat_cons] at h
      simp only [Bool.and_eq_true] at h
      simpa using ih cls h.2

theorem listCompat_take_left : ∀ (a : Str) (cls : List RClass) (j : Nat),
    listCompat a cls = true → listCompat (a.take j) cls = true := by
  intro a
  induction a with
  | nil => intro cls j _; simpa [List.take_nil] using listCompat_nil cls
  | cons c a ih =>
    intro cls j h
    cases cls with
    | nil => rw [listCompat_cons_nil] at h; exact absurd h (by simp)
    | cons r cls =>
      cases j with
      | zero => exact listCompat_nil _
      | succ j =>
        rw [listCompat_cons] at h
        simp only [Bool.and_eq_true] at h
        rw [List.take_succ_cons, listCompat_cons]
        simp only [Bool.and_eq_true]
        exact ⟨h.1, ih cls j h.2⟩

theorem listCompat_replicate {p : RClass} : ∀ (s : Str) (j : Nat),
    (∀ c ∈ s, rCompat c p = true) → s.length ≤ j →
    listCompat s (List.replicate j p) = true := by
  intro s
  induction s with
  | nil => intro j _ _; exact listCompat_nil _
  | cons c s ih =>
    intro j h hlen
    cases j with
    | zero => simp at hlen
    | succ j =>
      rw [List.replicate_succ, listCompat_cons]
      simp only [Bool.and_eq_true]
      refine ⟨h c (by simp), ih j (fun d hd => h d (by simp [hd])) (by simpa using hlen)⟩

theorem ciPref_listCompat : ∀ (mon s : Str), ciPref mon s = true →
    listCompat (s.take mon.length) (mon.map RClass.ch) = true := by
  intro mon
  induction mon with
  | nil => intro s _; simpa using listCompat_nil _
  | cons c mon ih =>
    intro s h
    cases s with
    | nil => simp [ciPref] at h
    | cons d s =>
      simp only [ciPref, Bool.and_eq_true] at h
      rw [List.length_cons, List.take_succ_cons, List.map_cons, listCompat_cons]
      simp only [Bool.and_eq_true]
      refine ⟨?_, ih s h.2⟩
      show ciEq d c = true
      rw [ciEq_symm]
      exact h.1




theorem canon_ws_head {c : Char} {cs : Str} (hws : wsOnlySp (c :: cs) = true)
    (hc : pyWs c = true) : c = ' ' := by
  simp only [wsOnlySp, List.all_cons, Bool.and_eq_true] at hws
  rcases hws.1 with h1
  simp [hc] at h1
  exact h1

theorem canon_head_pair {s : Str} (hws : wsOnlySp s = true) (hsp : spOk s = true)
    (h : s.head? = some ' ') :
    ∃ c2 t, s = ' ' :: c2 :: t ∧ pyWs c2 = false ∧ c2 ≠ ' ' := by
  cases s with
  | nil => simp at h
  | cons c cs =>
    have hcc : c = ' ' := by simpa using h
    subst hcc
    obtain ⟨c2, t, ht, hc2⟩ : ∃ c2 t, cs = c2 :: t ∧ c2 ≠ ' ' := by
      simp only [spOk, if_pos rfl, Bool.and_eq_true] at hsp
      rcases hcs : cs with _ | ⟨c2, t⟩
      · rw [hcs] at hsp; simp at hsp
      · rw [hcs] at hsp
        refine ⟨c2, t, rfl, ?_⟩
        simpa using hsp.1
    subst ht
    refine ⟨c2, t, rfl, ?_, hc2⟩
    have hws2 := wsOnlySp_tail hws
    cases hcw : pyWs c2
    · rfl
    · exact absurd (canon_ws_head hws2 hcw) hc2

theorem canon_takeWhile : ∀ (s : Str), wsOnlySp s = true → spOk s = true →
    s.takeWhile pyWs = if s.head? = some ' ' then [' '] else [] := by
  intro s hws hsp
  by_cases hh : s.head? = some ' '
  · obtain ⟨c2, t, hse, hc2w, _⟩ := canon_head_pair hws hsp hh
    subst hse
    rw [if_pos hh]
    rw [List.takeWhile_cons_of_pos (by decide),
        List.takeWhile_cons_of_neg (by simp [hc2w])]
  · rw [if_neg hh]
    cases s with
    | nil => simp [List.takeWhile]
    | cons c cs =>
      have hc : pyWs c = false := by
        cases hcw : pyWs c
        · rfl
        · exact absurd (by simpa using congrArg some (canon_ws_head hws hcw)) hh
      simp [List.takeWhile_cons_of_neg, hc]



theorem months_len : ∀ mon ∈ ruMonths, 3 ≤ mon.length ∧ mon.length ≤ 8 := by decide

theorem rClassStr_length (d : Nat) (mon : Str) :
    (rClassStr d mon 1 1).length = d + 1 + mon.length + 1 + 4 := by
  simp [rClassStr]
  omega

theorem matchDigits_all {k : Nat} {cs : Str} (h : matchDigits k cs = true) :
    (cs.take k).length = k ∧ ∀ c ∈ cs.take k, pyDigit c = true := by
  simp only [matchDigits, Bool.and_eq_true, decide_eq_true_eq, List.all_eq_true] at h
  exact h

theorem listCompat_digits {k : Nat} {cs : Str} (h : matchDigits k cs = true) :
    listCompat (cs.take k) (List.replicate k RClass.dig) = true := by
  obtain ⟨h1, h2⟩ := matchDigits_all h
  exact listCompat_replicate _ k (fun c hc => h2 c hc) (by omega)

theorem listCompat_space : listCompat [' '] [RClass.sp] = true := by decide

theorem russTryD_some_canon (d : Nat) (cs : Str) (n : Nat)
    (hws : wsOnlySp cs = true) (hsp : spOk cs = true)
    (h : russTryD d cs = some n) :
    ∃ mon ∈ ruMonths, n = d + mon.length + 6 ∧
      listCompat (cs.take n) (rClassStr d mon 1 1) = true := by
  unfold russTryD at h
  by_cases h1 : matchDigits d cs
  swap
  · rw [if_neg h1] at h; exact absurd h (by simp)
  rw [if_pos h1] at h
  simp only [] at h
  have hcanon1w : wsOnlySp (cs.drop d) = true := wsOnlySp_drop hws d
  have hcanon1s : spOk (cs.drop d) = true := spOk_drop hsp d
  by_cases hw1 : ((cs.drop d).takeWhile pyWs).length = 0
  · rw [if_pos hw1] at h; exact absurd h (by simp)
  rw [if_neg hw1] at h
  have htw1 := canon_takeWhile (cs.drop d) hcanon1w hcanon1s
  have hhd1 : (cs.drop d).head? = some ' ' := by
    by_cases hh : (cs.drop d).head? = some ' '
    · exact hh
    · rw [if_neg hh] at htw1; rw [htw1] at hw1; simp at hw1
  rw [if_pos hhd1] at htw1
  have hw1v : ((cs.drop d).takeWhile pyWs).length = 1 := by rw [htw1]; rfl
  rw [hw1v] at h
  rcases hfind : ruMonths.findSome?
      (fun mo => if ciPref mo ((cs.drop d).drop 1) then some mo.length else none)
    with _ | ml
  · rw [hfind] at h; exact absurd h (by simp)
  rw [hfind] at h
  simp only [] at h
  obtain ⟨mon, hmon, hmoneq⟩ := List.exists_of_findSome?_eq_some hfind
  have hcip : ciPref mon ((cs.drop d).drop 1) = true ∧ ml = mon.length := by
    by_cases hc : ciPref mon ((cs.drop d).drop 1)
    · rw [if_pos hc] at hmoneq
      exact ⟨hc, by simpa using hmoneq.symm⟩
    · rw [if_neg hc] at hmoneq; exact absurd hmoneq (by simp)
  obtain ⟨hcip1, hmlv⟩ := hcip
  subst hmlv
  have hcanon3w : wsOnlySp (((cs.drop d).drop 1).drop mon.length) = true :=
    wsOnlySp_drop (wsOnlySp_drop hcanon1w 1) mon.length
  have hcanon3s : spOk (((cs.drop d).drop 1).drop mon.length) = true :=
    spOk_drop (spOk_drop hcanon1s 1) mon.length
  by_cases hw2 : ((((cs.drop d).drop 1).drop mon.length).takeWhile pyWs).length = 0
  · rw [if_pos hw2] at h; exact absurd h (by simp)
  rw [if_neg hw2] at h
  have htw2 := canon_takeWhile _ hcanon3w hcanon3s
  have hhd3 : (((cs.drop d).drop 1).drop mon.length).head? = some ' ' := by
    by_cases hh : (((cs.drop d).drop 1).drop mon.length).head? = some ' '
    · exact hh
    · rw [if_neg hh] at htw2; rw [htw2] at hw2; simp at hw2
  rw [if_pos hhd3] at htw2
  have hw2v : ((((cs.drop d).drop 1).drop mon.length).takeWhile pyWs).length = 1 := by
    rw [htw2]; rfl
  rw [hw2v] at h
  by_cases hfin : (matchDigits 4 ((((cs.drop d).drop 1).drop mon.length).drop 1) &&
      nonWordHead (((((cs.drop d).drop 1).drop mon.length).drop 1).drop 4)) = true
  swap
  · rw [if_neg hfin] at h; exact absurd h (by simp)
  rw [if_pos hfin] at h
  simp only [Option.some.injEq] at h
  simp only [Bool.and_eq_true] at hfin
  refine ⟨mon, hmon, ?_, ?_⟩
  · omega
  · have hn : n = d + (1 + (mon.length + (1 + 4))) := by omega
    obtain ⟨c1, t1, he1, _, _⟩ := canon_head_pair hcanon1w hcanon1s hhd1
    obtain ⟨c3, t3, he3, _, _⟩ := canon_head_pair hcanon3w hcanon3s hhd3
    have hP1 : listCompat (cs.take d) (List.replicate d RClass.dig) = true :=
      listCompat_digits h1
    have hP1len : (cs.take d).length = d := (matchDigits_all h1).1
    have hP2 : (cs.drop d).take 1 = [' '] := by rw [he1]; rfl
    have hP3 : listCompat (((cs.drop d).drop 1).take mon.length)
        (mon.map RClass.ch) = true := ciPref_listCompat mon _ hcip1
    have hP3len : (((cs.drop d).drop 1).take mon.length).length = mon.length := by
      rw [List.length_take]
      have := ciPref_length_le mon _ hcip1
      omega
    have hP4 : (((cs.drop d).drop 1).drop mon.length).take 1 = [' '] := by
      rw [he3]; rfl
    have hP5 : listCompat ((((((cs.drop d).drop 1).drop mon.length)).drop 1).take 4)
        (List.replicate 4 RClass.dig) = true := listCompat_digits hfin.1
    rw [hn, List.take_add, List.take_add, List.take_add, List.take_add]
    rw [hP2, hP4]
    have hcls : rClassStr d mon 1 1 =
        List.replicate d RClass.dig ++ ([RClass.sp] ++ (mon.map RClass.ch ++
          ([RClass.sp] ++ List.replicate 4 RClass.dig))) := by
      simp [rClassStr, List.append_assoc]
    rw [hcls]
    refine listCompat_append _ _ hP1 ?_ (by rw [hP1len]; simp)
    refine listCompat_append _ _ listCompat_space ?_ (by simp)
    refine listCompat_append _ _ hP3 ?_ (by rw [hP3len]; simp)
    refine listCompat_append _ _ listCompat_space ?_ (by simp)
    exact hP5



theorem russ_EC : ∀ m ∈ noiseMarkers, ∀ mon ∈ ruMonths, ∀ d ∈ ([1, 2] : List Nat),
    ∀ k < (rClassStr d mon 1 1).length, 1 ≤ k →
    listCompat (m.take ((rClassStr d mon 1 1).length - k))
      ((rClassStr d mon 1 1).drop k) = false := by decide

theorem russAt_bound (prev : Option Char) (T m W : Str) (hm : m ∈ noiseMarkers)
    (hT : T ≠ [])
    (hws : wsOnlySp (T ++ m ++ W) = true) (hsp : spOk (T ++ m ++ W) = true)
    (n : Nat) (h : russAt prev (T ++ m ++ W) = some n) : 10 ≤ n ∧ n ≤ T.length := by
  have main : ∀ d : Nat, d ∈ ([1, 2] : List Nat) →
      russTryD d (T ++ m ++ W) = some n → 10 ≤ n ∧ n ≤ T.length := by
    intro d hd hsucc
    obtain ⟨mon, hmon, hneq, hcompat⟩ := russTryD_some_canon d (T ++ m ++ W) n hws hsp hsucc
    have hlen := rClassStr_length d mon
    have h38 := months_len mon hmon
    have hd12 : 1 ≤ d ∧ d ≤ 2 := by
      have hdor : d = 1 ∨ d = 2 := by simpa using hd
      omega
    have hncls : n = (rClassStr d mon 1 1).length := by omega
    refine ⟨by omega, ?_⟩
    by_contra hgt
    push_neg at hgt
    have hk1 : 1 ≤ T.length := by
      cases T with
      | nil => exact absurd rfl hT
      | cons c cs => simp
    have hsplit : (T ++ m ++ W).take n = T ++ (m ++ W).take (n - T.length) := by
      rw [List.append_assoc]
      rw [List.take_append_eq_append_take]
      rw [List.take_of_length_le (by omega)]
    rw [hsplit] at hcompat
    have hrest : listCompat ((m ++ W).take (n - T.length))
        ((rClassStr d mon 1 1).drop T.length) = true :=
      listCompat_drop T _ hcompat
    have hpref : listCompat (m.take (n - T.length))
        ((rClassStr d mon 1 1).drop T.length) = true := by
      by_cases hmw : n - T.length ≤ m.length
      · rw [List.take_append_of_le_length hmw] at hrest
        exact hrest
      · rw [List.take_append_eq_append_take,
            List.take_all_of_le (by omega)] at hrest
        rw [List.take_all_of_le (by omega)]
        exact listCompat_pref m _ hrest
    have hEC := russ_EC m hm mon hmon d (by rcases hd12 with ⟨ha, hb⟩; interval_cases d <;> simp)
      T.length (by omega) hk1
    rw [hncls] at hpref
    rw [hEC] at hpref
    exact Bool.false_ne_true hpref
  unfold russAt at h
  by_cases hp : !prevNonWord prev
  · rw [if_pos hp] at h; exact absurd h (by simp)
  rw [if_neg hp] at h
  rcases h2 : russTryD 2 (T ++ m ++ W) with _ | v
  · rw [h2] at h
    simp only [Option.orElse, Option.none_orElse] at h
    exact main 1 (by simp) h
  · rw [h2] at h
    simp only [Option.orElse, Option.some_orElse] at h
    cases h
    exact main 2 (by simp) h2



theorem listCompat_dash : listCompat ['-'] [RClass.ch '-'] = true := by decide

theorem iClassStr_len : iClassStr.length = 10 := by decide

theorem iso_EC : ∀ m ∈ noiseMarkers, ∀ k < 10, 1 ≤ k →
    listCompat (m.take (10 - k)) (iClassStr.drop k) = false := by decide

theorem isoAt_some (prev : Option Char) (cs : Str) (n : Nat) (h : isoAt prev cs = some n) :
    n = 10 ∧ listCompat (cs.take 10) iClassStr = true := by
  unfold isoAt at h
  by_cases hp : !prevNonWord prev
  · rw [if_pos hp] at h; exact absurd h (by simp)
  rw [if_neg hp] at h
  by_cases h1 : matchDigits 4 cs
  swap
  · rw [if_neg h1] at h; exact absurd h (by simp)
  rw [if_pos h1] at h
  split at h
  next cs5 heq =>
    by_cases h2 : matchDigits 2 cs5
    swap
    · rw [if_neg h2] at h; exact absurd h (by simp)
    rw [if_pos h2] at h
    split at h
    next cs8 heq2 =>
      by_cases h3 : (matchDigits 2 cs8 && nonWordHead (cs8.drop 2)) = true
      swap
      · rw [if_neg h3] at h; exact absurd h (by simp)
      rw [if_pos h3] at h
      simp only [Option.some.injEq] at h
      simp only [Bool.and_eq_true] at h3
      refine ⟨h.symm, ?_⟩
      have e1 : cs.take 10 = cs.take 4 ++ ('-' :: cs5.take 5) := by
        rw [show (10 : Nat) = 4 + 6 from rfl, List.take_add, heq]
        rfl
      have e2 : cs5.take 5 = cs5.take 2 ++ ('-' :: cs8.take 2) := by
        rw [show (5 : Nat) = 2 + 3 from rfl, List.take_add, heq2]
        rfl
      have hcls : iClassStr = List.replicate 4 RClass.dig ++ ([RClass.ch '-'] ++
          (List.replicate 2 RClass.dig ++ ([RClass.ch '-'] ++
            List.replicate 2 RClass.dig))) := by
        simp [iClassStr, List.append_assoc]
      rw [e1, e2, hcls]
      refine listCompat_append _ _ (listCompat_digits h1) ?_
        (by rw [(matchDigits_all h1).1]; simp)
      rw [show ('-' :: (cs5.take 2 ++ ('-' :: cs8.take 2))) =
        ['-'] ++ (cs5.take 2 ++ (['-'] ++ cs8.take 2)) from rfl]
      refine listCompat_append _ _ listCompat_dash ?_ (by simp)
      refine listCompat_append _ _ (listCompat_digits h2) ?_
        (by rw [(matchDigits_all h2).1]; simp)
      refine listCompat_append _ _ listCompat_dash ?_ (by simp)
      exact listCompat_digits h3.1
    next => exact absurd h (by simp)
  next => exact absurd h (by simp)

theorem isoAt_bound (prev : Option Char) (T m W : Str) (hm : m ∈ noiseMarkers)
    (hT : T ≠ []) (n : Nat) (h : isoAt prev (T ++ m ++ W) = some n) :
    n = 10 ∧ 10 ≤ T.length := by
  obtain ⟨hn, hcompat⟩ := isoAt_some prev _ n h
  refine ⟨hn, ?_⟩
  by_contra hgt
  push_neg at hgt
  have hk1 : 1 ≤ T.length := by
    cases T with
    | nil => exact absurd rfl hT
    | cons c cs => simp
  have hsplit : (T ++ m ++ W).take 10 = T ++ (m ++ W).take (10 - T.length) := by
    rw [List.append_assoc]
    rw [List.take_append_eq_append_take]
    rw [List.take_of_length_le (by omega)]
  rw [hsplit] at hcompat
  have hrest : listCompat ((m ++ W).take (10 - T.length))
      (iClassStr.drop T.length) = true := listCompat_drop T _ hcompat
  have h8 : 8 ≤ m.length := markers_min_len m hm
  have hpref : listCompat (m.take (10 - T.length)) (iClassStr.drop T.length) = true := by
    by_cases hmw : 10 - T.length ≤ m.length
    · rw [List.take_append_of_le_length hmw] at hrest
      exact hrest
    · rw [List.take_append_eq_append_take,
          List.take_of_length_le (by omega)] at hrest
      rw [List.take_of_length_le (by omega)]
      exact listCompat_pref m _ hrest
  have hEC := iso_EC m hm T.length (by omega) hk1
  rw [hEC] at hpref
  exact Bool.false_ne_true hpref



theorem canon_of_append_drop {s t : Str} (hws : wsOnlySp (s ++ t) = true)
    (hsp : spOk (s ++ t) = true) (n : Nat) (hn : n ≤ s.length) :
    wsOnlySp (s.drop n ++ t) = true ∧ spOk (s.drop n ++ t) = true := by
  rw [← List.drop_append_of_le_length hn]
  exact ⟨wsOnlySp_drop hws n, spOk_drop hsp n⟩

theorem takeWhile_eq_of_canon {A v v' : Str}
    (hA : A ≠ [])
    (hws : wsOnlySp (A ++ v) = true) (hsp : spOk (A ++ v) = true)
    (hws' : wsOnlySp (A ++ v') = true) (hsp' : spOk (A ++ v') = true) :
    (A ++ v).takeWhile pyWs = (A ++ v').takeWhile pyWs ∧
    ((A ++ v).takeWhile pyWs).length ≤ 1 := by
  obtain ⟨a0, arest, rfl⟩ : ∃ a0 arest, A = a0 :: arest := by
    cases A with
    | nil => exact absurd rfl hA
    | cons a0 arest => exact ⟨a0, arest, rfl⟩
  have h1 := canon_takeWhile _ hws hsp
  have h2 := canon_takeWhile _ hws' hsp'
  have hh : ((a0 :: arest) ++ v).head? = some a0 := rfl
  have hh' : ((a0 :: arest) ++ v').head? = some a0 := rfl
  rw [hh] at h1
  rw [hh'] at h2
  rw [h1, h2]
  refine ⟨rfl, ?_⟩
  split
  · simp
  · simp

theorem russTryD_window (d : Nat) (hd : d ≤ 2) (u v v' : Str) (hu : 17 ≤ u.length)
    (hws : wsOnlySp (u ++ v) = true) (hsp : spOk (u ++ v) = true)
    (hws' : wsOnlySp (u ++ v') = true) (hsp' : spOk (u ++ v') = true) :
    russTryD d (u ++ v) = russTryD d (u ++ v') := by
  unfold russTryD
  have hmd : matchDigits d (u ++ v') = matchDigits d (u ++ v) := by
    unfold matchDigits
    rw [List.take_append_of_le_length (by omega), List.take_append_of_le_length (by omega)]
  rw [hmd]
  by_cases h1 : matchDigits d (u ++ v)
  swap
  · rw [if_neg h1, if_neg h1]
  rw [if_pos h1, if_pos h1]
  have e1 : (u ++ v).drop d = u.drop d ++ v := List.drop_append_of_le_length (by omega)
  have e1' : (u ++ v').drop d = u.drop d ++ v' := List.drop_append_of_le_length (by omega)
  rw [e1, e1']
  dsimp only
  have hc1 := canon_of_append_drop hws hsp d (by omega)
  have hc1' := canon_of_append_drop hws' hsp' d (by omega)
  have hAne : u.drop d ≠ [] := by
    intro h0
    have := congrArg List.length h0
    simp at this
    omega
  obtain ⟨htw, htwle⟩ := takeWhile_eq_of_canon hAne hc1.1 hc1.2 hc1'.1 hc1'.2
  rw [← htw]
  by_cases hw1 : ((u.drop d ++ v).takeWhile pyWs).length = 0
  · rw [if_pos hw1, if_pos hw1]
  rw [if_neg hw1, if_neg hw1]
  have hw1v : ((u.drop d ++ v).takeWhile pyWs).length = 1 := by omega
  rw [hw1v]
  have e2 : (u.drop d ++ v).drop 1 = (u.drop d).drop 1 ++ v := by
    rw [List.drop_append_of_le_length]
    have := List.length_drop d u
    omega
  have e2' : (u.drop d ++ v').drop 1 = (u.drop d).drop 1 ++ v' := by
    rw [List.drop_append_of_le_length]
    have := List.length_drop d u
    omega
  rw [e2, e2']
  have hlen2 : 14 ≤ ((u.drop d).drop 1).length := by
    simp only [List.length_drop]
    omega
  have hfind : (ruMonths.findSome? (fun mo =>
      if ciPref mo ((u.drop d).drop 1 ++ v') then some mo.length else none)) =
      (ruMonths.findSome? (fun mo =>
      if ciPref mo ((u.drop d).drop 1 ++ v) then some mo.length else none)) := by
    apply findSomeCongr
    intro mon hmon
    have hml := months_len mon hmon
    rw [ciPref_append_right mon _ v (by omega), ciPref_append_right mon _ v' (by omega)]
  rw [hfind]
  rcases hfres : (ruMonths.findSome? (fun mo =>
      if ciPref mo ((u.drop d).drop 1 ++ v) then some mo.length else none)) with _ | ml
  · rfl
  have hml8 : ml ≤ 8 := by
    obtain ⟨mon, hmon, hmoneq⟩ := List.exists_of_findSome?_eq_some hfres
    have := (months_len mon hmon).2
    by_cases hc : ciPref mon ((u.drop d).drop 1 ++ v)
    · rw [if_pos hc] at hmoneq
      simp only [Option.some.injEq] at hmoneq
      omega
    · rw [if_neg hc] at hmoneq; exact absurd hmoneq (by simp)
  simp only []
  have e3 : ((u.drop d).drop 1 ++ v).drop ml = ((u.drop d).drop 1).drop ml ++ v := by
    rw [List.drop_append_of_le_length (by omega)]
  have e3' : ((u.drop d).drop 1 ++ v').drop ml = ((u.drop d).drop 1).drop ml ++ v' := by
    rw [List.drop_append_of_le_length (by omega)]
  rw [e3, e3']
  have hc3 := canon_of_append_drop
    (canon_of_append_drop hc1.1 hc1.2 1 (by simp only [List.length_drop]; omega)).1
    (canon_of_append_drop hc1.1 hc1.2 1 (by simp only [List.length_drop]; omega)).2 ml
    (by simp only [List.length_drop]; omega)
  have hc3' := canon_of_append_drop
    (canon_of_append_drop hc1'.1 hc1'.2 1 (by simp only [List.length_drop]; omega)).1
    (canon_of_append_drop hc1'.1 hc1'.2 1 (by simp only [List.length_drop]; omega)).2 ml
    (by simp only [List.length_drop]; omega)
  have hBlen : 6 ≤ (((u.drop d).drop 1).drop ml).length := by
    simp only [List.length_drop]
    omega
  have hBne : ((u.drop d).drop 1).drop ml ≠ [] := by
    intro h0
    have := congrArg List.length h0
    simp at this
    omega
  obtain ⟨htw2, htw2le⟩ := takeWhile_eq_of_canon hBne hc3.1 hc3.2 hc3'.1 hc3'.2
  rw [← htw2]
  by_cases hw2 : (((((u.drop d).drop 1).drop ml) ++ v).takeWhile pyWs).length = 0
  · rw [if_pos hw2, if_pos hw2]
  rw [if_neg hw2, if_neg hw2]
  have hw2v : (((((u.drop d).drop 1).drop ml) ++ v).takeWhile pyWs).length = 1 := by omega
  rw [hw2v]
  have e4 : ((((u.drop d).drop 1).drop ml) ++ v).drop 1 =
      (((u.drop d).drop 1).drop ml).drop 1 ++ v :=
    List.drop_append_of_le_length (by omega)
  have e4' : ((((u.drop d).drop 1).drop ml) ++ v').drop 1 =
      (((u.drop d).drop 1).drop ml).drop 1 ++ v' :=
    List.drop_append_of_le_length (by omega)
  rw [e4, e4']
  have hmd4 : matchDigits 4 ((((u.drop d).drop 1).drop ml).drop 1 ++ v') =
      matchDigits 4 ((((u.drop d).drop 1).drop ml).drop 1 ++ v) := by
    unfold matchDigits
    rw [List.take_append_of_le_length (by simp only [List.length_drop]; omega),
        List.take_append_of_le_length (by simp only [List.length_drop]; omega)]
  rw [hmd4]
  have e5 : ((((u.drop d).drop 1).drop ml).drop 1 ++ v).drop 4 =
      ((((u.drop d).drop 1).drop ml).drop 1).drop 4 ++ v :=
    List.drop_append_of_le_length (by simp only [List.length_drop]; omega)
  have e5' : ((((u.drop d).drop 1).drop ml).drop 1 ++ v').drop 4 =
      ((((u.drop d).drop 1).drop ml).drop 1).drop 4 ++ v' :=
    List.drop_append_of_le_length (by simp only [List.length_drop]; omega)
  rw [e5, e5']
  have hnwh : nonWordHead (((((u.drop d).drop 1).drop ml).drop 1).drop 4 ++ v') =
      nonWordHead (((((u.drop d).drop 1).drop ml).drop 1).drop 4 ++ v) := by
    obtain ⟨c, r, hcr⟩ : ∃ c r,
        ((((u.drop d).drop 1).drop ml).drop 1).drop 4 = c :: r := by
      rcases hx : ((((u.drop d).drop 1).drop ml).drop 1).drop 4 with _ | ⟨c, r⟩
      · exfalso
        have := congrArg List.length hx
        simp at this
        omega
      · exact ⟨c, r, rfl⟩
    rw [hcr]
    simp [nonWordHead]
  rw [hnwh]



theorem russAt_transfer (prev : Option Char) (m : Str) (hm : m ∈ noiseMarkers)
    (T W W' : Str) (hT : T ≠ [])
    (hws : wsOnlySp (T ++ m ++ W) = true) (hsp : spOk (T ++ m ++ W) = true)
    (hws' : wsOnlySp (T ++ m ++ W') = true) (hsp' : spOk (T ++ m ++ W') = true) :
    russAt prev (T ++ m ++ W) = russAt prev (T ++ m ++ W') := by
  by_cases hlen : 17 ≤ T.length + m.length
  · have hulen : 17 ≤ (T ++ m).length := by simp only [List.length_append]; omega
    have h2 := russTryD_window 2 (by omega) (T ++ m) W W' hulen hws hsp hws' hsp'
    have h1 := russTryD_window 1 (by omega) (T ++ m) W W' hulen hws hsp hws' hsp'
    unfold russAt
    rw [h1, h2]
  · have h8 : 8 ≤ m.length := markers_min_len m hm
    have hT8 : T.length ≤ 8 := by omega
    rcases hv : russAt prev (T ++ m ++ W) with _ | n
    · rcases hv' : russAt prev (T ++ m ++ W') with _ | n'
      · rfl
      · exfalso
        obtain ⟨hge, hle⟩ := russAt_bound prev T m W' hm hT hws' hsp' n' hv'
        omega
    · exfalso
      obtain ⟨hge, hle⟩ := russAt_bound prev T m W hm hT hws hsp n hv
      omega



theorem specs_min_len : ∀ spec ∈ noiseSpecs, 1 ≤ (segsLit spec).length := by decide

theorem marker_self : ∀ m ∈ noiseMarkers, ∃ spec ∈ noiseSpecs,
    (segsLit spec).length ≤ m.length ∧ ciPref (segsLit spec) m = true := by decide

theorem takeWhile_ne_nl : ∀ {s : Str}, wsOnlySp s = true → s.takeWhile (· ≠ '\n') = s := by
  intro s
  induction s with
  | nil => intro _; rfl
  | cons c cs ih =>
    intro hws
    have hcn : c ≠ '\n' := by
      intro h0
      subst h0
      have := canon_ws_head hws (by decide)
      simp at this
    rw [List.takeWhile_cons_of_pos (by simpa using hcn)]
    rw [ih (wsOnlySp_tail hws)]

theorem reSubF_nil (mm : Option Char → Str → Option Nat) :
    ∀ (f : Nat) (prev : Option Char), reSubF mm f prev [] = [] := by
  intro f prev
  cases f <;> rfl

theorem markerAlt_some_bounds {cs : Str} {nn : Nat}
    (hws : wsOnlySp cs = true) (hsp : spOk cs = true)
    (h : markerAlt cs = some nn) : 1 ≤ nn ∧ nn ≤ cs.length := by
  rw [markerAlt_canon cs hws hsp] at h
  obtain ⟨spec, hspec, heq⟩ := List.exists_of_findSome?_eq_some h
  by_cases hc : ciPref (segsLit spec) cs
  · rw [if_pos hc] at heq
    simp only [Option.some.injEq] at heq
    subst heq
    exact ⟨specs_min_len spec hspec, ciPref_length_le _ _ hc⟩
  · rw [if_neg hc] at heq
    exact absurd heq (by simp)

theorem markerAlt_head (m : Str) (hm : m ∈ noiseMarkers) (W : Str)
    (hws : wsOnlySp (m ++ W) = true) (hsp : spOk (m ++ W) = true) :
    ∃ nn, markerAlt (m ++ W) = some nn := by
  rcases hres : markerAlt (m ++ W) with _ | nn
  · exfalso
    rw [markerAlt_canon _ hws hsp] at hres
    obtain ⟨spec, hspec, hle, hcip⟩ := marker_self m hm
    have hsucc : ciPref (segsLit spec) (m ++ W) = true := by
      rw [ciPref_append_right _ _ _ hle]
      exact hcip
    have hall := List.findSome?_eq_none.mp hres spec hspec
    rw [if_pos hsucc] at hall
    exact absurd hall (by simp)
  · exact ⟨nn, rfl⟩

theorem noiseMatch_marker_all (prev : Option Char) {cs : Str} {nn : Nat}
    (hws : wsOnlySp cs = true) (hsp : spOk cs = true)
    (hma : markerAlt cs = some nn) :
    noiseMatch prev cs = some cs.length := by
  unfold noiseMatch
  rw [hma]
  dsimp only
  obtain ⟨h1, h2⟩ := markerAlt_some_bounds hws hsp hma
  rw [takeWhile_ne_nl (wsOnlySp_drop hws nn)]
  rw [List.length_drop]
  congr 1
  omega

theorem scan_base (m : Str) (hm : m ∈ noiseMarkers) (W : Str) (prev : Option Char)
    (f : Nat) (hws : wsOnlySp (m ++ W) = true) (hsp : spOk (m ++ W) = true)
    (hf : (m ++ W).length ≤ f) :
    reSubF noiseMatch f prev (m ++ W) = [] := by
  obtain ⟨m0, m1, hme⟩ : ∃ m0 m1, m = m0 :: m1 := by
    have := markers_min_len m hm
    cases m with
    | nil => simp at this
    | cons m0 m1 => exact ⟨m0, m1, rfl⟩
  obtain ⟨nn, hma⟩ := markerAlt_head m hm W hws hsp
  have hnm2 := noiseMatch_marker_all prev hws hsp hma
  subst hme
  cases f with
  | zero => simp at hf
  | succ f1 =>
    simp only [List.cons_append] at hnm2 ⊢
    rw [reSubF]
    rw [hnm2]
    simp only [List.length_cons]
    rw [List.drop_eq_nil_of_le (by simp)]
    exact reSubF_nil _ _ _



theorem noiseMatch_bound {prev : Option Char} {T m W : Str} {N : Nat}
    (hm : m ∈ noiseMarkers) (hT : T ≠ [])
    (hws : wsOnlySp (T ++ m ++ W) = true) (hsp : spOk (T ++ m ++ W) = true)
    (hmk : markerAlt (T ++ m ++ W) = none)
    (h : noiseMatch prev (T ++ m ++ W) = some N) : 1 ≤ N ∧ N ≤ T.length := by
  unfold noiseMatch at h
  rw [hmk] at h
  rcases hi : isoAt prev (T ++ m ++ W) with _ | ni
  · rw [hi] at h
    simp only [Option.orElse, Option.none_orElse] at h
    obtain ⟨h10, hle⟩ := russAt_bound prev T m W hm hT hws hsp N h
    omega
  · rw [hi] at h
    simp only [Option.orElse, Option.some_orElse] at h
    have hni : ni = N := by simpa using h
    rw [hni] at hi
    obtain ⟨h10, hle⟩ := isoAt_bound prev T m W hm hT N hi
    omega

theorem scan_eq (m : Str) (hm : m ∈ noiseMarkers) :
    ∀ (nT : Nat) (T : Str), T.length ≤ nT →
      ∀ (W W' : Str) (prev : Option Char) (f f' : Nat),
      wsOnlySp (T ++ m ++ W) = true → spOk (T ++ m ++ W) = true →
      wsOnlySp (T ++ m ++ W') = true → spOk (T ++ m ++ W') = true →
      (T ++ m ++ W).length ≤ f → (T ++ m ++ W').length ≤ f' →
      reSubF noiseMatch f prev (T ++ m ++ W) =
        reSubF noiseMatch f' prev (T ++ m ++ W') := by
  intro nT
  induction nT with
  | zero =>
    intro T hT W W' prev f f' hws hsp hws' hsp' hf hf'
    have hTe : T = [] := List.length_eq_zero.mp (Nat.le_zero.mp hT)
    subst hTe
    simp only [List.nil_append] at *
    rw [scan_base m hm W prev f hws hsp hf, scan_base m hm W' prev f' hws' hsp' hf']
  | succ n ihn =>
    intro T hT W W' prev f f' hws hsp hws' hsp' hf hf'
    cases T with
    | nil =>
      simp only [List.nil_append] at *
      rw [scan_base m hm W prev f hws hsp hf, scan_base m hm W' prev f' hws' hsp' hf']
    | cons c T1 =>
      cases f with
      | zero =>
        exfalso
        simp only [List.cons_append, List.length_cons] at hf
        omega
      | succ fc =>
        cases f' with
        | zero =>
          exfalso
          simp only [List.cons_append, List.length_cons] at hf'
          omega
        | succ fc' =>
          have hTne : (c :: T1) ≠ ([] : Str) := by simp
          have hma := markerAlt_transfer m hm (c :: T1) W W' hTne hws hsp hws' hsp'
          rcases hmk : markerAlt ((c :: T1) ++ m ++ W) with _ | nn
          · -- no marker at this position on either side
            have hmk' : markerAlt ((c :: T1) ++ m ++ W') = none := by rw [← hma]; exact hmk
            have hiso := isoAt_transfer prev m hm (c :: T1) W W' hTne
            have hruss := russAt_transfer prev m hm (c :: T1) W W' hTne hws hsp hws' hsp'
            have hnm : noiseMatch prev ((c :: T1) ++ m ++ W) =
                noiseMatch prev ((c :: T1) ++ m ++ W') := by
              unfold noiseMatch
              rw [hmk, hmk', hiso, hruss]
            rcases hnmv : noiseMatch prev ((c :: T1) ++ m ++ W) with _ | N
            · have hnmv' : noiseMatch prev ((c :: T1) ++ m ++ W') = none := by
                rw [← hnm]; exact hnmv
              simp only [List.cons_append] at hnmv hnmv' ⊢
              rw [reSubF, reSubF, hnmv, hnmv']
              dsimp only
              congr 1
              refine ihn T1 (by simpa using hT) W W' (some c) fc fc'
                (wsOnlySp_tail (by simpa only [List.cons_append] using hws))
                (spOk_tail (by simpa only [List.cons_append] using hsp))
                (wsOnlySp_tail (by simpa only [List.cons_append] using hws'))
                (spOk_tail (by simpa only [List.cons_append] using hsp'))
                ?_ ?_
              · simp only [List.cons_append, List.length_cons] at hf
                omega
              · simp only [List.cons_append, List.length_cons] at hf'
                omega
            · have hnmv' : noiseMatch prev ((c :: T1) ++ m ++ W') = some N := by
                rw [← hnm]; exact hnmv
              rcases N with _ | N0
              · -- zero-length match is treated as no match
                simp only [List.cons_append] at hnmv hnmv' ⊢
                rw [reSubF, reSubF, hnmv, hnmv']
                dsimp only
                congr 1
                refine ihn T1 (by simpa using hT) W W' (some c) fc fc'
                  (wsOnlySp_tail (by simpa only [List.cons_append] using hws))
                  (spOk_tail (by simpa only [List.cons_append] using hsp))
                  (wsOnlySp_tail (by simpa only [List.cons_append] using hws'))
                  (spOk_tail (by simpa only [List.cons_append] using hsp'))
                  ?_ ?_
                · simp only [List.cons_append, List.length_cons] at hf
                  omega
                · simp only [List.cons_append, List.length_cons] at hf'
                  omega
              · -- a common match of length N0+1, inside the common prefix
                obtain ⟨hN1, hNle⟩ :=
                  noiseMatch_bound hm hTne hws hsp hmk hnmv
                have hdrop : ((c :: T1) ++ m ++ W).drop (N0 + 1) =
                    ((c :: T1).drop (N0 + 1)) ++ m ++ W := by
                  rw [List.append_assoc, List.drop_append_of_le_length hNle,
                      ← List.append_assoc]
                have hdrop' : ((c :: T1) ++ m ++ W').drop (N0 + 1) =
                    ((c :: T1).drop (N0 + 1)) ++ m ++ W' := by
                  rw [List.append_assoc, List.drop_append_of_le_length hNle,
                      ← List.append_assoc]
                have hprev : ((c :: T1) ++ m ++ W)[N0]? = ((c :: T1) ++ m ++ W')[N0]? := by
                  have hN0 : N0 < ((c :: T1) ++ m).length := by
                    simp only [List.length_append]
                    omega
                  have e1 : ((c :: T1) ++ m ++ W)[N0]? = ((c :: T1) ++ m)[N0]? := by
                    rw [List.getElem?_append, if_pos hN0]
                  have e2 : ((c :: T1) ++ m ++ W')[N0]? = ((c :: T1) ++ m)[N0]? := by
                    rw [List.getElem?_append, if_pos hN0]
                  rw [e1, e2]
                have hws2 : wsOnlySp ((c :: T1).drop (N0 + 1) ++ m ++ W) = true := by
                  rw [← hdrop]
                  exact wsOnlySp_drop hws _
                have hsp2 : spOk ((c :: T1).drop (N0 + 1) ++ m ++ W) = true := by
                  rw [← hdrop]
                  exact spOk_drop hsp _
                have hws2' : wsOnlySp ((c :: T1).drop (N0 + 1) ++ m ++ W') = true := by
                  rw [← hdrop']
                  exact wsOnlySp_drop hws' _
                have hsp2' : spOk ((c :: T1).drop (N0 + 1) ++ m ++ W') = true := by
                  rw [← hdrop']
                  exact spOk_drop hsp' _
                simp only [List.cons_append] at hnmv hnmv' hdrop hdrop' hprev ⊢
                rw [reSubF, reSubF, hnmv, hnmv']
                dsimp only
                rw [hprev, hdrop, hdrop']
                refine ihn ((c :: T1).drop (N0 + 1)) ?_ W W' _ fc fc'
                  hws2 hsp2 hws2' hsp2' ?_ ?_
                · simp only [List.length_drop, List.length_cons] at hT ⊢
                  omega
                · have := congrArg List.length hdrop
                  simp only [List.length_drop, List.length_append,
                    List.length_cons] at hf this ⊢
                  omega
                · have := congrArg List.length hdrop'
                  simp only [List.length_drop, List.length_append,
                    List.length_cons] at hf' this ⊢
                  omega
          · -- marker fires: everything to the end of the text is deleted on both sides
            have hmk' : markerAlt ((c :: T1) ++ m ++ W') = some nn := by
              rw [← hma]; exact hmk
            have h1 := noiseMatch_marker_all prev hws hsp hmk
            have h2 := noiseMatch_marker_all prev hws' hsp' hmk'
            simp only [List.cons_append] at h1 h2 ⊢
            rw [reSubF, reSubF, h1, h2]
            simp only [List.length_cons]
            rw [List.drop_eq_nil_of_le (by simp), List.drop_eq_nil_of_le (by simp)]
            rw [reSubF_nil, reSubF_nil]



theorem markers_canon : ∀ m ∈ noiseMarkers,
    wsOnlySp m = true ∧ spOk m = true ∧ noTrailWs m = true := by decide

theorem noTrailWs_rstrip (s : Str) : noTrailWs (rstrip s) = true := by
  unfold rstrip
  rcases h : s.reverse.dropWhile pyWs with _ | ⟨d, ds⟩
  · rfl
  · have hd : pyWs d = false := dropWhile_head s.reverse h
    simp only [noTrailWs, List.getLast?_reverse, List.head?_cons]
    simp [hd]

theorem noiseSub_marker (m : Str) (hm : m ∈ noiseMarkers) (U W W' : Str)
    (hws : wsOnlySp (U ++ m ++ W) = true) (hsp : spOk (U ++ m ++ W) = true)
    (hws' : wsOnlySp (U ++ m ++ W') = true) (hsp' : spOk (U ++ m ++ W') = true) :
    noiseSub (U ++ m ++ W) = noiseSub (U ++ m ++ W') := by
  unfold noiseSub reSub
  exact scan_eq m hm U.length U le_rfl W W' none _ _ hws hsp hws' hsp' le_rfl le_rfl

theorem wsToSpace_marker_decomp (m : Str) (hm : m ∈ noiseMarkers) (p x : Str) :
    wsToSpace (pyStrip (p ++ m ++ x)) =
      wsToSpace (lstrip p) ++ m ++ wsToSpace (rstrip x) := by
  obtain ⟨m0, m1, hme⟩ : ∃ m0 m1, m = m0 :: m1 := by
    have := markers_min_len m hm
    cases m with
    | nil => simp at this
    | cons m0 m1 => exact ⟨m0, m1, rfl⟩
  have hhd : ∀ d ds, m = d :: ds → pyWs d = false := fun d ds h =>
    (markers_head_shape m hm d ds h).2.1
  obtain ⟨hcw, hcs, hct⟩ := markers_canon m hm
  rw [pyStrip_decomp p m x (by rw [hme]; simp) hhd hct]
  rw [List.append_assoc]
  unfold wsToSpace
  rw [(runSub_append pyWs ' ' (m ++ rstrip x)
    (Or.inr ⟨m0, m1 ++ rstrip x, by rw [hme]; simp, hhd m0 m1 hme⟩) (lstrip p)).1]
  rw [marker_collapse m.length m le_rfl hcw hcs hhd (rstrip x)]
  rw [List.append_assoc]

theorem normalize_plain_marker (m : Str) (hm : m ∈ noiseMarkers) (p x y : Str) :
    normalize_plain (p ++ m ++ x) = normalize_plain (p ++ m ++ y) := by
  have hd1 := wsToSpace_marker_decomp m hm p x
  have hd2 := wsToSpace_marker_decomp m hm p y
  have hc1 : wsOnlySp (wsToSpace (pyStrip (p ++ m ++ x))) = true ∧
      spOk (wsToSpace (pyStrip (p ++ m ++ x))) = true := by
    obtain ⟨h1, h2, _⟩ := canon_runSub (pyStrip (p ++ m ++ x)).length _ le_rfl
      (by rw [show pyStrip (p ++ m ++ x) = rstrip (lstrip (p ++ m ++ x)) from rfl]
          exact noTrailWs_rstrip _)
    exact ⟨h1, h2⟩
  have hc2 : wsOnlySp (wsToSpace (pyStrip (p ++ m ++ y))) = true ∧
      spOk (wsToSpace (pyStrip (p ++ m ++ y))) = true := by
    obtain ⟨h1, h2, _⟩ := canon_runSub (pyStrip (p ++ m ++ y)).length _ le_rfl
      (by rw [show pyStrip (p ++ m ++ y) = rstrip (lstrip (p ++ m ++ y)) from rfl]
          exact noTrailWs_rstrip _)
    exact ⟨h1, h2⟩
  rw [hd1] at hc1
  rw [hd2] at hc2
  have hns : noiseSub (wsToSpace (lstrip p) ++ m ++ wsToSpace (rstrip x)) =
      noiseSub (wsToSpace (lstrip p) ++ m ++ wsToSpace (rstrip y)) :=
    noiseSub_marker m hm _ _ _ hc1.1 hc1.2 hc2.1 hc2.2
  unfold normalize_plain
  dsimp only
  rw [hd1, hd2, hns]



/-- **C9**  A noise marker occurrence deletes everything from the marker to
    the end of the *entire* text, not just its line: `normalize_plain`
    collapses all whitespace (newlines included) to single spaces before the
    line-anchored `_NOISE_RE` runs, so the marker alternative's `[^\n]*$`
    reaches the end of the text.  Consequently any two texts that agree up
    to and including the marker normalize identically and receive the same
    signature, whatever follows the marker; concretely, text after the
    marker's line also disappears. -/
theorem C9_marker_deletes_to_text_end :
    ∀ (m p x y : Str), m ∈ noiseMarkers →
      normalize_plain (p ++ m ++ x) = normalize_plain (p ++ m ++ y) ∧
      compute_sig (normalize_plain (p ++ m ++ x)) =
        compute_sig (normalize_plain (p ++ m ++ y)) ∧
      normalize_plain (str "Intro. Last updated 2024" ++ [Char.ofNat 10] ++
        str "More rules here.") = str "Intro." := by
  intro m p x y hm
  have h := normalize_plain_marker m hm p x y
  exact ⟨h, congrArg compute_sig h, by decide⟩

/-- Witness for `C9_marker_deletes_to_text_end` at a concrete marker and
    texts. -/
theorem C9_marker_deletes_to_text_end_w :
    normalize_plain (str "A. " ++ str "Last updated" ++ str " 2024-01-05 more") =
      normalize_plain (str "A. " ++ str "Last updated" ++ str " other text") :=
  (C9_marker_deletes_to_text_end (str "Last updated") (str "A. ")
    (str " 2024-01-05 more") (str " other text") (by decide)).1

/-- **C4 (counterexample)**  Two pages that differ only in the date of a
    dotted Russian update stamp (`последнее обновление DD.MM.YYYY`, the
    second `_UPDATED_PATTERNS` entry) get the same page signature — the
    page-level cleaner strips the stamp — but *different* section
    signatures: the section-level normalization (`normalize_plain` alone)
    has no pattern for the dotted date format, so the date churn reaches
    the section signature. -/
theorem C4_cex_dotted_stamp_section_sigs :
    pageSigOf (docDotted "05.01.2024") = pageSigOf (docDotted "06.02.2025") ∧
    sectionSigsOf (docDotted "05.01.2024") ≠
      sectionSigsOf (docDotted "06.02.2025") :=
  ⟨by decide, by decide⟩

set_option maxHeartbeats 4000000 in
/-- **C4 (amended)**  Two HTML inputs differing only in an embedded
    update-date stamp receive the same page signature in each of the four
    supported formats, and the same section signatures in the ISO, Russian
    `D month YYYY` and marker-stamp formats.  For marker stamps the
    section-level insensitivity is universal: after whitespace collapsing,
    `_NOISE_RE` deletes everything from the marker to the end of the text,
    so the section-signature input — and hence the signature — is the same
    for every prefix, marker and suffix, whatever date churn follows the
    marker (first conjunct).  The per-format instances are established on a
    fixture page for every pair of dates from a three-date sample per
    format.  The dotted Russian stamp is stripped only by the page-level
    `_UPDATED_PATTERNS` pass and matches no section-level pattern, so only
    its page signature is insensitive (last conjunct; the counterexample
    shows the section signatures differing). -/
theorem C4_signature_insensitivity :
    (∀ (m p x y : Str), m ∈ noiseMarkers →
      compute_sig (normalize_plain (p ++ m ++ x)) =
        compute_sig (normalize_plain (p ++ m ++ y))) ∧
    (∀ d1 ∈ isoDates, ∀ d2 ∈ isoDates,
      pageSigOf (docIso d1) = pageSigOf (docIso d2) ∧
      sectionSigsOf (docIso d1) = sectionSigsOf (docIso d2)) ∧
    (∀ d1 ∈ ruDates, ∀ d2 ∈ ruDates,
      pageSigOf (docRuss d1) = pageSigOf (docRuss d2) ∧
      sectionSigsOf (docRuss d1) = sectionSigsOf (docRuss d2)) ∧
    (∀ d1 ∈ markDates, ∀ d2 ∈ markDates,
      pageSigOf (docMark d1) = pageSigOf (docMark d2) ∧
      sectionSigsOf (docMark d1) = sectionSigsOf (docMark d2)) ∧
    (∀ d1 ∈ dotDates, ∀ d2 ∈ dotDates,
      pageSigOf (docDotted d1) = pageSigOf (docDotted d2)) := by
  refine ⟨?_, by decide, by decide, by decide, by decide⟩
  intro m p x y hm
  exact congrArg compute_sig (normalize_plain_marker m hm p x y)

/-- `bestCand` is its fold cut off at the full candidate-list length. -/
theorem bestCand_eq_aux (sOld : Str) (newOnly : List Str) (used : List Nat) :
    bestCand sOld newOnly used = bestCandAux sOld newOnly used newOnly.length := rfl

/-- One step of the `bestCand` fold. -/
theorem bestCandAux_succ (sOld : Str) (newOnly : List Str) (used : List Nat) (m : Nat) :
    bestCandAux sOld newOnly used (m + 1) =
      if used.contains m then bestCandAux sOld newOnly used m
      else if ratioQ sOld (newOnly.getD m []) > (bestCandAux sOld newOnly used m).2 then
        (some m, ratioQ sOld (newOnly.getD m []))
      else bestCandAux sOld newOnly used m := by
  simp [bestCandAux, List.range_succ]

/-- Invariant of the `bestCand` fold over the first `m` candidates: the best
    score is non-negative and dominates every unclaimed candidate seen so
    far, and a selected index is an unclaimed in-range index whose score is
    positive, equals the best score, and strictly beats every earlier
    unclaimed candidate (so ties keep the first-encountered index). -/
theorem bestCandAux_spec (sOld : Str) (newOnly : List Str) (used : List Nat) :
    ∀ m : Nat,
      0 ≤ (bestCandAux sOld newOnly used m).2 ∧
      (∀ k, k < m → used.contains k = false →
        ratioQ sOld (newOnly.getD k []) ≤ (bestCandAux sOld newOnly used m).2) ∧
      ∀ j, (bestCandAux sOld newOnly used m).1 = some j →
        j < m ∧ used.contains j = false ∧
        (bestCandAux sOld newOnly used m).2 = ratioQ sOld (newOnly.getD j []) ∧
        0 < (bestCandAux sOld newOnly used m).2 ∧
        ∀ k, k < j → used.contains k = false →
          ratioQ sOld (newOnly.getD k []) < (bestCandAux sOld newOnly used m).2 := by
  intro m
  induction m with
  | zero =>
    refine ⟨le_refl 0, ?_, ?_⟩
    · intro k hk; exact absurd hk (Nat.not_lt_zero k)
    · intro j hj; simp [bestCandAux] at hj
  | succ m ih =>
    obtain ⟨h0, hall, hsome⟩ := ih
    rw [bestCandAux_succ]
    by_cases hc : used.contains m
    · rw [if_pos hc]
      refine ⟨h0, ?_, ?_⟩
      · intro k hk hku
        rcases Nat.lt_succ_iff_lt_or_eq.mp hk with h | h
        · exact hall k h hku
        · subst h; rw [hku] at hc; exact absurd hc (by simp)
      · intro j hj
        obtain ⟨h1, h2, h3, h4, h5⟩ := hsome j hj
        exact ⟨Nat.lt_succ_of_lt h1, h2, h3, h4, h5⟩
    · rw [if_neg hc]
      have hcf : used.contains m = false := by
        cases hcc : used.contains m
        · rfl
        · exact absurd hcc hc
      by_cases hgt : ratioQ sOld (newOnly.getD m []) > (bestCandAux sOld newOnly used m).2
      · rw [if_pos hgt]
        refine ⟨le_of_lt (lt_of_le_of_lt h0 hgt), ?_, ?_⟩
        · intro k hk hku
          rcases Nat.lt_succ_iff_lt_or_eq.mp hk with h | h
          · exact le_of_lt (lt_of_le_of_lt (hall k h hku) hgt)
          · subst h; exact le_refl _
        · intro j hj
          have hjm : m = j := by simpa using hj
          subst hjm
          refine ⟨Nat.lt_succ_self m, hcf, rfl, lt_of_le_of_lt h0 hgt, ?_⟩
          intro k hk hku
          exact lt_of_le_of_lt (hall k hk hku) hgt
      · rw [if_neg hgt]
        refine ⟨h0, ?_, ?_⟩
        · intro k hk hku
          rcases Nat.lt_succ_iff_lt_or_eq.mp hk with h | h
          · exact hall k h hku
          · subst h; exact le_of_not_lt hgt
        · intro j hj
          obtain ⟨h1, h2, h3, h4, h5⟩ := hsome j hj
          exact ⟨Nat.lt_succ_of_lt h1, h2, h3, h4, h5⟩

/-- What `bestCand` returning `some j` means: an unclaimed in-range index
    whose positive score is its ratio, no unclaimed candidate scores
    higher, and every earlier unclaimed candidate scores strictly lower. -/
theorem bestCand_spec (sOld : Str) (newOnly : List Str) (used : List Nat) (j : Nat) (q : ℚ)
    (h : bestCand sOld newOnly used = (some j, q)) :
    j < newOnly.length ∧ used.contains j = false ∧
    q = ratioQ sOld (newOnly.getD j []) ∧ 0 < q ∧
    (∀ k, k < newOnly.length → used.contains k = false →
      ratioQ sOld (newOnly.getD k []) ≤ q) ∧
    (∀ k, k < j → used.contains k = false → ratioQ sOld (newOnly.getD k []) < q) := by
  rw [bestCand_eq_aux] at h
  obtain ⟨h0, hall, hsome⟩ := bestCandAux_spec sOld newOnly used newOnly.length
  have h1 : (bestCandAux sOld newOnly used newOnly.length).1 = some j := by rw [h]
  have h2 : (bestCandAux sOld newOnly used newOnly.length).2 = q := by rw [h]
  obtain ⟨ha, hb, hc, hd, he⟩ := hsome j h1
  rw [h2] at hc hd he
  refine ⟨ha, hb, hc, hd, ?_, he⟩
  intro k hk hku
  rw [← h2]
  exact hall k hk hku

/-- Every pair the greedy loop emits joins an old-only sentence to a member
    of `newOnly`, with a ratio strictly above the threshold. -/
theorem pairLoop_mem (threshold : ℚ) (newOnly : List Str) (oldOnly : List Str) :
    ∀ (used : List Nat) (p : Str × Str),
      p ∈ (pairLoop threshold newOnly oldOnly used).1 →
      p.1 ∈ oldOnly ∧ p.2 ∈ newOnly ∧ threshold < ratioQ p.1 p.2 := by
  induction oldOnly with
  | nil => intro used p hp; simp [pairLoop] at hp
  | cons sOld rest ih =>
    intro used p hp
    rw [pairLoop] at hp
    rcases hbc : bestCand sOld newOnly used with ⟨oj, q⟩
    rcases oj with _ | j
    · rw [hbc] at hp
      simp only [] at hp
      obtain ⟨h1, h2, h3⟩ := ih used p hp
      exact ⟨List.mem_cons_of_mem _ h1, h2, h3⟩
    · rw [hbc] at hp
      simp only [] at hp
      by_cases hq : q > threshold
      · rw [if_pos hq] at hp
        rcases List.mem_cons.mp hp with h | h
        · obtain ⟨hj, _, hq2, _, _, _⟩ := bestCand_spec sOld newOnly used j q hbc
          subst h
          refine ⟨List.mem_cons_self _ _, ?_, ?_⟩
          · rw [List.getD_eq_getElem newOnly [] hj]
            exact List.getElem_mem hj
          · rw [← hq2]; exact hq
        · obtain ⟨h1, h2, h3⟩ := ih (j :: used) p h
          exact ⟨List.mem_cons_of_mem _ h1, h2, h3⟩
      · rw [if_neg hq] at hp
        obtain ⟨h1, h2, h3⟩ := ih used p hp
        exact ⟨List.mem_cons_of_mem _ h1, h2, h3⟩

/-- A `Bool` bridge between `List.contains` and membership. -/
theorem containsFalseIff (u : List Nat) (k : Nat) : u.contains k = false ↔ k ∉ u := by
  simp

set_option maxHeartbeats 1000000 in
/-- **C5**  The sentence-pairing step: sentences present in both lists by
    exact equality appear in no output list; every accepted pair has
    strictly positive similarity and joins an old-only sentence to a
    new-only sentence; the leftover lists are exactly the old-only /
    new-only sentences that entered no pair; the candidate choice is the
    highest-ratio still-unclaimed new sentence with ties broken by
    first-encountered order; and the spec example yields exactly the one
    changed pair while the identical second sentence is in neither added
    nor removed. -/
theorem C5_sentence_pairing :
    ∀ (old_sents new_sents : List Str),
      (∀ s, s ∈ old_sents → s ∈ new_sents →
        (∀ p ∈ (pair_changed_sentences old_sents new_sents 0).1, p.1 ≠ s ∧ p.2 ≠ s) ∧
        s ∉ (pair_changed_sentences old_sents new_sents 0).2.1 ∧
        s ∉ (pair_changed_sentences old_sents new_sents 0).2.2) ∧
      (∀ p ∈ (pair_changed_sentences old_sents new_sents 0).1,
        0 < ratioQ p.1 p.2 ∧ p.1 ∈ old_sents ∧ p.1 ∉ new_sents ∧
        p.2 ∈ new_sents ∧ p.2 ∉ old_sents) ∧
      (∀ s, s ∈ (pair_changed_sentences old_sents new_sents 0).2.1 ↔
        s ∈ old_sents ∧ s ∉ new_sents ∧
        s ∉ (pair_changed_sentences old_sents new_sents 0).1.map (fun p => p.1)) ∧
      (∀ s, s ∈ (pair_changed_sentences old_sents new_sents 0).2.2 ↔
        s ∈ new_sents ∧ s ∉ old_sents ∧
        s ∉ (pair_changed_sentences old_sents new_sents 0).1.map (fun p => p.2)) ∧
      (∀ (sOld : Str) (newOnly : List Str) (used : List Nat) (j : Nat) (q : ℚ),
        bestCand sOld newOnly used = (some j, q) →
        j < newOnly.length ∧ j ∉ used ∧ q = ratioQ sOld (newOnly.getD j []) ∧ 0 < q ∧
        (∀ k, k < newOnly.length → k ∉ used →
          ratioQ sOld (newOnly.getD k []) ≤ q) ∧
        (∀ k, k < j → k ∉ used → ratioQ sOld (newOnly.getD k []) < q)) ∧
      pair_changed_sentences
        (split_sentences (str "Ads must disclose funding. Contact us for help."))
        (split_sentences (str "Ads must disclose funding source. Contact us for help."))
        0 =
        ([(str "Ads must disclose funding.",
           str "Ads must disclose funding source.")], [], []) := by
  intro old_sents new_sents
  have hpairs : ∀ p ∈ (pair_changed_sentences old_sents new_sents 0).1,
      0 < ratioQ p.1 p.2 ∧ p.1 ∈ old_sents ∧ p.1 ∉ new_sents ∧
      p.2 ∈ new_sents ∧ p.2 ∉ old_sents := by
    intro p hp
    have hp' : p ∈ (pairLoop 0 (new_sents.filter fun s => !(old_sents.contains s))
        (old_sents.filter fun s => !(new_sents.contains s)) []).1 := hp
    obtain ⟨h1, h2, h3⟩ := pairLoop_mem 0 _ _ [] p hp'
    rw [List.mem_filter] at h1 h2
    refine ⟨h3, h1.1, ?_, h2.1, ?_⟩
    · intro hmem
      have hh := h1.2
      simp [hmem] at hh
    · intro hmem
      have hh := h2.2
      simp [hmem] at hh
  refine ⟨?_, hpairs, ?_, ?_, ?_, by decide⟩
  · intro s hso hsn
    refine ⟨?_, ?_, ?_⟩
    · intro p hp
      obtain ⟨_, _, hno, _, hnew⟩ := hpairs p hp
      constructor
      · intro he; rw [he] at hno; exact hno hsn
      · intro he; rw [he] at hnew; exact hnew hso
    · intro hmem
      have hof : s ∈ (old_sents.filter fun t => !(new_sents.contains t)) :=
        List.mem_of_mem_filter hmem
      rw [List.mem_filter] at hof
      simp [hsn] at hof
    · intro hmem
      have hof : s ∈ (new_sents.filter fun t => !(old_sents.contains t)) :=
        List.mem_of_mem_filter hmem
      rw [List.mem_filter] at hof
      simp [hso] at hof
  · intro s
    simp only [pair_changed_sentences]
    simp [List.mem_filter, and_assoc]
    tauto
  · intro s
    simp only [pair_changed_sentences]
    simp [List.mem_filter, and_assoc]
    tauto
  · intro sOld newOnly used j q hbc
    obtain ⟨h1, h2, h3, h4, h5, h6⟩ := bestCand_spec sOld newOnly used j q hbc
    refine ⟨h1, (containsFalseIff used j).mp h2, h3, h4, ?_, ?_⟩
    · intro k hk hku
      exact h5 k hk ((containsFalseIff used k).mpr hku)
    · intro k hk hku
      exact h6 k hk ((containsFalseIff used k).mpr hku)


/-- **C6 (counterexample)**  With a configured retention bound of `0`
    (`MAX_ITEMS_TOTAL = 0`, falsy in Python) and one cached item, the
    retention step keeps the item: the cache does not hold at most `N = 0`
    items afterwards. -/
theorem C6_cex_zero_bound :
    ¬ ((endOfRunRetention (maxCacheOf (some 0) [itemHello]) [itemHello]).length ≤ 0) := by
  decide

/-- **C6 (amended)**  For every cache state and every configured *positive*
    retention bound `N` (a configured `0` is falsy and is replaced by the
    pre-run item count), the retention step sorts the items by recency
    descending and truncates to `N`: the result is the first `N` of the
    stable descending sort, holds at most `N` items, every kept item is at
    least as recent as every dropped one, kept and dropped items together
    are a permutation of the input, and equal-timestamp items keep their
    prior relative order (ties broken stably). -/
theorem C6_retention_bound :
    ∀ (items : List Item) (N : Nat), 0 < N →
      maxCacheOf (some N) items = N ∧
      endOfRunRetention N items = (sortTsDesc items).take N ∧
      (endOfRunRetention N items).length ≤ N ∧
      (∀ x ∈ endOfRunRetention N items, ∀ y ∈ (sortTsDesc items).drop N,
        strLtCh x.ts y.ts = false) ∧
      (endOfRunRetention N items ++ (sortTsDesc items).drop N).Perm items ∧
      (∀ t, ∃ k, (endOfRunRetention N items).filter (fun it => it.ts = t) =
        (items.filter (fun it => it.ts = t)).take k) := by
  intro items N hN
  have hmc : maxCacheOf (some N) items = N := by
    simp [maxCacheOf, Nat.pos_iff_ne_zero.mp hN]
  have heq : endOfRunRetention N items = (sortTsDesc items).take N := by
    simp only [endOfRunRetention]
    split
    · rfl
    · next hcond =>
      have hlen : (sortTsDesc items).length ≤ N := by
        by_contra hgt
        exact hcond (by simp [Nat.pos_iff_ne_zero.mp hN]; omega)
      exact (List.take_of_length_le hlen).symm
  refine ⟨hmc, heq, ?_, ?_, ?_, ?_⟩
  · rw [heq]
    simpa using Nat.min_le_left N (sortTsDesc items).length
  · intro x hx y hy
    rw [heq] at hx
    have hp := sortTsDesc_pairwise items
    rw [← List.take_append_drop N (sortTsDesc items)] at hp
    exact (List.pairwise_append.mp hp).2.2 x hx y hy
  · rw [heq, List.take_append_drop]
    exact sortTsDesc_perm items
  · intro t
    rw [heq]
    rcases filter_take_exists (fun it => it.ts = t) N (sortTsDesc items) with ⟨k, hk⟩
    exact ⟨k, by rw [hk, filter_sortTsDesc]⟩

/-- Witness for `C6_retention_bound`. -/
theorem C6_retention_bound_w :
    (endOfRunRetention 1 [itemHello]).length ≤ 1 :=
  (C6_retention_bound [itemHello] 1 (by decide)).2.2.1

/-- **C10**  When `MAX_ITEMS_TOTAL` is not configured, the retention bound
    is the on-disk item count at the moment stats are computed — the
    pre-run count, since the new cache is saved only afterwards.  With a
    non-empty on-disk cache of `N` items the saved cache is the first `N`
    of the descending sort of the processed cache (so an append by a
    first-seen source evicts the oldest item even though no bound was
    configured); with an empty on-disk cache the count `0` is falsy and no
    truncation is applied.  The final conjunct shows the concrete eviction:
    in `envEvict` the unchanged old item is evicted and only the first-seen
    source's fresh item is saved. -/
theorem C10_unconfigured_bound_uses_prerun_count :
    (∀ (env : Env) (fileItems : List Item), env.maxItemsTotal = none →
      (fileItems ≠ [] →
        (runUpdate env fileItems).savedItems =
          (sortTsDesc (runProcessed env fileItems)).take fileItems.length ∧
        (runUpdate env fileItems).savedItems.length ≤ fileItems.length) ∧
      (fileItems = [] →
        (runUpdate env fileItems).savedItems = sortTsDesc (runProcessed env fileItems))) ∧
    ((runUpdate envEvict [itemHello]).savedItems.map Item.tag = [str "b"] ∧
      (runUpdate envEvict [itemHello]).savedItems.map Item.ts = [envEvict.now]) := by
  constructor
  · intro env fileItems hm
    constructor
    · intro hne
      have hN : fileItems.length ≠ 0 := by simpa [List.length_eq_zero] using hne
      have heq : (runUpdate env fileItems).savedItems =
          (sortTsDesc (runProcessed env fileItems)).take fileItems.length := by
        simp only [runUpdate, hm, maxCacheOf, endOfRunRetention]
        split
        · rfl
        · next hcond =>
          have hlen : (sortTsDesc (runProcessed env fileItems)).length ≤ fileItems.length := by
            by_contra hgt
            exact hcond (by simp [hN]; omega)
          exact (List.take_of_length_le hlen).symm
      refine ⟨heq, ?_⟩
      rw [heq]
      simpa using Nat.min_le_left fileItems.length (sortTsDesc (runProcessed env fileItems)).length
    · intro he
      subst he
      simp [runUpdate, hm, maxCacheOf, endOfRunRetention]
  · exact ⟨by decide, by decide⟩

/-- Witness for `C10_unconfigured_bound_uses_prerun_count`. -/
theorem C10_unconfigured_bound_w :
    (runUpdate envEvict [itemHello]).savedItems.length ≤ [itemHello].length :=
  (((C10_unconfigured_bound_uses_prerun_count).1 envEvict [itemHello] rfl).1
    (by decide)).2

/-! ### Lemmas for key uniqueness (C7) -/

/-- Setting a position of a list to the value it already holds is the
    identity. -/
theorem set_getElem_self {α : Type} : ∀ (l : List α) (i : Nat) (a : α),
    l[i]? = some a → l.set i a = l := by
  intro l
  induction l with
  | nil => intro i a h; simp at h
  | cons x xs ih =>
    intro i a h
    cases i with
    | zero => simp at h; simp [h]
    | succ j =>
      simp only [List.getElem?_cons_succ] at h
      simp [List.set_cons_succ, ih j a h]

/-- `idxFind` after `idxSet`. -/
theorem idxFind_idxSet (m : List (Key × Nat)) (k q : Key) (i : Nat) :
    idxFind (idxSet m k i) q = if q = k then some i else idxFind m q := by
  simp only [idxFind, idxSet, List.find?]
  by_cases h : q = k
  · simp [h]
  · have h2 : ¬ (k = q) := fun hh => h hh.symm
    simp [h, h2]

/-- `buildIdx` over a snoc. -/
theorem buildIdx_concat (c : List Item) (x : Item) :
    buildIdx (c ++ [x]) = idxSet (buildIdx c) (itemKey x) c.length := by
  simp [buildIdx, List.enum_append, List.foldl_append, List.enumFrom, idxSet]

/-- Soundness of the initial index: every binding points at an item in the
    cache carrying that key. -/
theorem buildIdx_sound : ∀ (cc : List Item) (k : Key) (i : Nat),
    idxFind (buildIdx cc) k = some i → ∃ it, cc[i]? = some it ∧ itemKey it = k := by
  intro cc
  induction cc using List.reverseRecOn with
  | nil => intro k i h; simp [buildIdx, idxFind] at h
  | append_singleton c x ih =>
    intro k i h
    rw [buildIdx_concat, idxFind_idxSet] at h
    by_cases hk : k = itemKey x
    · rw [if_pos hk] at h
      cases h
      exact ⟨x, by simp, hk.symm⟩
    · rw [if_neg hk] at h
      rcases ih k i h with ⟨it, hit, hkey⟩
      have hi : i < c.length := (List.getElem?_eq_some.mp hit).choose
      exact ⟨it, by rw [List.getElem?_append, if_pos hi]; exact hit, hkey⟩

/-- Completeness of the initial index: the key of every cached item is
    bound. -/
theorem buildIdx_complete : ∀ (cc : List Item) (it : Item), it ∈ cc →
    idxFind (buildIdx cc) (itemKey it) ≠ none := by
  intro cc
  induction cc using List.reverseRecOn with
  | nil => intro it h; simp at h
  | append_singleton c x ih =>
    intro it h
    rw [buildIdx_concat, idxFind_idxSet]
    rcases List.mem_append.mp h with h1 | h2
    · by_cases hk : itemKey it = itemKey x
      · simp [hk]
      · simpa [hk] using ih it h1
    · simp only [List.mem_singleton] at h2
      subst h2
      simp

/-- Replacing the item at the index bound to its key preserves the key list
    and the index invariant. -/
theorem upsert_replace_inv (cache : List Item) (idx : List (Key × Nat))
    (item : Item) (i : Nat)
    (hnd : (cache.map itemKey).Nodup)
    (hsound : ∀ k j, idxFind idx k = some j →
      ∃ it, cache[j]? = some it ∧ itemKey it = k)
    (hcompl : ∀ it ∈ cache, idxFind idx (itemKey it) ≠ none)
    (hidx : idxFind idx (itemKey item) = some i) :
    (((cache.set i item).map itemKey).Nodup ∧
     (∀ k j, idxFind idx k = some j →
       ∃ it, (cache.set i item)[j]? = some it ∧ itemKey it = k) ∧
     (∀ it ∈ cache.set i item, idxFind idx (itemKey it) ≠ none)) := by
  rcases hsound _ i hidx with ⟨it0, hit0, hkey0⟩
  have hi : i < cache.length := (List.getElem?_eq_some.mp hit0).choose
  have hkeys : (cache.set i item).map itemKey = cache.map itemKey := by
    rw [List.map_set]
    apply set_getElem_self
    rw [List.getElem?_map, hit0]
    simp [hkey0]
  refine ⟨by rw [hkeys]; exact hnd, ?_, ?_⟩
  · intro k j h
    rcases hsound k j h with ⟨it, hit, hkey⟩
    by_cases hij : j = i
    · subst hij
      rw [hit0] at hit
      cases hit
      refine ⟨item, List.getElem?_set_self hi, by rw [← hkey, ← hkey0]⟩
    · exact ⟨it, by
        rw [List.getElem?_set_ne (fun h5 => hij h5.symm)]; exact hit, hkey⟩
  · intro it hit
    rcases List.mem_or_eq_of_mem_set hit with h1 | h2
    · exact hcompl it h1
    · subst h2
      rw [hidx]
      simp

/-- Appending an item whose key is unbound preserves key uniqueness and the
    index invariant for the extended index. -/
theorem upsert_append_inv (cache : List Item) (idx : List (Key × Nat))
    (item : Item)
    (hnd : (cache.map itemKey).Nodup)
    (hsound : ∀ k j, idxFind idx k = some j →
      ∃ it, cache[j]? = some it ∧ itemKey it = k)
    (hcompl : ∀ it ∈ cache, idxFind idx (itemKey it) ≠ none)
    (hidx : idxFind idx (itemKey item) = none) :
    (((cache ++ [item]).map itemKey).Nodup ∧
     (∀ k j, idxFind (idxSet idx (itemKey item) cache.length) k = some j →
       ∃ it, (cache ++ [item])[j]? = some it ∧ itemKey it = k) ∧
     (∀ it ∈ cache ++ [item],
       idxFind (idxSet idx (itemKey item) cache.length) (itemKey it) ≠ none)) := by
  refine ⟨?_, ?_, ?_⟩
  · rw [List.map_append]
    refine List.Nodup.append hnd (by simp) ?_
    intro k hk hk2
    simp only [List.map_cons, List.map_nil, List.mem_singleton] at hk2
    rcases List.mem_map.mp hk with ⟨it, hit, rfl⟩
    rw [← hk2] at hidx
    exact hcompl it hit hidx
  · intro k j h
    rw [idxFind_idxSet] at h
    by_cases hk : k = itemKey item
    · rw [if_pos hk] at h
      cases h
      exact ⟨item, by simp, hk.symm⟩
    · rw [if_neg hk] at h
      rcases hsound k j h with ⟨it, hit, hkey⟩
      have hj : j < cache.length := (List.getElem?_eq_some.mp hit).choose
      exact ⟨it, by rw [List.getElem?_append, if_pos hj]; exact hit, hkey⟩
  · intro it hit
    rw [idxFind_idxSet]
    rcases List.mem_append.mp hit with h1 | h2
    · by_cases hk : itemKey it = itemKey item
      · simp [hk]
      · simpa [hk] using hcompl it h1
    · simp only [List.mem_singleton] at h2
      subst h2
      simp

/-- `processSource` preserves the index invariant and key uniqueness. -/
theorem processSource_keys_nodup :
    ∀ (st : RunSt) (src : Source) (doc : Doc) (cr : ChatRes) (now : Str),
      (st.cache.map itemKey).Nodup →
      (∀ k i, idxFind st.idx k = some i →
        ∃ it, st.cache[i]? = some it ∧ itemKey it = k) →
      (∀ it ∈ st.cache, idxFind st.idx (itemKey it) ≠ none) →
      (((processSource st src doc cr now).1.cache.map itemKey).Nodup ∧
       (∀ k i, idxFind (processSource st src doc cr now).1.idx k = some i →
         ∃ it, (processSource st src doc cr now).1.cache[i]? = some it ∧ itemKey it = k) ∧
       (∀ it ∈ (processSource st src doc cr now).1.cache,
         idxFind (processSource st src doc cr now).1.idx (itemKey it) ≠ none)) := by
  intro st src doc cr now hnd hsound hcompl
  simp only [processSource]
  split
  · exact ⟨hnd, hsound, hcompl⟩
  · split
    · exact ⟨hnd, hsound, hcompl⟩
    · rcases hidx : idxFind st.idx
          (src.tag.getD [], fix_facebook_url (src.url.getD []),
            src.region.getD (str "GLOBAL")) with _ | i
      · simp only [hidx]
        exact upsert_append_inv st.cache st.idx _ hnd hsound hcompl hidx
      · simp only [hidx]
        exact upsert_replace_inv st.cache st.idx _ i hnd hsound hcompl hidx

/-- The per-source loop preserves key uniqueness of the cache. -/
theorem runLoop_keys_nodup (env : Env) :
    ∀ (ps : List (Nat × Source)) (st : RunSt),
      (st.cache.map itemKey).Nodup →
      (∀ k i, idxFind st.idx k = some i →
        ∃ it, st.cache[i]? = some it ∧ itemKey it = k) →
      (∀ it ∈ st.cache, idxFind st.idx (itemKey it) ≠ none) →
      ((runLoop env ps st).cache.map itemKey).Nodup := by
  intro ps
  induction ps with
  | nil => intro st h _ _; simpa [runLoop] using h
  | cons p rest ih =>
    intro st h1 h2 h3
    simp only [runLoop]
    split
    · exact h1
    · split
      · exact ih st h1 h2 h3
      · split
        · exact ih _ h1 h2 h3
        · rcases processSource_keys_nodup st p.2 _ _ env.now h1 h2 h3 with ⟨a, b, c⟩
          exact ih _ a b c

/-- **C7 (counterexample)**  A run over a starting cache that already
    contains two items with the same `(tag, url, region)` key (the single
    configured source is fetched and unchanged): both duplicates survive
    the run, so the saved cache does not contain at most one item per
    key. -/
theorem C7_cex_duplicates_persist :
    (runUpdate envDup [itemHello, itemHello2]).savedItems.map itemKey =
      [itemKey itemHello, itemKey itemHello] ∧
    ¬ ((runUpdate envDup [itemHello, itemHello2]).savedItems.map itemKey).Nodup := by
  exact ⟨by decide, by decide⟩

/-- **C7 (amended)**  If the starting cache contains at most one item per
    `(tag, url, region)` key, then so does the cache saved by any run: the
    upsert path replaces the existing item for a present key in place and
    appends only when the key is absent, and pruning, sorting and
    truncation preserve the property.  (A starting cache that already holds
    duplicate keys is not repaired: only the last-indexed duplicate is
    replaced and the others survive, as the counterexample shows.) -/
theorem C7_key_uniqueness :
    ∀ (env : Env) (fileItems : List Item),
      (fileItems.map itemKey).Nodup →
      ((runUpdate env fileItems).savedItems.map itemKey).Nodup := by
  intro env fileItems h
  have hloop := runLoop_keys_nodup env env.sources.enum (initSt env fileItems)
    (by simpa [initSt] using h)
    (by intro k i hh; exact buildIdx_sound _ _ _ hh)
    (by intro it hit; exact buildIdx_complete _ _ hit)
  have hpruned : ((runProcessed env fileItems).map itemKey).Nodup := by
    unfold runProcessed pruneCache
    split
    · exact hloop.sublist ((List.filter_sublist _).map itemKey)
    · exact hloop
  have hsorted : ((sortTsDesc (runProcessed env fileItems)).map itemKey).Nodup :=
    (((sortTsDesc_perm (runProcessed env fileItems)).map itemKey).nodup_iff).mpr hpruned
  simp only [runUpdate, endOfRunRetention]
  split
  · exact hsorted.sublist ((List.take_sublist _ _).map itemKey)
  · exact hsorted

/-- Witness for `C7_key_uniqueness`. -/
theorem C7_key_uniqueness_w :
    ((runUpdate envEvict [itemHello]).savedItems.map itemKey).Nodup :=
  C7_key_uniqueness envEvict [itemHello] (by decide)

/-- **C8 (counterexample)**  A changed source whose LLM call raises
    `LLMError`: the newly stored cached item carries the deterministic
    fallback summary built from the *new* page text, not the previous
    summary `"Old summary"` — the previous summary is not retained. -/
theorem C8_cex_fallback_replaces_previous_summary :
    (processSource stC8 srcC8 docC8 ChatRes.llmError
        (str "2025-10-12T00:00:00+00:00")).2.changed = true ∧
    (processSource stC8 srcC8 docC8 ChatRes.llmError
        (str "2025-10-12T00:00:00+00:00")).1.cache.map Item.summary =
      [str "Completely new policy text appears."] ∧
    itemOldSum.summary = str "Old summary" ∧
    (str "Completely new policy text appears." : Str) ≠ str "Old summary" := by
  exact ⟨by decide, by decide, by decide, by decide⟩

set_option maxHeartbeats 4000000 in
/-- **C8 (amended)**  For a changed source, the effect of a summarization
    failure depends on the exception.  A raised `LLMError` (the wrapper for
    the retryable HTTP statuses, a missing API key or a malformed response
    body) is non-fatal: `summarize_rules` catches it and returns the
    deterministic fallback summary built from the freshly fetched text, so
    no error is recorded, the run continues, and the newly stored cached
    item carries the fallback summary — not the previous summary, which
    does not enter the computation.  Any other exception (re-raised
    unwrapped by `_post_json`'s final retry attempt: `HTTPError`,
    `ConnectionError`, `Timeout`, `JSONDecodeError`) is caught nowhere: it
    leaves the in-run state untouched apart from aborting the run, and the
    aborted run never reaches `save_cache`, so nothing is persisted. -/
theorem C8_summarize_failure_fallback :
    ∀ (st : RunSt) (src : Source) (doc : Doc) (now : Str),
      st.trans.find? (fun p => p.1 = compute_hash (normalize_plain (clean_html doc).2.1)) =
        none →
      (∀ p ∈ st.idx, p.2 < st.cache.length) →
      (pyStrip (chatSource (clean_html doc).2.1)).isEmpty = false →
      (processSource st src doc ChatRes.llmError now).2.changed = true →
      ((processSource st src doc ChatRes.llmError now).1.errors = st.errors ∧
       (processSource st src doc ChatRes.llmError now).1.fatal = st.fatal ∧
       (processSource st src doc ChatRes.llmError now).2.summarized = true ∧
       summarize_rules ChatRes.llmError (clean_html doc).2.1 =
         Except.ok (llmFallbackFor doc) ∧
       (processSource st src doc ChatRes.llmError now).1.trans =
         (compute_hash (normalize_plain (clean_html doc).2.1),
           llmFallbackFor doc) :: st.trans ∧
       pyStrip (llmFallbackFor doc) ∈
         (processSource st src doc ChatRes.llmError now).1.cache.map Item.summary) ∧
      ((processSource st src doc ChatRes.fatal now).1 = { st with fatal := true } ∧
       (processSource st src doc ChatRes.fatal now).2.summarized = false ∧
       (∀ (env : Env) (fileItems : List Item),
         (runLoop env env.sources.enum (initSt env fileItems)).fatal = true →
           (runUpdate env fileItems).aborted = true) ∧
       (runUpdate envFatal [itemOldSum]).aborted = true ∧
       (runUpdate envEvict [itemHello]).aborted = false) := by
  intro st src doc now htr hvalid hne hch
  have hsumE : summarize_rules ChatRes.llmError (clean_html doc).2.1 =
      Except.ok (llmFallbackFor doc) := by
    unfold summarize_rules llmFallbackFor
    dsimp only
    rw [hne]
    simp
  have hsumF : summarize_rules ChatRes.fatal (clean_html doc).2.1 =
      Except.error () := by
    unfold summarize_rules
    dsimp only
    rw [hne]
    simp
  simp only [processSource] at hch ⊢
  split at hch
  case isTrue h => simp at hch
  case isFalse h =>
    simp only [if_neg h]
    rw [htr, hsumE, hsumF]
    simp only [Option.map_none', Option.map]
    constructor
    · rcases hidx : idxFind st.idx
          (src.tag.getD [], fix_facebook_url (src.url.getD []),
            src.region.getD (str "GLOBAL")) with _ | i
      · simp only [hidx]
        refine ⟨by trivial, by trivial, by trivial, by trivial, by trivial, ?_⟩
        rw [List.map_append]
        simp
      · simp only [hidx]
        refine ⟨by trivial, by trivial, by trivial, by trivial, by trivial, ?_⟩
        have hi : i < st.cache.length := by
          rcases hfind : List.find? (fun p => p.1 =
              (src.tag.getD [], fix_facebook_url (src.url.getD []),
                src.region.getD (str "GLOBAL"))) st.idx with _ | q
          · simp [idxFind, hfind] at hidx
          · have hq : q ∈ st.idx := List.mem_of_find?_eq_some hfind
            have hqi : q.2 = i := by simpa [idxFind, hfind] using hidx
            rw [← hqi]
            exact hvalid q hq
        rw [List.map_set]
        have hi2 : i < (List.map Item.summary st.cache).length := by simpa using hi
        simp only [Option.map]
        exact List.getElem?_mem (List.getElem?_set_self hi2)
    · refine ⟨by trivial, by trivial, ?_, by decide, by decide⟩
      intro env fileItems hf
      simp only [runUpdate]
      exact hf

/-- Witness for `C8_summarize_failure_fallback` at the concrete fixture:
    a changed page, an `LLMError` from the LLM call, no recorded error. -/
theorem C8_summarize_failure_fallback_w :
    (processSource stC8 srcC8 docC8 ChatRes.llmError
        (str "2025-10-12T00:00:00+00:00")).1.errors = stC8.errors :=
  (C8_summarize_failure_fallback stC8 srcC8 docC8
    (str "2025-10-12T00:00:00+00:00") (by decide) (by decide) (by decide)
    (by decide)).1.1

end MNB
